import Mathlib

/-
  A shallow embedding of the buddy allocator from ludviggunne/buddy.h.

  The repository contains two variants of the allocator:
  * the arena variant (buddy.h): `buddy_init`, `buddy_alloc`, `buddy_free`
    over a caller-supplied region, with internals `is_left`, `try_merge`,
    `split`, `get_next`, `p2align_down`;
  * the heap-replacement variant (the header with `balloc` / `bfree` /
    `brealloc` / `bcalloc`), with internals `init`, `grow`, `split`, `join`,
    a rotating search cursor `next`, and a recursive lock.

  Modelling conventions:
  * addresses are byte offsets from the region base (`start` = offset 0);
    `end` is modelled by the field `total`;
  * the machine is 64-bit: `size_t` arithmetic that can wrap is taken
    modulo 2^64 (`sub64`); constants: `offsetof(struct block, mem)` = 16
    on x86-64 for both variants (8-byte `size`, then padding to the
    `max_align_t` / word alignment of `mem`), `MINBLOCKSIZE` = 16 (heap),
    `BLOCK_MIN_SIZE` = 16 + sizeof(word_t) = 24 (arena), page size 4096;
  * raw memory is modelled at header granularity: a list of
    (offset, header) cells where a later write shadows an earlier one.
    Reading at an offset that holds no header (a garbage read in C) makes
    the embedded operation return `none` ("stuck"); `some` results
    correspond exactly to executions the C code performs with well-defined
    reads.  Payload bytes live in a separate byte map `data`; writing a
    header clobbers the 16 bytes it occupies;
  * `sbrk` is modelled by a budget `brk` of bytes the OS will still grant;
    an extension request larger than the budget fails (returns -1 in C);
  * the recursive mutex is a hold counter `lock`;
  * loops that the C source writes as `while`/`for` are embedded with an
    explicit fuel argument; the top-level entry points pass fuel that is
    proved sufficient on states satisfying the allocator invariants, and
    exhausted fuel yields `none` ("stuck"), never a C-visible result.
-/

/-- Numeric bound of 64-bit size_t arithmetic. -/
def W64 : Nat := 2 ^ 64

/-- Heap variant: offset of the usable memory region in a block. -/
def MEMOFFSET : Nat := 16

/-- Heap variant: the smallest size a block can be. -/
def MINBLOCKSIZE : Nat := 16

/-- Heap variant: the OS page size used for the initial region. -/
def PAGESIZE : Nat := 4096

/-- Arena variant: offset of the usable memory region in a block. -/
def BLOCK_MEM_OFFSET : Nat := 16

/-- Arena variant: BLOCK_MEM_OFFSET + sizeof(word_t). -/
def BLOCK_MIN_SIZE : Nat := 24

/-- size_t subtraction with 64-bit wrap-around (valid for `b ≤ 2^64`). -/
def sub64 (a b : Nat) : Nat := (a + W64 - b) % W64

/-- Heap variant block header: `size_t size; int used;`. -/
structure Block where
  size : Nat
  used : Bool
deriving Repr, DecidableEq

/-- Arena variant block header: `size_t size; byte_t free;`. -/
structure ABlock where
  size : Nat
  free : Bool
deriving Repr, DecidableEq

/-- Global state of the heap-replacement variant: the raw header cells,
`end` (`total`), the rotating cursor `next` (`nxt`), the remaining
program-break budget, the recursive-mutex hold count, the
`Buddy_Is_Init` flag, and the payload byte memory. -/
structure Heap where
  mem : List (Nat × Block)
  total : Nat
  nxt : Nat
  brk : Nat
  lock : Nat
  isInit : Bool
  data : Nat → Nat

/-- State of the arena variant: the raw header cells of the caller's
region and `stop - start` (`total`). -/
structure Arena where
  mem : List (Nat × ABlock)
  total : Nat
deriving Repr, DecidableEq

/-- Read the heap-variant block header stored at offset `o`. -/
def hdr (h : Heap) (o : Nat) : Option Block :=
  (h.mem.find? (fun p => p.1 == o)).map (fun p => p.2)

/-- Overwrite one byte of payload memory. -/
def dwrite (d : Nat → Nat) (a v : Nat) : Nat → Nat :=
  fun x => if x = a then v else d x

/-- Overwrite a byte range of payload memory (models `memset` and the
garbage a header write leaves in the bytes it occupies). -/
def dfill (d : Nat → Nat) (a n v : Nat) : Nat → Nat :=
  fun x => if a ≤ x ∧ x < a + n then v else d x

/-- Write a heap-variant block header at offset `o`, clobbering the
payload bytes it occupies. -/
def writeHdr (h : Heap) (o : Nat) (b : Block) : Heap :=
  { h with mem := (o, b) :: h.mem, data := dfill h.data o MEMOFFSET 0 }

/-- Read the arena-variant block header stored at offset `o`. -/
def hdrA (a : Arena) (o : Nat) : Option ABlock :=
  (a.mem.find? (fun p => p.1 == o)).map (fun p => p.2)

/-- Write an arena-variant block header at offset `o`. -/
def writeA (a : Arena) (o : Nat) (b : ABlock) : Arena :=
  { a with mem := (o, b) :: a.mem }

/- ARENA VARIANT (buddy.h). -/

/-- Embeds `p2align_down`: the bit-smearing computation of buddy.h on a
64-bit `size_t`. -/
def p2align_down (size : Nat) : Nat :=
  let s := (size + (W64 - 1)) % W64
  let s := s ||| (s >>> 1)
  let s := s ||| (s >>> 2)
  let s := s ||| (s >>> 4)
  let s := s ||| (s >>> 8)
  let s := s ||| (s >>> 16)
  let s := s ||| (s >>> 32)
  let s := (s + 1) % W64
  s >>> 1

/-- Embeds `buddy_init`: rounds the size with `p2align_down`, installs a
single free block at the region base, and records `stop = start + size`. -/
def buddy_init (size : Nat) : Arena :=
  let s := p2align_down size
  { mem := [(0, ⟨s, true⟩)], total := s }

/-- Embeds the search loop of `buddy_alloc` (scan from `start`, advance
with `get_next`, `NULL` once `get_next` reaches `stop`).
`some none` = the C loop returns NULL; `some (some o)` = found block. -/
def afit (fuel : Nat) (a : Arena) (req o : Nat) : Option (Option Nat) :=
  match fuel with
  | 0 => none
  | f + 1 =>
    match hdrA a o with
    | none => none
    | some b =>
      if !b.free || sub64 b.size BLOCK_MEM_OFFSET < req then
        let o2 := o + b.size
        if a.total ≤ o2 then some none
        else afit f a req o2
      else some (some o)

/-- Embeds the best-fit loop of `buddy_alloc`: while the halved block
still holds the request, `split` it (which refuses, returning NULL and
ending the loop, when `size / 2 < BLOCK_MIN_SIZE`). -/
def asplitLoop (fuel : Nat) (a : Arena) (o req : Nat) : Option Arena :=
  match fuel with
  | 0 => none
  | f + 1 =>
    match hdrA a o with
    | none => none
    | some b =>
      if sub64 (b.size / 2) BLOCK_MEM_OFFSET ≥ req then
        if b.size / 2 < BLOCK_MIN_SIZE then some a
        else
          let ns := b.size / 2
          let a1 := writeA a o { b with size := ns }
          let a2 := writeA a1 (o + ns) ⟨ns, true⟩
          asplitLoop f a2 o req
      else some a

/-- Embeds `buddy_alloc`: reject size 0, first-fit search from `start`,
best-fit splitting, mark the block used, return its payload address. -/
def buddy_alloc (a : Arena) (size : Nat) : Option (Option Nat × Arena) :=
  if size == 0 then some (none, a)
  else
    match afit (a.total + 2) a size 0 with
    | none => none
    | some none => some (none, a)
    | some (some o) =>
      match asplitLoop (a.total + 2) a o size with
      | none => none
      | some a2 =>
        match hdrA a2 o with
        | none => none
        | some b =>
          some (some (o + BLOCK_MEM_OFFSET), writeA a2 o { b with free := false })

/-- Embeds `try_merge`: decide polarity with `is_left`, locate the buddy,
refuse when the buddy is past `stop`, not free, or of a different size;
otherwise write the doubled free block at the left member and return it.
`some none` = the C function returns NULL. -/
def try_merge (a : Arena) (o : Nat) : Option (Option (Nat × Arena)) :=
  match hdrA a o with
  | none => none
  | some b =>
    if b.size == 0 then none
    else
      let m := (b.size * 2) % W64
      if m == 0 then none
      else if o % m == 0 then
        let buddy := o + b.size
        if a.total ≤ buddy then some none
        else
          match hdrA a buddy with
          | none => none
          | some bb =>
            if !bb.free || bb.size != b.size then some none
            else some (some (o, writeA a o ⟨m, true⟩))
      else
        if o < b.size then none
        else
          let buddy := o - b.size
          if a.total ≤ buddy then some none
          else
            match hdrA a buddy with
            | none => none
            | some bb =>
              if !bb.free || bb.size != b.size then some none
              else some (some (buddy, writeA a buddy ⟨m, true⟩))

/-- Embeds the `while ((block = try_merge(...)))` loop of `buddy_free`. -/
def buddy_free_loop (fuel : Nat) (a : Arena) (o : Nat) : Option Arena :=
  match fuel with
  | 0 => none
  | f + 1 =>
    match try_merge a o with
    | none => none
    | some none => some a
    | some (some (o2, a2)) => buddy_free_loop f a2 o2

/-- Embeds `buddy_free`: recover the block from the payload pointer and
run `try_merge` until it fails. -/
def buddy_free (a : Arena) (p : Nat) : Option Arena :=
  buddy_free_loop (a.total + 2) a (p - BLOCK_MEM_OFFSET)

/- HEAP-REPLACEMENT VARIANT. -/

/-- Embeds `init`: re-initialize and take the lock, bail out if already
initialized (the C early return keeps the lock), otherwise extend the
break by one page, install a single free page-sized block, set
`next = start`, raise the flag and release the lock.  A failing initial
`sbrk` is the C `assert(0)`, modelled as `none`. -/
def init (h : Heap) : Option Heap :=
  let h1 : Heap := { h with lock := 1 }
  if h1.isInit then some h1
  else if h1.brk < PAGESIZE then none
  else
    some { mem := [(0, ⟨PAGESIZE, false⟩)], total := PAGESIZE, nxt := 0,
           brk := h1.brk - PAGESIZE, lock := 0, isInit := true,
           data := dfill h1.data 0 MEMOFFSET 0 }

/-- Embeds the doubling loop of `grow`'s single-free-block regime:
`while (size < required) size *= 2`. -/
def doubleUp (fuel size required : Nat) : Option Nat :=
  match fuel with
  | 0 => none
  | f + 1 => if size < required then doubleUp f ((size * 2) % W64) required else some size

/-- Embeds the general do-while regime of `grow`: extend the break by the
current region size, install the new space as one free block at the old
`end`, repeat until the installed block meets the required size.
`some none` = sbrk failed, grow returns NULL. -/
def growLoop (fuel : Nat) (h : Heap) (required : Nat) : Option (Option Nat × Heap) :=
  match fuel with
  | 0 => none
  | f + 1 =>
    let current := h.total
    if h.brk < current then some (none, h)
    else
      let h1 := { h with brk := h.brk - current }
      let b := h1.total
      let h2 := writeHdr h1 b ⟨current, false⟩
      let h3 := { h2 with total := b + current }
      if current < required then growLoop f h3 required
      else some (some b, h3)

/-- Embeds `grow`: compute the required block size, take the
single-free-block regime when `NEXT(start) == end && !start->used`
(double `start`'s size, extend the break by the difference, move `end`),
otherwise run the general regime. -/
def grow (h : Heap) (req : Nat) : Option (Option Nat × Heap) :=
  let required := (req + MEMOFFSET) % W64
  match hdr h 0 with
  | none => none
  | some s0 =>
    if s0.size == h.total && !s0.used then
      match doubleUp (required + 2) s0.size required with
      | none => none
      | some size =>
        if h.brk < sub64 size s0.size then some (none, h)
        else
          let h1 := { h with brk := h.brk - sub64 size s0.size }
          let h2 := writeHdr h1 0 { s0 with size := size }
          some (some 0, { h2 with total := size })
    else
      growLoop (required + 2) h required

/-- Result of the search loop of `balloc`. -/
inductive FitRes where
  | found (o : Nat) (h : Heap)
  | nomem (h : Heap)

/-- Embeds the search loop of `balloc`: start at the cursor, skip blocks
that are used or too small, advance with `NEXT`, wrap from `end` to
`start`, and call `grow` after a full cycle back to the cursor. -/
def fit (fuel : Nat) (h : Heap) (req o : Nat) : Option FitRes :=
  match fuel with
  | 0 => none
  | f + 1 =>
    match hdr h o with
    | none => none
    | some b =>
      if sub64 b.size MEMOFFSET < req || b.used then
        let o2 := o + b.size
        let o3 := if o2 == h.total then 0 else o2
        if o3 == h.nxt then
          match grow h req with
          | none => none
          | some (none, h2) => some (.nomem h2)
          | some (some bo, h2) => some (.found bo h2)
        else fit f h req o3
      else some (.found o h)

/-- Embeds the best-fit loop of `balloc`:
`while (HALFMEMSIZE(block) >= size && block->size > MINBLOCKSIZE) split(block)`. -/
def splitLoop (fuel : Nat) (h : Heap) (o req : Nat) : Option Heap :=
  match fuel with
  | 0 => none
  | f + 1 =>
    match hdr h o with
    | none => none
    | some b =>
      if sub64 (b.size / 2) MEMOFFSET ≥ req && b.size > MINBLOCKSIZE then
        let ns := b.size / 2
        let h1 := writeHdr h o { b with size := ns }
        let h2 := writeHdr h1 (o + ns) ⟨ns, false⟩
        splitLoop f h2 o req
      else some h

/-- Embeds `balloc`: lazy `init`, reject size 0, lock, search (growing on
exhaustion), best-fit split, advance the cursor with wrap-around, mark the
block used, unlock and return its payload address. -/
def balloc (h : Heap) (size : Nat) : Option (Option Nat × Heap) :=
  match (if h.isInit then some h else init h) with
  | none => none
  | some h0 =>
    if size == 0 then some (none, h0)
    else
      let h1 := { h0 with lock := h0.lock + 1 }
      match fit (2 * h1.total + 4) h1 size h1.nxt with
      | none => none
      | some (.nomem h2) => some (none, { h2 with lock := h2.lock - 1 })
      | some (.found o h2) =>
        match splitLoop (h2.total + 2) h2 o size with
        | none => none
        | some h3 =>
          match hdr h3 o with
          | none => none
          | some b =>
            let n2 := o + b.size
            let n3 := if n2 == h3.total then 0 else n2
            let h4 := { h3 with nxt := n3 }
            let h5 := writeHdr h4 o { b with used := true }
            some (some (o + MEMOFFSET), { h5 with lock := h5.lock - 1 })

/-- Embeds the loop of `join`: decide polarity from the offset and the
current size, stop when the buddy is `end`, has a different size, or is
used, otherwise move to the left member and double the size.  Returns the
final (offset, size) pair; `join`'s single header write is done by the
caller. -/
def joinLoop (fuel : Nat) (h : Heap) (o size : Nat) : Option (Nat × Nat) :=
  match fuel with
  | 0 => none
  | f + 1 =>
    if size == 0 then none
    else
      let m := (size * 2) % W64
      if m == 0 then none
      else if o % m == 0 then
        let buddy := o + size
        if buddy == h.total then some (o, size)
        else
          match hdr h buddy with
          | none => none
          | some bb =>
            if bb.size != size || bb.used then some (o, size)
            else joinLoop f h o m
      else
        if o < size then none
        else
          let buddy := o - size
          if buddy == h.total then some (o, size)
          else
            match hdr h buddy with
            | none => none
            | some bb =>
              if bb.size != size || bb.used then some (o, size)
              else joinLoop f h buddy m

/-- Embeds `bfree`: ignore NULL, lock, recover the block, run `join`
(whose final write marks the joined block free), point the cursor at the
joined block, unlock. -/
def bfree (h : Heap) (p : Nat) : Option Heap :=
  if p == 0 then some h
  else
    let h1 := { h with lock := h.lock + 1 }
    let o := p - MEMOFFSET
    match hdr h1 o with
    | none => none
    | some b =>
      match joinLoop (h1.total + 2) h1 o b.size with
      | none => none
      | some (jo, js) =>
        let h2 := writeHdr h1 jo ⟨js, false⟩
        some { h2 with nxt := jo, lock := h2.lock - 1 }

/-- Embeds the shrink loop of `brealloc`:
`while ((block->size / 2 - MEMOFFSET) >= size) split(block)`. -/
def shrinkLoop (fuel : Nat) (h : Heap) (o req : Nat) : Option Heap :=
  match fuel with
  | 0 => none
  | f + 1 =>
    match hdr h o with
    | none => none
    | some b =>
      if sub64 (b.size / 2) MEMOFFSET ≥ req then
        let ns := b.size / 2
        let h1 := writeHdr h o { b with size := ns }
        let h2 := writeHdr h1 (o + ns) ⟨ns, false⟩
        shrinkLoop f h2 o req
      else some h

/-- Embeds the rightward-absorption loop of `brealloc`: commit once the
virtual size meets `BLOCKSIZE(size)`; stop when the block is not a left
buddy at the virtual size, the buddy is `end`, has a different size, or
is used.  `some (some bs)` = commit with size `bs`; `some none` = the
loop broke without committing. -/
def absorb (fuel : Nat) (h : Heap) (o bs req : Nat) : Option (Option Nat) :=
  match fuel with
  | 0 => none
  | f + 1 =>
    if bs ≥ (req + MEMOFFSET) % W64 then some (some bs)
    else if bs == 0 then none
    else
      let m := (bs * 2) % W64
      if m == 0 then none
      else if o % m != 0 then some none
      else
        let buddy := o + bs
        if buddy == h.total then some none
        else
          match hdr h buddy with
          | none => none
          | some bb =>
            if bb.size != bs || bb.used then some none
            else absorb f h o m req

/-- Embeds the forward copy loop of `brealloc`
(`for (i = 0; i < n; i++) dst[i] = src[i]`). -/
def copyFwd (d : Nat → Nat) (src dst : Nat) : Nat → (Nat → Nat)
  | 0 => d
  | n + 1 => copyFwd (dwrite d dst (d src)) (src + 1) (dst + 1) n

/-- Embeds the backward copy loop of `brealloc`
(`for (i = n; i > 0; i--) dst[i-1] = src[i-1]`). -/
def copyBwd (d : Nat → Nat) (src dst : Nat) : Nat → (Nat → Nat)
  | 0 => d
  | n + 1 => copyBwd (dwrite d (dst + n) (d (src + n))) src dst n

/-- Embeds `brealloc`: lock; NULL delegates to `balloc` after unlocking;
size 0 frees and returns NULL; shrink in place when the payload already
fits (cursor written without the wrap check, as in the source); otherwise
try rightward absorption (committing writes the absorbed size, again with
an unwrapped cursor); otherwise free, allocate, on failure restore the old
block header and fail, on success copy `MEMSIZE(block)` bytes in the
overlap-safe direction. -/
def brealloc (h : Heap) (p size : Nat) : Option (Option Nat × Heap) :=
  let h1 := { h with lock := h.lock + 1 }
  if p == 0 then
    balloc { h1 with lock := h1.lock - 1 } size
  else if size == 0 then
    match bfree h1 p with
    | none => none
    | some h2 => some (none, { h2 with lock := h2.lock - 1 })
  else
    let o := p - MEMOFFSET
    match hdr h1 o with
    | none => none
    | some b =>
      if sub64 b.size MEMOFFSET ≥ size then
        match shrinkLoop (h1.total + 2) h1 o size with
        | none => none
        | some h2 =>
          match hdr h2 o with
          | none => none
          | some b2 =>
            let h3 := { h2 with nxt := o + b2.size }
            some (some (o + MEMOFFSET), { h3 with lock := h3.lock - 1 })
      else
        match absorb (h1.total + 2) h1 o b.size size with
        | none => none
        | some (some ns) =>
          let h2 := writeHdr h1 o { b with size := ns }
          let h3 := { h2 with nxt := o + ns }
          some (some (o + MEMOFFSET), { h3 with lock := h3.lock - 1 })
        | some none =>
          let block_size := b.size
          match bfree h1 p with
          | none => none
          | some h2 =>
            match balloc h2 size with
            | none => none
            | some (none, h3) =>
              let h4 := writeHdr h3 o ⟨block_size, true⟩
              some (none, { h4 with lock := h4.lock - 1 })
            | some (some q, h3) =>
              match hdr h3 o with
              | none => none
              | some bold =>
                let cnt := sub64 bold.size MEMOFFSET
                let h4 :=
                  if q < p then { h3 with data := copyFwd h3.data p q cnt }
                  else { h3 with data := copyBwd h3.data p q cnt }
                some (some q, { h4 with lock := h4.lock - 1 })

/-- Embeds `bcalloc`: multiply the sizes with size_t wrap-around,
allocate, and zero the payload with `memset`. -/
def bcalloc (h : Heap) (nitems size : Nat) : Option (Option Nat × Heap) :=
  let sz := (nitems * size) % W64
  match balloc h sz with
  | none => none
  | some (none, h1) => some (none, h1)
  | some (some q, h1) => some (some q, { h1 with data := dfill h1.data q sz 0 })

/- Arithmetic facts about `p2align_down`. -/

lemma orShift_window {m a w k : Nat} (hk : k = w + 1)
    (H : ∀ i, a.testBit i = true ↔ ∃ d, d ≤ w ∧ m.testBit (i + d) = true) :
    ∀ i, (a ||| a >>> k).testBit i = true ↔
      ∃ d, d ≤ 2 * w + 1 ∧ m.testBit (i + d) = true := by
  subst hk
  intro i
  rw [Nat.testBit_lor, Nat.testBit_shiftRight, Bool.or_eq_true]
  constructor
  · rintro (h | h)
    · obtain ⟨d, hd, hbit⟩ := (H i).1 h
      exact ⟨d, by omega, hbit⟩
    · obtain ⟨d, hd, hbit⟩ := (H (w + 1 + i)).1 h
      exact ⟨w + 1 + d, by omega, by rwa [show i + (w + 1 + d) = w + 1 + i + d by omega]⟩
  · rintro ⟨d, hd, hbit⟩
    by_cases hc : d ≤ w
    · exact Or.inl ((H i).2 ⟨d, hc, hbit⟩)
    · refine Or.inr ((H (w + 1 + i)).2 ⟨d - (w + 1), by omega, ?_⟩)
      rwa [show w + 1 + i + (d - (w + 1)) = i + d by omega]

lemma testBit_log2_self {m : Nat} (hm : 1 ≤ m) : m.testBit m.log2 = true := by
  have h1 : 2 ^ m.log2 ≤ m := Nat.log2_self_le (by omega)
  have h2 : m < 2 ^ (m.log2 + 1) := Nat.lt_log2_self
  rw [Nat.testBit_to_div_mod]
  have hdiv : m / 2 ^ m.log2 = 1 := by
    have hpos : 0 < 2 ^ m.log2 := Nat.pos_pow_of_pos _ (by omega)
    have hlt : m / 2 ^ m.log2 < 2 := by
      apply Nat.div_lt_of_lt_mul
      rw [Nat.pow_succ] at h2
      omega
    have hge : 1 ≤ m / 2 ^ m.log2 := (Nat.one_le_div_iff hpos).mpr h1
    omega
  simp [hdiv]

/-- Proof-side name for the six or-shift smearing steps of `p2align_down`. -/
def smear6 (m : Nat) : Nat :=
  let s := m ||| (m >>> 1)
  let s := s ||| (s >>> 2)
  let s := s ||| (s >>> 4)
  let s := s ||| (s >>> 8)
  let s := s ||| (s >>> 16)
  let s := s ||| (s >>> 32)
  s

lemma p2align_down_eq_smear6 (n : Nat) :
    p2align_down n = ((smear6 ((n + (W64 - 1)) % W64) + 1) % W64) >>> 1 := rfl

lemma smear6_window {m : Nat} :
    ∀ i, (smear6 m).testBit i = true ↔ ∃ d, d ≤ 63 ∧ m.testBit (i + d) = true := by
  have base : ∀ i, m.testBit i = true ↔ ∃ d, d ≤ 0 ∧ m.testBit (i + d) = true := by
    intro i
    constructor
    · intro h; exact ⟨0, Nat.le_refl 0, by simpa using h⟩
    · rintro ⟨d, hd, h⟩
      have hd0 : d = 0 := Nat.le_zero.mp hd
      subst hd0; simpa using h
  have h1 := orShift_window (k := 1) (by norm_num) base
  have h2 := orShift_window (k := 2) (by norm_num) h1
  have h3 := orShift_window (k := 4) (by norm_num) h2
  have h4 := orShift_window (k := 8) (by norm_num) h3
  have h5 := orShift_window (k := 16) (by norm_num) h4
  have h6 := orShift_window (k := 32) (by norm_num) h5
  intro i
  have hb : 2 * (2 * (2 * (2 * (2 * (2 * 0 + 1) + 1) + 1) + 1) + 1) + 1 = 63 := by norm_num
  rw [hb] at h6
  simpa only [smear6] using h6 i

lemma smear6_eq {m : Nat} (hm : 1 ≤ m) (hub : m < 2 ^ 63) :
    smear6 m = 2 ^ (m.log2 + 1) - 1 := by
  have h6 := smear6_window (m := m)
  have hlog : m.log2 ≤ 62 := by
    have := (Nat.log2_lt (by omega : m ≠ 0)).mpr hub
    omega
  apply Nat.eq_of_testBit_eq
  intro i
  rw [Nat.testBit_two_pow_sub_one]
  rcases Nat.lt_or_ge i (m.log2 + 1) with hi | hi
  · have hbit : (smear6 m).testBit i = true := by
      apply (h6 i).2
      refine ⟨m.log2 - i, by omega, ?_⟩
      rw [show i + (m.log2 - i) = m.log2 by omega]
      exact testBit_log2_self hm
    rw [hbit]
    simp [hi]
  · have hbit : (smear6 m).testBit i = false := by
      rw [← Bool.not_eq_true]
      intro hcon
      obtain ⟨d, _, hb⟩ := (h6 i).1 hcon
      have hlt : m < 2 ^ (i + d) := by
        calc m < 2 ^ (m.log2 + 1) := Nat.lt_log2_self
        _ ≤ 2 ^ (i + d) := Nat.pow_le_pow_right (by omega) (by omega)
      rw [Nat.testBit_lt_two_pow hlt] at hb
      exact Bool.false_ne_true hb
    rw [hbit]
    simp
    omega

lemma p2align_down_spec {n : Nat} (h2 : 2 ≤ n) (hub : n ≤ 2 ^ 63) :
    p2align_down n = 2 ^ (n - 1).log2 ∧ 2 ^ (n - 1).log2 < n ∧ n ≤ 2 ^ ((n - 1).log2 + 1) := by
  have hWlt : n - 1 < W64 := by
    have : (2 : Nat) ^ 63 < 2 ^ 64 := by norm_num
    show n - 1 < 2 ^ 64
    omega
  have hmod : (n + (W64 - 1)) % W64 = n - 1 := by
    have hW : 1 ≤ W64 := by norm_num [W64]
    have : n + (W64 - 1) = (n - 1) + W64 := by omega
    rw [this, Nat.add_mod_right, Nat.mod_eq_of_lt hWlt]
  have hm1 : 1 ≤ n - 1 := by omega
  have hm2 : n - 1 < 2 ^ 63 := by
    have h63 : (1 : Nat) ≤ 2 ^ 63 := Nat.one_le_two_pow
    rcases Nat.lt_or_ge (n - 1) (2 ^ 63) with h | h
    · exact h
    · exfalso
      have : n - 1 < n := by omega
      omega
  have hsm := smear6_eq hm1 hm2
  have hlog : (n - 1).log2 ≤ 62 := by
    have := (Nat.log2_lt (by omega : n - 1 ≠ 0)).mpr hm2
    omega
  have hppos : (1 : Nat) ≤ 2 ^ ((n - 1).log2 + 1) := Nat.one_le_two_pow
  have hple : (2 : Nat) ^ ((n - 1).log2 + 1) < W64 := by
    show (2 : Nat) ^ ((n - 1).log2 + 1) < 2 ^ 64
    exact Nat.pow_lt_pow_right (by omega) (by omega)
  have hval : p2align_down n = 2 ^ ((n - 1).log2 + 1) >>> 1 := by
    rw [p2align_down_eq_smear6, hmod, hsm,
      show 2 ^ ((n - 1).log2 + 1) - 1 + 1 = 2 ^ ((n - 1).log2 + 1) by omega,
      Nat.mod_eq_of_lt hple]
  have hshift : (2 : Nat) ^ ((n - 1).log2 + 1) >>> 1 = 2 ^ (n - 1).log2 := by
    rw [Nat.shiftRight_eq_div_pow, Nat.pow_succ]
    simp
  refine ⟨by rw [hval, hshift], ?_, ?_⟩
  · have := Nat.log2_self_le (by omega : n - 1 ≠ 0)
    omega
  · have : n - 1 < 2 ^ ((n - 1).log2 + 1) := Nat.lt_log2_self
    omega

/-- Claim C6, counterexample: `buddy_init` does not keep an exact power of
two unchanged — `p2align_down 64 = 32`, so the installed block and the
handle are half the requested (power-of-two) size, not the greatest power
of two that fits. -/
theorem C6_counterexample_exact_power_halved :
    (buddy_init 64).total = 32 ∧ hdrA (buddy_init 64) 0 = some ⟨32, true⟩ ∧ (32 : Nat) ≠ 64 := by
  decide

/-- Claim C6 (amended): for `2 ≤ memory_size ≤ 2^63`, `buddy_init` rounds
`memory_size` to the greatest power of two strictly below it (so an exact
power of two is halved), installs one free block of that rounded size at
the region base, and returns a handle whose stop is start plus the rounded
size. -/
theorem C6_buddy_init_rounds_to_pow2_strictly_below :
    ∀ n : Nat, 2 ≤ n → n ≤ 2 ^ 63 →
      ∃ k : Nat, p2align_down n = 2 ^ k ∧ 2 ^ k < n ∧ n ≤ 2 ^ (k + 1) ∧
        buddy_init n = { mem := [(0, ⟨2 ^ k, true⟩)], total := 2 ^ k } := by
  intro n h2 hub
  obtain ⟨he, hlt, hle⟩ := p2align_down_spec h2 hub
  exact ⟨(n - 1).log2, he, hlt, hle, by simp [buddy_init, he]⟩

/-- Claim C6, witness: the amended statement evaluated at `memory_size = 100`. -/
theorem C6_witness :
    ∃ k : Nat, p2align_down 100 = 2 ^ k ∧ 2 ^ k < 100 ∧ 100 ≤ 2 ^ (k + 1) ∧
      buddy_init 100 = { mem := [(0, ⟨2 ^ k, true⟩)], total := 2 ^ k } :=
  C6_buddy_init_rounds_to_pow2_strictly_below 100 (by norm_num) (by norm_num)

/-- A tiny concrete initialized heap state used by witnesses. -/
def HeapZ : Heap :=
  { mem := [(0, ⟨32, true⟩)], total := 32, nxt := 0, brk := 0, lock := 0,
    isInit := true, data := fun _ => 0 }

/-- Claim C7: an allocation request of 0 bytes returns failure in every
state: `buddy_alloc` returns NULL leaving the arena unchanged, and
`balloc` returns BNULL (whatever its result state, the returned pointer
is null). -/
theorem C7_zero_size_allocation_fails :
    ∀ (a : Arena) (h : Heap) (r : Option Nat × Heap),
      buddy_alloc a 0 = some (none, a) ∧ (balloc h 0 = some r → r.1 = none) := by
  intro a h r
  refine ⟨by simp [buddy_alloc], fun hr => ?_⟩
  unfold balloc at hr
  rcases hif : (if h.isInit then some h else init h) with _ | h0 <;> rw [hif] at hr
  · exact absurd hr (by simp)
  · simp only [Nat.zero_eq, beq_self_eq_true, if_true, Option.some.injEq] at hr
    rw [← hr]

/-- Claim C7, witness: the zero-size law applied to a concrete arena and a
concrete initialized heap. -/
theorem C7_witness :
    buddy_alloc (buddy_init 129) 0 = some (none, buddy_init 129) ∧
      ((none, HeapZ) : Option Nat × Heap).1 = none :=
  ⟨(C7_zero_size_allocation_fails (buddy_init 129) HeapZ (none, HeapZ)).1,
   (C7_zero_size_allocation_fails (buddy_init 129) HeapZ (none, HeapZ)).2 rfl⟩


lemma writeHdr_lock (h : Heap) (o : Nat) (b : Block) : (writeHdr h o b).lock = h.lock := rfl

lemma writeHdr_isInit (h : Heap) (o : Nat) (b : Block) : (writeHdr h o b).isInit = h.isInit := rfl

lemma growLoop_lock : ∀ (f : Nat) (h : Heap) (req : Nat) (r : Option Nat × Heap),
    growLoop f h req = some r → r.2.lock = h.lock ∧ r.2.isInit = h.isInit := by
  intro f
  induction f with
  | zero => intro h req r hr; simp [growLoop] at hr
  | succ f ih =>
    intro h req r hr
    unfold growLoop at hr
    simp only [] at hr
    split at hr
    · obtain rfl : (none, h) = r := by simpa using hr
      exact ⟨rfl, rfl⟩
    · split at hr
      · have := ih _ _ _ hr
        exact this
      · obtain rfl : _ = r := by simpa using hr
        exact ⟨rfl, rfl⟩

lemma grow_lock {h : Heap} {req : Nat} {r : Option Nat × Heap}
    (hr : grow h req = some r) : r.2.lock = h.lock ∧ r.2.isInit = h.isInit := by
  unfold grow at hr
  simp only [] at hr
  split at hr
  · exact Option.noConfusion hr
  · split at hr
    · split at hr
      · exact Option.noConfusion hr
      · split at hr
        · obtain rfl : (none, h) = r := by simpa using hr
          exact ⟨rfl, rfl⟩
        · obtain rfl : _ = r := by simpa using hr
          exact ⟨rfl, rfl⟩
    · exact growLoop_lock _ _ _ _ hr

def FitRes.heap : FitRes → Heap
  | .found _ h => h
  | .nomem h => h

lemma fit_lock : ∀ (f : Nat) (h : Heap) (req o : Nat) (res : FitRes),
    fit f h req o = some res → res.heap.lock = h.lock ∧ res.heap.isInit = h.isInit := by
  intro f
  induction f with
  | zero => intro h req o res hr; simp [fit] at hr
  | succ f ih =>
    intro h req o res hr
    unfold fit at hr
    repeat' (first | (split at hr) | (simp only [] at hr))
    all_goals
      first
        | exact Option.noConfusion hr
        | (exact ih _ _ _ _ hr)
        | (obtain rfl : _ = res := by simpa using hr
           first
             | exact ⟨rfl, rfl⟩
             | (simp only [FitRes.heap]
                exact grow_lock (by assumption)))

lemma splitLoop_lock : ∀ (f : Nat) (h : Heap) (o req : Nat) (h2 : Heap),
    splitLoop f h o req = some h2 → h2.lock = h.lock ∧ h2.isInit = h.isInit := by
  intro f
  induction f with
  | zero => intro h o req h2 hr; simp [splitLoop] at hr
  | succ f ih =>
    intro h o req h2 hr
    unfold splitLoop at hr
    split at hr
    · exact Option.noConfusion hr
    · split at hr
      · have := ih _ _ _ _ hr
        exact this
      · obtain rfl : h = h2 := by simpa using hr
        exact ⟨rfl, rfl⟩

lemma shrinkLoop_lock : ∀ (f : Nat) (h : Heap) (o req : Nat) (h2 : Heap),
    shrinkLoop f h o req = some h2 → h2.lock = h.lock ∧ h2.isInit = h.isInit := by
  intro f
  induction f with
  | zero => intro h o req h2 hr; simp [shrinkLoop] at hr
  | succ f ih =>
    intro h o req h2 hr
    unfold shrinkLoop at hr
    split at hr
    · exact Option.noConfusion hr
    · split at hr
      · have := ih _ _ _ _ hr
        exact this
      · obtain rfl : h = h2 := by simpa using hr
        exact ⟨rfl, rfl⟩

lemma balloc_lock {h : Heap} {n : Nat} {r : Option Nat × Heap}
    (hinit : h.isInit = true) (hr : balloc h n = some r) :
    r.2.lock = h.lock ∧ r.2.isInit = true := by
  unfold balloc at hr
  rw [if_pos hinit] at hr
  simp only [] at hr
  split at hr
  · obtain rfl : (none, h) = r := by simpa using hr
    exact ⟨rfl, hinit⟩
  · split at hr
    · exact Option.noConfusion hr
    · rename_i h2 heq
      have hfl := fit_lock _ _ _ _ _ heq
      simp only [FitRes.heap] at hfl
      obtain rfl : _ = r := by simpa using hr
      refine ⟨?_, ?_⟩
      · show h2.lock - 1 = h.lock
        rw [hfl.1]
        omega
      · show h2.isInit = true
        rw [hfl.2]
        exact hinit
    · rename_i o h2 heq
      have hfl := fit_lock _ _ _ _ _ heq
      simp only [FitRes.heap] at hfl
      split at hr
      · exact Option.noConfusion hr
      · rename_i h3 heq3
        have hsl := splitLoop_lock _ _ _ _ _ heq3
        split at hr
        · exact Option.noConfusion hr
        · rename_i b heqb
          obtain rfl : _ = r := by simpa using hr
          refine ⟨?_, ?_⟩
          · show h3.lock - 1 = h.lock
            rw [hsl.1, hfl.1]
            omega
          · show h3.isInit = true
            rw [hsl.2, hfl.2]
            exact hinit

lemma bfree_lock {h : Heap} {p : Nat} {h2 : Heap}
    (hr : bfree h p = some h2) : h2.lock = h.lock ∧ h2.isInit = h.isInit := by
  unfold bfree at hr
  split at hr
  · obtain rfl : h = h2 := by simpa using hr
    exact ⟨rfl, rfl⟩
  · simp only [] at hr
    split at hr
    · exact Option.noConfusion hr
    · split at hr
      · exact Option.noConfusion hr
      · obtain rfl : _ = h2 := by simpa using hr
        exact ⟨rfl, rfl⟩

lemma bcalloc_lock {h : Heap} {ni sz : Nat} {r : Option Nat × Heap}
    (hinit : h.isInit = true) (hr : bcalloc h ni sz = some r) :
    r.2.lock = h.lock ∧ r.2.isInit = true := by
  unfold bcalloc at hr
  simp only [] at hr
  split at hr
  · exact Option.noConfusion hr
  · rename_i h1 heq
    have := balloc_lock hinit heq
    obtain rfl : _ = r := by simpa using hr
    exact this
  · rename_i q h1 heq
    have := balloc_lock hinit heq
    obtain rfl : _ = r := by simpa using hr
    exact this

lemma brealloc_lock {h : Heap} {p n : Nat} {r : Option Nat × Heap}
    (hinit : h.isInit = true) (hr : brealloc h p n = some r) :
    r.2.lock = h.lock ∧ r.2.isInit = true := by
  unfold brealloc at hr
  simp only [] at hr
  split at hr
  · have hb := balloc_lock (h := { h with lock := h.lock + 1 - 1 }) hinit hr
    simpa using hb
  · split at hr
    · split at hr
      · exact Option.noConfusion hr
      · rename_i h2 heq
        have hb := bfree_lock heq
        obtain rfl : _ = r := by simpa using hr
        have h2l : h2.lock = h.lock + 1 := hb.1
        refine ⟨?_, ?_⟩
        · show h2.lock - 1 = h.lock
          omega
        · show h2.isInit = true
          rw [hb.2]
          exact hinit
    · split at hr
      · exact Option.noConfusion hr
      · split at hr
        · split at hr
          · exact Option.noConfusion hr
          · rename_i h2 heq
            have hs := shrinkLoop_lock _ _ _ _ _ heq
            split at hr
            · exact Option.noConfusion hr
            · obtain rfl : _ = r := by simpa using hr
              have h2l : h2.lock = h.lock + 1 := hs.1
              refine ⟨?_, ?_⟩
              · show h2.lock - 1 = h.lock
                omega
              · show h2.isInit = true
                rw [hs.2]
                exact hinit
        · split at hr
          · exact Option.noConfusion hr
          · obtain rfl : _ = r := by simpa using hr
            exact ⟨rfl, hinit⟩
          · split at hr
            · exact Option.noConfusion hr
            · rename_i h2 heq2
              have hb := bfree_lock heq2
              have h2i : h2.isInit = true := by rw [hb.2]; exact hinit
              split at hr
              · exact Option.noConfusion hr
              · rename_i h3 heq3
                have hal := balloc_lock h2i heq3
                obtain rfl : _ = r := by simpa using hr
                have h3l : h3.lock = h.lock + 1 := by rw [hal.1, hb.1]
                refine ⟨?_, ?_⟩
                · show h3.lock - 1 = h.lock
                  omega
                · show h3.isInit = true
                  exact hal.2
              · rename_i q h3 heq3
                have hal := balloc_lock h2i heq3
                have h3l : h3.lock = h.lock + 1 := by rw [hal.1, hb.1]
                split at hr
                · exact Option.noConfusion hr
                · split at hr <;>
                    (injection hr with hr2
                     subst hr2
                     refine ⟨?_, ?_⟩
                     · show h3.lock - 1 = h.lock
                       omega
                     · show h3.isInit = true
                       exact hal.2)

/-- A concrete initialized heap with a held lock, used by the C9 witness. -/
def HeapL : Heap :=
  { mem := [(0, ⟨32, false⟩)], total := 32, nxt := 0, brk := 0, lock := 3,
    isInit := true, data := fun _ => 0 }

/-- Claim C9: on an initialized heap, each of the four entry points leaves
the recursive lock count on return equal to its count on entry, on every
path on which it completes — including failure paths and the
`brealloc(NULL, n)` case, which releases its own acquisition before
delegating to `balloc`. -/
theorem C9_lock_balance :
    ∀ (h : Heap) (p n ni sz : Nat) (r rr rc : Option Nat × Heap) (h2 : Heap),
      h.isInit = true →
      (balloc h n = some r → r.2.lock = h.lock) ∧
      (bfree h p = some h2 → h2.lock = h.lock) ∧
      (brealloc h p n = some rr → rr.2.lock = h.lock) ∧
      (bcalloc h ni sz = some rc → rc.2.lock = h.lock) := by
  intro h p n ni sz r rr rc h2 hinit
  exact ⟨fun hr => (balloc_lock hinit hr).1, fun hr => (bfree_lock hr).1,
         fun hr => (brealloc_lock hinit hr).1, fun hr => (bcalloc_lock hinit hr).1⟩

/-- Claim C9, witness: `brealloc(NULL, 5)` on a concrete heap holding the
lock 3 times returns with the count still 3. -/
theorem C9_witness :
    ((brealloc HeapL 0 5).getD (none, HeapL)).2.lock = HeapL.lock :=
  (C9_lock_balance HeapL 0 5 0 0 (none, HeapL) ((brealloc HeapL 0 5).getD (none, HeapL))
    (none, HeapL) HeapL rfl).2.2.1 rfl

/- Abstract tiling view: the walk of the region, and the allocator
invariants stated over it. -/

/-- Walk a region from offset `o` to `total` by successive header sizes,
returning the list of (offset, size, flag) entries, or `none` when a step
misses a header, overshoots `total`, or meets a zero size.  `rd` reads
the header at an offset (heap variant: flag = `used`; arena: flag =
`free`). -/
def walkF (rd : Nat → Option (Nat × Bool)) (total : Nat) :
    Nat → Nat → Option (List (Nat × Nat × Bool))
  | 0, _ => none
  | f + 1, o =>
    if o == total then some []
    else if total < o then none
    else
      match rd o with
      | none => none
      | some su =>
        if su.1 == 0 then none
        else
          match walkF rd total f (o + su.1) with
          | none => none
          | some bs => some ((o, su.1, su.2) :: bs)

/-- The header read function of a heap state. -/
def rdH (h : Heap) : Nat → Option (Nat × Bool) :=
  fun o => (hdr h o).map (fun b => (b.size, b.used))

/-- The header read function of an arena state. -/
def rdA (a : Arena) : Nat → Option (Nat × Bool) :=
  fun o => (hdrA a o).map (fun b => (b.size, b.free))

/-- The block walk of the heap region from `start` to `end`. -/
def walkH (h : Heap) : Option (List (Nat × Nat × Bool)) :=
  walkF (rdH h) h.total (h.total + 1) 0

/-- The block walk of the arena region from `start` to `stop`. -/
def walkA (a : Arena) : Option (List (Nat × Nat × Bool)) :=
  walkF (rdA a) a.total (a.total + 1) 0

/-- `n` is a power of two (and, sizes being 64-bit, divides `2^64`). -/
def pow2le64 (n : Nat) : Bool := n != 0 && 2 ^ 64 % n == 0

/-- Block-level invariant: a power-of-two size of at least 32 bytes
(the smallest size either variant ever creates), offset aligned to the
block's own size. -/
def entryInv (e : Nat × Nat × Bool) : Bool :=
  pow2le64 e.2.1 && decide (32 ≤ e.2.1) && decide (e.1 % e.2.1 = 0)

/-- Region invariant over a walk result: the walk exists (tiling), every
entry satisfies `entryInv`, and the region size is a power of two of at
least 32 bytes. -/
def tilesOk (total : Nat) (w : Option (List (Nat × Nat × Bool))) : Bool :=
  match w with
  | none => false
  | some bs => bs.all entryInv && pow2le64 total && decide (32 ≤ total)

/-- The heap-variant region invariant. -/
def hok (h : Heap) : Bool := tilesOk h.total (walkH h)

/-- The arena-variant region invariant. -/
def aok (a : Arena) : Bool := tilesOk a.total (walkA a)

/-- Cursor invariant of the heap variant: `next` points at a block
header in `[start, end)`. -/
def cursorOk (h : Heap) : Bool :=
  match walkH h with
  | none => false
  | some bs => bs.any (fun e => e.1 == h.nxt)

/-- The payload pointer `p` belongs to a live (used) block of the walk. -/
def isLive (h : Heap) (p : Nat) : Bool :=
  match walkH h with
  | none => false
  | some bs => bs.any (fun e => e.1 + MEMOFFSET == p && e.2.2)

/-- A concrete valid heap whose trailing block is allocated: the input on
which `brealloc`'s shrink-in-place path writes an unwrapped cursor. -/
def Heap8 : Heap :=
  { mem := [(0, ⟨32, false⟩), (32, ⟨32, true⟩)], total := 64, nxt := 0, brk := 0,
    lock := 0, isInit := true, data := fun _ => 0 }

/-- Claim C8 is contradicted by the code: from the valid state `Heap8`
(tiling and cursor invariants hold, the block at offset 32 is live and
last), `brealloc(payload 48, 1)` takes the shrink-in-place path and
writes `next = next_block(block)` without the wrap check, so the cursor
ends up equal to `end` (= `total` = 64) — not at a block header in
`[start, end)` and not the wrapped value that `balloc`'s own cursor
update would have produced. -/
theorem C8_shrink_path_leaves_cursor_at_end :
    hok Heap8 = true ∧ cursorOk Heap8 = true ∧ isLive Heap8 48 = true ∧
      (brealloc Heap8 48 1).map (fun r => (r.1, r.2.nxt, r.2.total)) =
        some (some 48, 64, 64) ∧
      (brealloc Heap8 48 1).map (fun r => cursorOk r.2) = some false := by
  decide

/-- Maximal-coalescence check over a walk: no two adjacent free buddies of
equal size with the left one aligned at twice the size.  `isFr` extracts
freeness from an entry (the two variants store opposite polarities). -/
def maxCoalList (isFr : Nat × Nat × Bool → Bool) : List (Nat × Nat × Bool) → Bool
  | [] => true
  | [_] => true
  | e1 :: e2 :: rest =>
    !(isFr e1 && isFr e2 && e1.2.1 == e2.2.1 && decide (e1.1 % (e1.2.1 * 2) = 0)) &&
      maxCoalList isFr (e2 :: rest)

/-- Maximal coalescence for the heap variant (`used = false` means free). -/
def maxCoalH (h : Heap) : Bool :=
  (walkH h).elim false (maxCoalList (fun e => !e.2.2))

/-- Maximal coalescence for the arena variant (`free = true` means free). -/
def maxCoalA (a : Arena) : Bool :=
  (walkA a).elim false (maxCoalList (fun e => e.2.2))

/-- A valid arena whose two 32-byte blocks are both allocated. -/
def Arena1 : Arena :=
  { mem := [(0, ⟨32, false⟩), (32, ⟨32, false⟩)], total := 64 }

/-- A heap in the same configuration as `Arena1`. -/
def Heap1 : Heap :=
  { mem := [(0, ⟨32, true⟩), (32, ⟨32, true⟩)], total := 64, nxt := 0, brk := 0,
    lock := 0, isInit := true, data := fun _ => 0 }

/-- Claim C1 is contradicted by the arena code: freeing the payload at
offset 16 of `Arena1` (whose buddy is used, so the first `try_merge`
fails) returns with the arena bit-for-bit unchanged — the freed block is
never marked free, because `buddy_free` only flips the flag inside a
successful merge.  The heap variant's `bfree`/`join` on the same
configuration does mark the block free, as the spec requires of both. -/
theorem C1_arena_free_never_marks_block_free :
    aok Arena1 = true ∧
      buddy_free Arena1 16 = some Arena1 ∧
      hdrA Arena1 0 = some ⟨32, false⟩ ∧
      walkA Arena1 = some [(0, 32, false), (32, 32, false)] ∧
      (bfree Heap1 16).map (fun h2 => hdr h2 0) = some (some ⟨32, false⟩) := by
  decide

/-- A valid, maximally coalesced heap: one used block filling the region,
with 32 further bytes available from the OS. -/
def Heap2 : Heap :=
  { mem := [(0, ⟨32, true⟩)], total := 32, nxt := 0, brk := 32,
    lock := 0, isInit := true, data := fun _ => 0 }

/-- Claim C2, counterexample: from the valid state `Heap2` (tiling,
cursor, and maximal-coalescence invariants all hold), `balloc 1` succeeds
by growing the region, and the immediately following `bfree` does not
restore the prior state: the region now has two blocks instead of one
(the grown space cannot be returned), and the cursor has moved from 0 to
the freed block's offset 32. -/
theorem C2_counterexample_grow_and_cursor :
    hok Heap2 = true ∧ cursorOk Heap2 = true ∧ maxCoalH Heap2 = true ∧
      walkH Heap2 = some [(0, 32, true)] ∧ Heap2.nxt = 0 ∧
      (balloc Heap2 1).map (fun r => r.1) = some (some 48) ∧
      ((balloc Heap2 1).bind (fun r => bfree r.2 48)).map
          (fun h2 => (walkH h2, h2.nxt)) =
        some (some [(0, 32, true), (32, 32, false)], 32) ∧
      (some [(0, 32, true), (32, 32, false)] ≠ some [(0, 32, true)]) ∧
      ((32 : Nat) ≠ 0) := by
  decide

/- Chain characterization of walks. -/

/-- `chain stop o bs`: the entries of `bs` start at `o`, are adjacent
(each begins where the previous one ends, with positive sizes), and end
exactly at `stop`. -/
def chain (stop : Nat) : Nat → List (Nat × Nat × Bool) → Prop
  | o, [] => o = stop
  | o, e :: rest => e.1 = o ∧ 0 < e.2.1 ∧ chain stop (o + e.2.1) rest

/-- Every entry of `bs` reads back from the raw memory. -/
def readsOk (rd : Nat → Option (Nat × Bool)) (bs : List (Nat × Nat × Bool)) : Prop :=
  ∀ e ∈ bs, rd e.1 = some (e.2.1, e.2.2)

lemma chain_le : ∀ {bs : List (Nat × Nat × Bool)} {o stop : Nat}, chain stop o bs → o ≤ stop := by
  intro bs
  induction bs with
  | nil => intro o stop hc; exact Nat.le_of_eq hc
  | cons e rest ih =>
    intro o stop hc
    have := ih hc.2.2
    have := hc.2.1
    omega

lemma walkF_sound : ∀ (f : Nat) (rd : Nat → Option (Nat × Bool)) (total o : Nat)
    (bs : List (Nat × Nat × Bool)), walkF rd total f o = some bs →
    chain total o bs ∧ readsOk rd bs := by
  intro f
  induction f with
  | zero => intro rd total o bs h; simp [walkF] at h
  | succ f ih =>
    intro rd total o bs h
    unfold walkF at h
    split at h
    · rename_i ho
      obtain rfl : ([] : List (Nat × Nat × Bool)) = bs := by simpa using h
      have ho' : o = total := by simpa using ho
      refine ⟨by simpa [chain] using ho', ?_⟩
      intro e he
      exact absurd he (List.not_mem_nil e)
    · split at h
      · exact Option.noConfusion h
      · split at h
        · exact Option.noConfusion h
        · rename_i su heqr
          split at h
          · exact Option.noConfusion h
          · rename_i hs0
            split at h
            · exact Option.noConfusion h
            · rename_i bs' heqw
              obtain rfl : (o, su.1, su.2) :: bs' = bs := by simpa using h
              obtain ⟨hc', hr'⟩ := ih rd total (o + su.1) bs' heqw
              refine ⟨⟨rfl, Nat.pos_of_ne_zero (by simpa using hs0), hc'⟩, ?_⟩
              intro e he
              rcases List.mem_cons.mp he with rfl | he
              · simpa using heqr
              · exact hr' e he

lemma walkF_complete : ∀ (bs : List (Nat × Nat × Bool)) (rd : Nat → Option (Nat × Bool))
    (total o f : Nat), chain total o bs → readsOk rd bs →
    total + 1 - o ≤ f → walkF rd total f o = some bs := by
  intro bs
  induction bs with
  | nil =>
    intro rd total o f hc hro hf
    obtain rfl : o = total := hc
    obtain ⟨f', rfl⟩ : ∃ f', f = f' + 1 := ⟨f - 1, by omega⟩
    simp [walkF]
  | cons e rest ih =>
    intro rd total o f hc hro hf
    obtain ⟨he1, hpos, hcr⟩ := hc
    have hle : o + e.2.1 ≤ total := chain_le hcr
    obtain ⟨f', rfl⟩ : ∃ f', f = f' + 1 := ⟨f - 1, by omega⟩
    have hrd : rd o = some (e.2.1, e.2.2) := by
      have := hro e (List.mem_cons_self e rest)
      rwa [he1] at this
    have hrec : walkF rd total f' (o + e.2.1) = some rest := by
      apply ih rd total (o + e.2.1) f' hcr
      · intro x hx; exact hro x (List.mem_cons_of_mem e hx)
      · omega
    unfold walkF
    rw [if_neg (by simp; omega), if_neg (by omega), hrd]
    simp only []
    rw [if_neg (by simp; omega), hrec]
    rw [← he1]

lemma walkH_eq_iff {h : Heap} {bs : List (Nat × Nat × Bool)} :
    walkH h = some bs ↔ chain h.total 0 bs ∧ readsOk (rdH h) bs := by
  constructor
  · exact fun hw => walkF_sound _ _ _ _ _ hw
  · intro ⟨hc, hro⟩
    exact walkF_complete bs _ _ 0 _ hc hro (by omega)

lemma walkA_eq_iff {a : Arena} {bs : List (Nat × Nat × Bool)} :
    walkA a = some bs ↔ chain a.total 0 bs ∧ readsOk (rdA a) bs := by
  constructor
  · exact fun hw => walkF_sound _ _ _ _ _ hw
  · intro ⟨hc, hro⟩
    exact walkF_complete bs _ _ 0 _ hc hro (by omega)

lemma chain_append_iff : ∀ {xs ys : List (Nat × Nat × Bool)} {o stop : Nat},
    chain stop o (xs ++ ys) ↔ ∃ m, chain m o xs ∧ chain stop m ys := by
  intro xs
  induction xs with
  | nil =>
    intro ys o stop
    constructor
    · intro hc; exact ⟨o, rfl, hc⟩
    · rintro ⟨m, rfl, hc⟩; exact hc
  | cons e rest ih =>
    intro ys o stop
    constructor
    · rintro ⟨he, hp, hc⟩
      obtain ⟨m, h1, h2⟩ := ih.mp hc
      exact ⟨m, ⟨he, hp, h1⟩, h2⟩
    · rintro ⟨m, ⟨he, hp, h1⟩, h2⟩
      exact ⟨he, hp, ih.mpr ⟨m, h1, h2⟩⟩

lemma chain_mem : ∀ {bs : List (Nat × Nat × Bool)} {o stop : Nat},
    chain stop o bs → ∀ e ∈ bs, o ≤ e.1 ∧ e.1 + e.2.1 ≤ stop ∧ 0 < e.2.1 := by
  intro bs
  induction bs with
  | nil => intro o stop hc e he; exact absurd he (List.not_mem_nil e)
  | cons x rest ih =>
    intro o stop hc e he
    obtain ⟨hx, hp, hc'⟩ := hc
    rcases List.mem_cons.mp he with rfl | he
    · have := chain_le hc'
      omega
    · have := ih hc' e he
      omega

lemma chain_cover : ∀ {bs : List (Nat × Nat × Bool)} {o stop x : Nat},
    chain stop o bs → o ≤ x → x < stop →
    ∃ e ∈ bs, e.1 ≤ x ∧ x < e.1 + e.2.1 := by
  intro bs
  induction bs with
  | nil =>
    intro o stop x hc h1 h2
    obtain rfl : o = stop := hc
    omega
  | cons e rest ih =>
    intro o stop x hc h1 h2
    obtain ⟨he, hp, hc'⟩ := hc
    by_cases hx : x < o + e.2.1
    · exact ⟨e, List.mem_cons_self e rest, by omega, by omega⟩
    · obtain ⟨e', he', h3, h4⟩ := ih hc' (by omega) h2
      exact ⟨e', List.mem_cons_of_mem e he', h3, h4⟩

lemma chain_inj : ∀ {bs : List (Nat × Nat × Bool)} {o stop : Nat},
    chain stop o bs → ∀ e ∈ bs, ∀ e' ∈ bs, e.1 = e'.1 → e = e' := by
  intro bs
  induction bs with
  | nil => intro o stop hc e he; exact absurd he (List.not_mem_nil e)
  | cons x rest ih =>
    intro o stop hc e he e' he' hee
    obtain ⟨hx, hp, hc'⟩ := hc
    rcases List.mem_cons.mp he with h1 | h1
    · rcases List.mem_cons.mp he' with h2 | h2
      · rw [h1, h2]
      · exfalso
        have hb := chain_mem hc' e' h2
        rw [h1] at hee
        omega
    · rcases List.mem_cons.mp he' with h2 | h2
      · exfalso
        have hb := chain_mem hc' e h1
        rw [h2] at hee
        omega
      · exact ih hc' e h1 e' h2 hee

/-- Entry invariants, in propositional form. -/
def entsOk (bs : List (Nat × Nat × Bool)) : Prop :=
  ∀ e ∈ bs, (∃ k, k ≤ 64 ∧ e.2.1 = 2 ^ k) ∧ 32 ≤ e.2.1 ∧ e.1 % e.2.1 = 0

lemma pow2le64_iff {n : Nat} : pow2le64 n = true ↔ ∃ k, k ≤ 64 ∧ n = 2 ^ k := by
  unfold pow2le64
  rw [Bool.and_eq_true, bne_iff_ne, beq_iff_eq, ← Nat.dvd_iff_mod_eq_zero]
  constructor
  · rintro ⟨hn0, hdvd⟩
    obtain ⟨k, hk, rfl⟩ := (Nat.dvd_prime_pow Nat.prime_two).mp hdvd
    exact ⟨k, hk, rfl⟩
  · rintro ⟨k, hk, rfl⟩
    exact ⟨Nat.pos_iff_ne_zero.mp (Nat.two_pow_pos k), (Nat.dvd_prime_pow Nat.prime_two).mpr ⟨k, hk, rfl⟩⟩

lemma entryInv_iff {e : Nat × Nat × Bool} :
    entryInv e = true ↔ (∃ k, k ≤ 64 ∧ e.2.1 = 2 ^ k) ∧ 32 ≤ e.2.1 ∧ e.1 % e.2.1 = 0 := by
  unfold entryInv
  rw [Bool.and_eq_true, Bool.and_eq_true, pow2le64_iff, decide_eq_true_eq, decide_eq_true_eq]
  tauto

lemma hok_iff {h : Heap} : hok h = true ↔
    ∃ bs, walkH h = some bs ∧ chain h.total 0 bs ∧ readsOk (rdH h) bs ∧ entsOk bs ∧
      (∃ k, k ≤ 64 ∧ h.total = 2 ^ k) ∧ 32 ≤ h.total := by
  unfold hok tilesOk
  constructor
  · intro hh
    rcases hw : walkH h with _ | bs <;> rw [hw] at hh
    · exact absurd hh (by simp)
    · obtain ⟨hc, hro⟩ := walkH_eq_iff.mp hw
      rw [Bool.and_eq_true, Bool.and_eq_true, List.all_eq_true] at hh
      refine ⟨bs, rfl, hc, hro, ?_, pow2le64_iff.mp hh.1.2, by simpa using hh.2⟩
      intro e he
      exact entryInv_iff.mp (hh.1.1 e he)
  · rintro ⟨bs, hw, hc, hro, hents, htp, ht32⟩
    rw [hw]
    rw [Bool.and_eq_true, Bool.and_eq_true, List.all_eq_true]
    exact ⟨⟨fun e he => entryInv_iff.mpr (hents e he), pow2le64_iff.mpr htp⟩, by simpa using ht32⟩

lemma aok_iff {a : Arena} : aok a = true ↔
    ∃ bs, walkA a = some bs ∧ chain a.total 0 bs ∧ readsOk (rdA a) bs ∧ entsOk bs ∧
      (∃ k, k ≤ 64 ∧ a.total = 2 ^ k) ∧ 32 ≤ a.total := by
  unfold aok tilesOk
  constructor
  · intro hh
    rcases hw : walkA a with _ | bs <;> rw [hw] at hh
    · exact absurd hh (by simp)
    · obtain ⟨hc, hro⟩ := walkA_eq_iff.mp hw
      rw [Bool.and_eq_true, Bool.and_eq_true, List.all_eq_true] at hh
      refine ⟨bs, rfl, hc, hro, ?_, pow2le64_iff.mp hh.1.2, by simpa using hh.2⟩
      intro e he
      exact entryInv_iff.mp (hh.1.1 e he)
  · rintro ⟨bs, hw, hc, hro, hents, htp, ht32⟩
    rw [hw]
    rw [Bool.and_eq_true, Bool.and_eq_true, List.all_eq_true]
    exact ⟨⟨fun e he => entryInv_iff.mpr (hents e he), pow2le64_iff.mpr htp⟩, by simpa using ht32⟩

/-- Two powers of two divide each other in size order. -/
lemma pow2_dvd_of_le {a b j k : Nat} (ha : a = 2 ^ j) (hb : b = 2 ^ k) (hab : a ≤ b) : a ∣ b := by
  subst ha hb
  exact pow_dvd_pow 2 ((Nat.pow_le_pow_iff_right (by omega)).mp hab)

lemma chain_stop_unique : ∀ {bs : List (Nat × Nat × Bool)} {o s s' : Nat},
    chain s o bs → chain s' o bs → s = s' := by
  intro bs
  induction bs with
  | nil => intro o s s' h1 h2; rw [← h1, ← h2]
  | cons e rest ih => intro o s s' h1 h2; exact ih h1.2.2 h2.2.2

lemma chain_nil_of_eq : ∀ {bs : List (Nat × Nat × Bool)} {s : Nat},
    chain s s bs → bs = [] := by
  intro bs
  induction bs with
  | nil => intro s _; rfl
  | cons e rest ih =>
    intro s hc
    obtain ⟨he, hp, hc'⟩ := hc
    have := chain_le hc'
    omega

lemma hdr_of_rdH {h : Heap} {x sz : Nat} {u : Bool} (hr : rdH h x = some (sz, u)) :
    hdr h x = some ⟨sz, u⟩ := by
  unfold rdH at hr
  rcases hh : hdr h x with _ | b <;> rw [hh] at hr
  · exact absurd hr (by simp)
  · obtain ⟨h1, h2⟩ : b.size = sz ∧ b.used = u := by simpa using hr
    rw [← h1, ← h2]

lemma hdrA_of_rdA {a : Arena} {x sz : Nat} {u : Bool} (hr : rdA a x = some (sz, u)) :
    hdrA a x = some ⟨sz, u⟩ := by
  unfold rdA at hr
  rcases hh : hdrA a x with _ | b <;> rw [hh] at hr
  · exact absurd hr (by simp)
  · obtain ⟨h1, h2⟩ : b.size = sz ∧ b.free = u := by simpa using hr
    rw [← h1, ← h2]

lemma mod_double_cases {m n : Nat} (_hm : 0 < m) (hd : n % m = 0) :
    n % (m * 2) = 0 ∨ n % (m * 2) = m := by
  obtain ⟨q, rfl⟩ := Nat.dvd_iff_mod_eq_zero.mpr hd
  rw [Nat.mul_mod_mul_left]
  rcases Nat.mod_two_eq_zero_or_one q with hq | hq <;> rw [hq] <;> simp

/-- If an aligned power-of-two tiling covers `[0, jo)` with a chain `pre`,
`jo` is a multiple of `js` but not of `2*js`, then `jo - js` is the offset
of an entry of `pre` whose size is at most `js`. -/
lemma left_neighbor_boundary {pre : List (Nat × Nat × Bool)} {jo js kj : Nat}
    (hc : chain jo 0 pre)
    (hents : ∀ e ∈ pre, (∃ k, k ≤ 64 ∧ e.2.1 = 2 ^ k) ∧ 32 ≤ e.2.1 ∧ e.1 % e.2.1 = 0)
    (hjs : js = 2 ^ kj) (hjs0 : 0 < js) (hja : jo % js = 0) (hjge : js ≤ jo)
    (hodd : jo % (js * 2) = js) :
    ∃ e ∈ pre, e.1 = jo - js ∧ e.2.1 ≤ js := by
  obtain ⟨e, he, hle, hlt⟩ := chain_cover hc (Nat.zero_le _) (by omega : jo - js < jo)
  obtain ⟨⟨ke, hke, hpe⟩, h32e, hae⟩ := hents e he
  have hbnd := chain_mem hc e he
  have hsz : 0 < e.2.1 := by omega
  rcases le_or_lt e.2.1 js with hcase | hcase
  · -- small or equal neighbor: it must start exactly at jo - js
    have hdvd : e.2.1 ∣ js := pow2_dvd_of_le hpe hjs hcase
    have hd1 : e.2.1 ∣ jo := Nat.dvd_trans hdvd (Nat.dvd_iff_mod_eq_zero.mpr hja)
    have hd2 : e.2.1 ∣ jo - js := Nat.dvd_sub' hd1 hdvd
    have hd3 : e.2.1 ∣ e.1 := Nat.dvd_iff_mod_eq_zero.mpr hae
    obtain ⟨m1, hm1⟩ := hd2
    obtain ⟨m2, hm2⟩ := hd3
    have h21 : m2 ≤ m1 :=
      Nat.le_of_mul_le_mul_left (by rw [← hm1, ← hm2]; exact hle) hsz
    have h12 : m1 < m2 + 1 :=
      Nat.lt_of_mul_lt_mul_left (a := e.2.1)
        (by rw [Nat.mul_add, ← hm1, ← hm2, Nat.mul_one]; exact hlt)
    have hm12 : m1 = m2 := by omega
    refine ⟨e, he, ?_, hcase⟩
    rw [hm2, hm1, hm12]
  · -- a larger neighbor would straddle the aligned offset jo - js
    exfalso
    have hke2 : js * 2 ≤ e.2.1 := by
      have : kj < ke := by
        rcases le_or_lt ke kj with h | h
        · exact absurd (hpe ▸ hjs ▸ Nat.pow_le_pow_right (by omega) h : e.2.1 ≤ js) (by omega)
        · exact h
      calc js * 2 = 2 ^ (kj + 1) := by rw [hjs]; ring
      _ ≤ 2 ^ ke := Nat.pow_le_pow_right (by omega) (by omega)
      _ = e.2.1 := hpe.symm
    have hd2e : js * 2 ∣ e.2.1 :=
      pow2_dvd_of_le (by rw [hjs]; ring : js * 2 = 2 ^ (kj + 1)) hpe hke2
    have hdX : js * 2 ∣ e.1 + e.2.1 :=
      Nat.dvd_add (Nat.dvd_trans hd2e (Nat.dvd_iff_mod_eq_zero.mpr hae)) hd2e
    have hdJ : js * 2 ∣ jo - js := by
      have := Nat.div_add_mod jo (js * 2)
      exact ⟨jo / (js * 2), by omega⟩
    obtain ⟨qX, hqX⟩ := hdX
    obtain ⟨qJ, hqJ⟩ := hdJ
    have hlt2 : jo - js < e.1 + e.2.1 := by omega
    have hle2 : e.1 + e.2.1 ≤ jo := hbnd.2.1
    have hq : qJ < qX := by
      rcases le_or_lt qX qJ with h | h
      · have := Nat.mul_le_mul_left (js * 2) h
        omega
      · exact h
    have : js * 2 * (qJ + 1) ≤ js * 2 * qX := Nat.mul_le_mul_left _ (by omega)
    have hexp : js * 2 * (qJ + 1) = (jo - js) + js * 2 := by rw [Nat.mul_add, ← hqJ, Nat.mul_one]
    omega

lemma pow2_double_mod {s k : Nat} (hk : s = 2 ^ k) (hle : k ≤ 62) :
    (s * 2) % W64 = s * 2 := by
  apply Nat.mod_eq_of_lt
  have h1 : s ≤ 2 ^ 62 := by
    rw [hk]
    exact Nat.pow_le_pow_right (by omega) hle
  have h2 : (2:Nat) ^ 62 * 2 < W64 := by norm_num [W64]
  omega

lemma pow2_double_mod_zero {s k : Nat} (hk : s = 2 ^ k) (hgt : 62 < k) :
    (s * 2) % W64 = 0 := by
  have h1 : s * 2 = 2 ^ (k + 1) := by rw [hk]; ring
  have h2 : W64 ∣ 2 ^ (k + 1) := by
    have hx : (2:Nat) ^ 64 ∣ 2 ^ (k + 1) := pow_dvd_pow 2 (by omega)
    have hy : W64 = 2 ^ 64 := by norm_num [W64]
    rw [hy]
    exact hx
  obtain ⟨c, hc⟩ := h2
  rw [h1, hc, Nat.mul_mod_right]

lemma joinLoop_spec : ∀ (f : Nat) (h : Heap) (bs pre mid post : List (Nat × Nat × Bool))
    (jo js kj K : Nat),
    walkH h = some bs →
    bs = pre ++ mid ++ post →
    chain jo 0 pre →
    chain (jo + js) jo mid →
    entsOk bs →
    h.total = 2 ^ K → K ≤ 62 →
    js = 2 ^ kj →
    jo % js = 0 →
    32 ≤ js →
    K - kj + 1 ≤ f →
    ∃ ro rs kr pre' lext rext post',
      joinLoop f h jo js = some (ro, rs) ∧
      pre = pre' ++ lext ∧ post = rext ++ post' ∧
      chain ro 0 pre' ∧ chain jo ro lext ∧ chain (ro + rs) (jo + js) rext ∧
      rs = 2 ^ kr ∧ kr ≤ 64 ∧ ro % rs = 0 ∧ js ≤ rs := by
  intro f
  induction f with
  | zero => intro h bs pre mid post jo js kj K _ _ _ _ _ _ _ _ _ _ hfuel; omega
  | succ f ih =>
    intro h bs pre mid post jo js kj K hw hbs hcpre hcmid hents htot hK hjs hja h32 hfuel
    have hiff := walkH_eq_iff.mp hw
    have hcbs : chain h.total 0 bs := hiff.1
    have hreads : readsOk (rdH h) bs := hiff.2
    have hcbs' : chain h.total 0 (pre ++ (mid ++ post)) := by
      rw [← List.append_assoc, ← hbs]; exact hcbs
    obtain ⟨m1, hc1, hrest⟩ := chain_append_iff.mp hcbs'
    have hm1 : jo = m1 := (chain_stop_unique hc1 hcpre).symm
    subst hm1
    obtain ⟨m2, hc2, hcpost⟩ := chain_append_iff.mp hrest
    have hm2 : jo + js = m2 := (chain_stop_unique hc2 hcmid).symm
    subst hm2
    have hjjs : jo + js ≤ h.total := chain_le hcpost
    have hkjK : kj ≤ K := by
      have h1 : js ≤ h.total := by omega
      rw [hjs, htot] at h1
      exact (Nat.pow_le_pow_iff_right (by omega)).mp h1
    have hz : (js == 0) = false := by simp; omega
    have hm2 : (js * 2) % W64 = js * 2 := pow2_double_mod hjs (by omega)
    have hz2 : ((js * 2 : Nat) == 0) = false := by
      simp
      omega
    rcases mod_double_cases (by omega : 0 < js) hja with halign | halign
    · -- left buddy at jo + js
      have hbeq : (jo % (js * 2) == 0) = true := by simpa using halign
      by_cases hbt : (jo + js == h.total) = true
      · refine ⟨jo, js, kj, pre, [], [], post, ?_, by simp, by simp, hcpre, rfl, rfl,
          hjs, by omega, hja, Nat.le_refl js⟩
        unfold joinLoop
        simp [hz, hz2, hm2, hbeq, hbt]
      · rcases post with _ | ⟨e, post₂⟩
        · exfalso
          have : jo + js = h.total := hcpost
          simp at hbt
          omega
        · obtain ⟨he1, hep, hcpost₂⟩ := hcpost
          have hmem : e ∈ bs := by rw [hbs]; simp
          have hrdE : rdH h e.1 = some (e.2.1, e.2.2) := hreads e hmem
          have hhd : hdr h (jo + js) = some ⟨e.2.1, e.2.2⟩ := by
            rw [← he1]; exact hdr_of_rdH hrdE
          by_cases hmm : (e.2.1 != js || e.2.2) = true
          · refine ⟨jo, js, kj, pre, [], [], e :: post₂, ?_, by simp, by simp, hcpre, rfl, rfl,
              hjs, by omega, hja, Nat.le_refl js⟩
            unfold joinLoop
            simp only [hz, hz2, hm2, hbeq, hbt, hhd]
            simp [hmm]
          · simp only [Bool.or_eq_true, bne_iff_ne, not_or, Bool.not_eq_true, not_ne_iff] at hmm
            obtain ⟨hesz, hefree⟩ := hmm
            have hbs₂ : bs = pre ++ (mid ++ [e]) ++ post₂ := by
              rw [hbs]; simp
            have hcmid₂ : chain (jo + js * 2) jo (mid ++ [e]) := by
              apply chain_append_iff.mpr
              refine ⟨jo + js, hcmid, ?_⟩
              refine ⟨he1, hep, ?_⟩
              show chain (jo + js * 2) (jo + js + e.2.1) []
              rw [hesz]
              show jo + js + js = jo + js * 2
              ring
            have hcpost₂' : chain h.total (jo + js * 2) post₂ := by
              have : jo + js + e.2.1 = jo + js * 2 := by rw [hesz]; ring
              rw [← this]; exact hcpost₂
            have hjtot₂ : jo + js * 2 ≤ h.total := chain_le hcpost₂'
            have hkk : kj + 1 ≤ K := by
              have h1 : js * 2 ≤ h.total := by omega
              have h2 : (2:Nat) ^ (kj + 1) = js * 2 := by rw [pow_succ, ← hjs]
              rw [htot] at h1
              rw [← h2] at h1
              exact (Nat.pow_le_pow_iff_right (by omega)).mp h1
            obtain ⟨ro, rs, kr, pre', lext, rext₂, post', heq, hpre', hpost', hcp', hcl, hcr₂,
              hrs, hkr, hra, hjrs⟩ :=
              ih h bs pre (mid ++ [e]) post₂ jo (js * 2) (kj + 1) K hw hbs₂ hcpre hcmid₂
                hents htot hK (by rw [hjs]; ring) (by
                  obtain ⟨q, hq⟩ : ∃ q, jo = js * 2 * q := ⟨jo / (js * 2), by
                    have := Nat.div_add_mod jo (js * 2)
                    omega⟩
                  rw [hq]; exact Nat.mul_mod_right _ _) (by omega) (by omega)
            refine ⟨ro, rs, kr, pre', lext, e :: rext₂, post', ?_, hpre', ?_, hcp', hcl, ?_,
              hrs, hkr, hra, by omega⟩
            · unfold joinLoop
              have hmm2 : (e.2.1 != js || e.2.2) = false := by
                rw [hesz, hefree]; simp
              simp only [hz, hz2, hm2, hbeq, hbt, hhd, hmm2]
              simpa using heq
            · rw [hpost']; rfl
            · refine ⟨he1, hep, ?_⟩
              have : jo + js + e.2.1 = jo + js * 2 := by rw [hesz]; ring
              rw [this]
              exact hcr₂
    · -- right buddy at jo - js
      have hbeq : (jo % (js * 2) == 0) = false := by simp; omega
      have hjge : js ≤ jo := by
        have := Nat.mod_le jo (js * 2)
        omega
      have hnlt : ¬ jo < js := by omega
      have hentspre : ∀ e ∈ pre, (∃ k, k ≤ 64 ∧ e.2.1 = 2 ^ k) ∧ 32 ≤ e.2.1 ∧ e.1 % e.2.1 = 0 :=
        fun e he => hents e (by rw [hbs]; simp [he])
      obtain ⟨e, hepre, heo, hesz⟩ :=
        left_neighbor_boundary hc1 hentspre hjs (by omega) hja hjge halign
      by_cases hbt : (jo - js == h.total) = true
      · refine ⟨jo, js, kj, pre, [], [], post, ?_, by simp, by simp, hcpre, rfl, rfl,
          hjs, by omega, hja, Nat.le_refl js⟩
        unfold joinLoop
        simp [hz, hz2, hm2, hbeq, hbt, hnlt]
      · have hmem : e ∈ bs := by rw [hbs]; simp [hepre]
        have hrdE : rdH h e.1 = some (e.2.1, e.2.2) := hreads e hmem
        have hhd : hdr h (jo - js) = some ⟨e.2.1, e.2.2⟩ := by
          rw [← heo]; exact hdr_of_rdH hrdE
        by_cases hmm : (e.2.1 != js || e.2.2) = true
        · refine ⟨jo, js, kj, pre, [], [], post, ?_, by simp, by simp, hcpre, rfl, rfl,
            hjs, by omega, hja, Nat.le_refl js⟩
          unfold joinLoop
          simp only [hz, hz2, hm2, hbeq, hbt, hhd, hnlt]
          simp [hmm]
        · simp only [Bool.or_eq_true, bne_iff_ne, not_or, Bool.not_eq_true, not_ne_iff] at hmm
          obtain ⟨hesz', hefree⟩ := hmm
          obtain ⟨l1, l2, hpre12⟩ := List.append_of_mem hepre
          rw [hpre12] at hc1
          obtain ⟨m, hcl1, hcel2⟩ := chain_append_iff.mp hc1
          obtain ⟨hem, hpos', hcl2⟩ := hcel2
          have hm : m = jo - js := by rw [← hem, heo]
          subst hm
          have hl2 : l2 = [] := by
            apply chain_nil_of_eq
            have : jo - js + e.2.1 = jo := by rw [hesz']; omega
            rwa [this] at hcl2
          subst hl2
          have hbs₂ : bs = l1 ++ (e :: mid) ++ post := by
            rw [hbs, hpre12]; simp
          have hcl1' : chain (jo - js) 0 l1 := hcl1
          have hcmid₂ : chain ((jo - js) + js * 2) (jo - js) (e :: mid) := by
            refine ⟨heo, by omega, ?_⟩
            have h1 : jo - js + e.2.1 = jo := by rw [hesz']; omega
            have h2 : jo - js + js * 2 = jo + js := by omega
            rw [h1, h2]
            exact hcmid
          have hkk : kj + 1 ≤ K := by
            have h1 : js * 2 ≤ h.total := by omega
            have h2 : (2:Nat) ^ (kj + 1) = js * 2 := by rw [pow_succ, ← hjs]
            rw [htot] at h1
            rw [← h2] at h1
            exact (Nat.pow_le_pow_iff_right (by omega)).mp h1
          have halign₂ : (jo - js) % (js * 2) = 0 := by
            obtain ⟨q, hq⟩ : ∃ q, jo = js * 2 * q + js := ⟨jo / (js * 2), by
              have := Nat.div_add_mod jo (js * 2)
              omega⟩
            have : jo - js = js * 2 * q := by omega
            rw [this]
            exact Nat.mul_mod_right _ _
          obtain ⟨ro, rs, kr, pre', lext₂, rext, post', heq, hpre', hpost', hcp', hcl₂, hcrr,
            hrs, hkr, hra, hjrs⟩ :=
            ih h bs l1 (e :: mid) post (jo - js) (js * 2) (kj + 1) K hw hbs₂ hcl1' hcmid₂
              hents htot hK (by rw [hjs]; ring) halign₂ (by omega) (by omega)
          refine ⟨ro, rs, kr, pre', lext₂ ++ [e], rext, post', ?_, ?_, hpost', hcp', ?_, ?_,
            hrs, hkr, hra, by omega⟩
          · unfold joinLoop
            have hmm2 : (e.2.1 != js || e.2.2) = false := by
              rw [hesz', hefree]; simp
            simp only [hz, hz2, hm2, hbeq, hbt, hhd, hnlt, hmm2]
            simpa using heq
          · rw [hpre12, hpre']; simp
          · apply chain_append_iff.mpr
            refine ⟨jo - js, hcl₂, ?_⟩
            refine ⟨heo, by omega, ?_⟩
            have : jo - js + e.2.1 = jo := by rw [hesz']; omega
            rw [this]
            rfl
          · have h2 : jo - js + js * 2 = jo + js := by omega
            rw [← h2]
            exact hcrr

/-- Conditional counterpart of the join-loop specification: for region
exponents up to 64, any completed run of the join loop (whatever the fuel)
produces a coalesced free-candidate described by chains over the old walk;
at exponents 63 and 64 the doubled modulus wraps to zero and the loop
never completes. -/
lemma joinLoop_cond : ∀ (f : Nat) (h : Heap) (bs pre mid post : List (Nat × Nat × Bool))
    (jo js kj K : Nat),
    walkH h = some bs →
    bs = pre ++ mid ++ post →
    chain jo 0 pre →
    chain (jo + js) jo mid →
    entsOk bs →
    h.total = 2 ^ K → K ≤ 64 →
    js = 2 ^ kj →
    jo % js = 0 →
    32 ≤ js →
    ∀ ro rs, joinLoop f h jo js = some (ro, rs) →
    ∃ kr pre' lext rext post',
      pre = pre' ++ lext ∧ post = rext ++ post' ∧
      chain ro 0 pre' ∧ chain jo ro lext ∧ chain (ro + rs) (jo + js) rext ∧
      rs = 2 ^ kr ∧ kr ≤ 64 ∧ ro % rs = 0 ∧ js ≤ rs := by
  intro f
  induction f with
  | zero =>
    intro h bs pre mid post jo js kj K _ _ _ _ _ _ _ _ _ _ ro rs hrun
    exact absurd hrun (by simp [joinLoop])
  | succ f ih =>
    intro h bs pre mid post jo js kj K hw hbs hcpre hcmid hents htot hK hjs hja h32 ro rs hrun
    have hiff := walkH_eq_iff.mp hw
    have hcbs : chain h.total 0 bs := hiff.1
    have hreads : readsOk (rdH h) bs := hiff.2
    have hcbs' : chain h.total 0 (pre ++ (mid ++ post)) := by
      rw [← List.append_assoc, ← hbs]; exact hcbs
    obtain ⟨m1, hc1, hrest⟩ := chain_append_iff.mp hcbs'
    have hm1 : jo = m1 := (chain_stop_unique hc1 hcpre).symm
    subst hm1
    obtain ⟨m2, hc2, hcpost⟩ := chain_append_iff.mp hrest
    have hm2x : jo + js = m2 := (chain_stop_unique hc2 hcmid).symm
    subst hm2x
    have hjjs : jo + js ≤ h.total := chain_le hcpost
    have hkjK : kj ≤ K := by
      have h1 : js ≤ h.total := by omega
      rw [hjs, htot] at h1
      exact (Nat.pow_le_pow_iff_right (by omega)).mp h1
    have hz : (js == 0) = false := by simp; omega
    rcases le_or_lt kj 62 with hkj62 | hkj62
    · have hm2 : (js * 2) % W64 = js * 2 := pow2_double_mod hjs hkj62
      have hz2 : ((js * 2 : Nat) == 0) = false := by
        simp
        omega
      rcases mod_double_cases (by omega : 0 < js) hja with halign | halign
      · -- left buddy at jo + js
        have hbeq : (jo % (js * 2) == 0) = true := by simpa using halign
        by_cases hbt : (jo + js == h.total) = true
        · have hstep : joinLoop (f + 1) h jo js = some (jo, js) := by
            unfold joinLoop
            simp [hz, hz2, hm2, hbeq, hbt]
          rw [hstep] at hrun
          simp only [Option.some.injEq, Prod.mk.injEq] at hrun
          obtain ⟨rfl, rfl⟩ := hrun
          exact ⟨kj, pre, [], [], post, by simp, by simp, hcpre, rfl, rfl,
            hjs, by omega, hja, Nat.le_refl js⟩
        · rcases post with _ | ⟨e, post₂⟩
          · exfalso
            have : jo + js = h.total := hcpost
            simp at hbt
            omega
          · obtain ⟨he1, hep, hcpost₂⟩ := hcpost
            have hmem : e ∈ bs := by rw [hbs]; simp
            have hrdE : rdH h e.1 = some (e.2.1, e.2.2) := hreads e hmem
            have hhd : hdr h (jo + js) = some ⟨e.2.1, e.2.2⟩ := by
              rw [← he1]; exact hdr_of_rdH hrdE
            by_cases hmm : (e.2.1 != js || e.2.2) = true
            · have hstep : joinLoop (f + 1) h jo js = some (jo, js) := by
                unfold joinLoop
                simp only [hz, hz2, hm2, hbeq, hbt, hhd]
                simp [hmm]
              rw [hstep] at hrun
              simp only [Option.some.injEq, Prod.mk.injEq] at hrun
              obtain ⟨rfl, rfl⟩ := hrun
              exact ⟨kj, pre, [], [], e :: post₂, by simp, by simp, hcpre, rfl, rfl,
                hjs, by omega, hja, Nat.le_refl js⟩
            · simp only [Bool.or_eq_true, bne_iff_ne, not_or, Bool.not_eq_true, not_ne_iff] at hmm
              obtain ⟨hesz, hefree⟩ := hmm
              have hbs₂ : bs = pre ++ (mid ++ [e]) ++ post₂ := by
                rw [hbs]; simp
              have hcmid₂ : chain (jo + js * 2) jo (mid ++ [e]) := by
                apply chain_append_iff.mpr
                refine ⟨jo + js, hcmid, ?_⟩
                refine ⟨he1, hep, ?_⟩
                show chain (jo + js * 2) (jo + js + e.2.1) []
                rw [hesz]
                show jo + js + js = jo + js * 2
                ring
              have hstep : joinLoop (f + 1) h jo js = joinLoop f h jo (js * 2) := by
                conv_lhs => rw [joinLoop]
                have hmm2 : (e.2.1 != js || e.2.2) = false := by
                  rw [hesz, hefree]; simp
                simp [hz, hz2, hm2, hbeq, hbt, hhd, hmm2]
              rw [hstep] at hrun
              obtain ⟨kr, pre', lext, rext₂, post', hpre', hpost', hcp', hcl, hcr₂,
                hrs, hkr, hra, hjrs⟩ :=
                ih h bs pre (mid ++ [e]) post₂ jo (js * 2) (kj + 1) K hw hbs₂ hcpre hcmid₂
                  hents htot hK (by rw [hjs]; ring) (by
                    obtain ⟨q, hq⟩ : ∃ q, jo = js * 2 * q := ⟨jo / (js * 2), by
                      have := Nat.div_add_mod jo (js * 2)
                      omega⟩
                    rw [hq]; exact Nat.mul_mod_right _ _) (by omega) ro rs hrun
              refine ⟨kr, pre', lext, e :: rext₂, post', hpre', ?_, hcp', hcl, ?_,
                hrs, hkr, hra, by omega⟩
              · rw [hpost']; rfl
              · refine ⟨he1, hep, ?_⟩
                have : jo + js + e.2.1 = jo + js * 2 := by rw [hesz]; ring
                rw [this]
                exact hcr₂
      · -- right buddy at jo - js
        have hbeq : (jo % (js * 2) == 0) = false := by simp; omega
        have hjge : js ≤ jo := by
          have := Nat.mod_le jo (js * 2)
          omega
        have hnlt : ¬ jo < js := by omega
        have hentspre : ∀ e ∈ pre, (∃ k, k ≤ 64 ∧ e.2.1 = 2 ^ k) ∧ 32 ≤ e.2.1 ∧ e.1 % e.2.1 = 0 :=
          fun e he => hents e (by rw [hbs]; simp [he])
        obtain ⟨e, hepre, heo, hesz⟩ :=
          left_neighbor_boundary hc1 hentspre hjs (by omega) hja hjge halign
        by_cases hbt : (jo - js == h.total) = true
        · have hstep : joinLoop (f + 1) h jo js = some (jo, js) := by
            unfold joinLoop
            simp [hz, hz2, hm2, hbeq, hbt, hnlt]
          rw [hstep] at hrun
          simp only [Option.some.injEq, Prod.mk.injEq] at hrun
          obtain ⟨rfl, rfl⟩ := hrun
          exact ⟨kj, pre, [], [], post, by simp, by simp, hcpre, rfl, rfl,
            hjs, by omega, hja, Nat.le_refl js⟩
        · have hmem : e ∈ bs := by rw [hbs]; simp [hepre]
          have hrdE : rdH h e.1 = some (e.2.1, e.2.2) := hreads e hmem
          have hhd : hdr h (jo - js) = some ⟨e.2.1, e.2.2⟩ := by
            rw [← heo]; exact hdr_of_rdH hrdE
          by_cases hmm : (e.2.1 != js || e.2.2) = true
          · have hstep : joinLoop (f + 1) h jo js = some (jo, js) := by
              unfold joinLoop
              simp only [hz, hz2, hm2, hbeq, hbt, hhd, hnlt]
              simp [hmm]
            rw [hstep] at hrun
            simp only [Option.some.injEq, Prod.mk.injEq] at hrun
            obtain ⟨rfl, rfl⟩ := hrun
            exact ⟨kj, pre, [], [], post, by simp, by simp, hcpre, rfl, rfl,
              hjs, by omega, hja, Nat.le_refl js⟩
          · simp only [Bool.or_eq_true, bne_iff_ne, not_or, Bool.not_eq_true, not_ne_iff] at hmm
            obtain ⟨hesz', hefree⟩ := hmm
            obtain ⟨l1, l2, hpre12⟩ := List.append_of_mem hepre
            rw [hpre12] at hc1
            obtain ⟨m, hcl1, hcel2⟩ := chain_append_iff.mp hc1
            obtain ⟨hem, hpos', hcl2⟩ := hcel2
            have hm : m = jo - js := by rw [← hem, heo]
            subst hm
            have hl2 : l2 = [] := by
              apply chain_nil_of_eq
              have : jo - js + e.2.1 = jo := by rw [hesz']; omega
              rwa [this] at hcl2
            subst hl2
            have hbs₂ : bs = l1 ++ (e :: mid) ++ post := by
              rw [hbs, hpre12]; simp
            have hcl1' : chain (jo - js) 0 l1 := hcl1
            have hcmid₂ : chain ((jo - js) + js * 2) (jo - js) (e :: mid) := by
              refine ⟨heo, by omega, ?_⟩
              have h1 : jo - js + e.2.1 = jo := by rw [hesz']; omega
              have h2 : jo - js + js * 2 = jo + js := by omega
              rw [h1, h2]
              exact hcmid
            have halign₂ : (jo - js) % (js * 2) = 0 := by
              obtain ⟨q, hq⟩ : ∃ q, jo = js * 2 * q + js := ⟨jo / (js * 2), by
                have := Nat.div_add_mod jo (js * 2)
                omega⟩
              have : jo - js = js * 2 * q := by omega
              rw [this]
              exact Nat.mul_mod_right _ _
            have hstep : joinLoop (f + 1) h jo js = joinLoop f h (jo - js) (js * 2) := by
              conv_lhs => rw [joinLoop]
              have hmm2 : (e.2.1 != js || e.2.2) = false := by
                rw [hesz', hefree]; simp
              simp [hz, hz2, hm2, hbeq, hbt, hhd, hnlt, hmm2]
            rw [hstep] at hrun
            obtain ⟨kr, pre', lext₂, rext, post', hpre', hpost', hcp', hcl₂, hcrr,
              hrs, hkr, hra, hjrs⟩ :=
              ih h bs l1 (e :: mid) post (jo - js) (js * 2) (kj + 1) K hw hbs₂ hcl1' hcmid₂
                hents htot hK (by rw [hjs]; ring) halign₂ (by omega) ro rs hrun
            refine ⟨kr, pre', lext₂ ++ [e], rext, post', ?_, hpost', hcp', ?_, ?_,
              hrs, hkr, hra, by omega⟩
            · rw [hpre12, hpre']; simp
            · apply chain_append_iff.mpr
              refine ⟨jo - js, hcl₂, ?_⟩
              refine ⟨heo, by omega, ?_⟩
              have : jo - js + e.2.1 = jo := by rw [hesz']; omega
              rw [this]
              rfl
            · have h2 : jo - js + js * 2 = jo + js := by omega
              rw [← h2]
              exact hcrr
    · have hm0 : (js * 2) % W64 = 0 := pow2_double_mod_zero hjs hkj62
      have hstep : joinLoop (f + 1) h jo js = none := by
        unfold joinLoop
        simp [hz, hm0]
      rw [hstep] at hrun
      exact absurd hrun (by simp)

lemma hdr_writeHdr (h : Heap) (o : Nat) (b : Block) (x : Nat) :
    hdr (writeHdr h o b) x = if o = x then some b else hdr h x := by
  unfold hdr writeHdr
  by_cases hox : o = x
  · subst hox
    simp [List.find?_cons_of_pos]
  · rw [if_neg hox]
    rw [List.find?_cons_of_neg _ (by simpa using hox)]

lemma rdH_writeHdr (h : Heap) (o : Nat) (b : Block) (x : Nat) :
    rdH (writeHdr h o b) x = if o = x then some (b.size, b.used) else rdH h x := by
  unfold rdH
  rw [hdr_writeHdr]
  by_cases hox : o = x <;> simp [hox]

lemma hdrA_writeA (a : Arena) (o : Nat) (b : ABlock) (x : Nat) :
    hdrA (writeA a o b) x = if o = x then some b else hdrA a x := by
  unfold hdrA writeA
  by_cases hox : o = x
  · subst hox
    simp [List.find?_cons_of_pos]
  · rw [if_neg hox]
    rw [List.find?_cons_of_neg _ (by simpa using hox)]

lemma rdA_writeA (a : Arena) (o : Nat) (b : ABlock) (x : Nat) :
    rdA (writeA a o b) x = if o = x then some (b.size, b.free) else rdA a x := by
  unfold rdA
  rw [hdrA_writeA]
  by_cases hox : o = x <;> simp [hox]

lemma walkH_lock (h : Heap) (n : Nat) : walkH { h with lock := n } = walkH h := rfl

lemma bfree_spec {h : Heap} {bs pre post : List (Nat × Nat × Bool)} {o s : Nat} {u : Bool} {K : Nat}
    (hw : walkH h = some bs)
    (hbs : bs = pre ++ (o, s, u) :: post)
    (hents : entsOk bs)
    (htot : h.total = 2 ^ K) (hK : K ≤ 62) :
    ∃ h' ro rs kr pre' lext rext post',
      bfree h (o + MEMOFFSET) = some h' ∧
      pre = pre' ++ lext ∧ post = rext ++ post' ∧
      walkH h' = some (pre' ++ (ro, rs, false) :: post') ∧
      chain ro 0 pre' ∧ chain o ro lext ∧ chain (ro + rs) (o + s) rext ∧
      rs = 2 ^ kr ∧ kr ≤ 64 ∧ ro % rs = 0 ∧ s ≤ rs ∧ 32 ≤ rs ∧
      entsOk (pre' ++ (ro, rs, false) :: post') ∧
      h'.total = h.total ∧ h'.nxt = ro ∧ h'.brk = h.brk ∧ h'.lock = h.lock ∧
      h'.isInit = h.isInit ∧
      (∀ x, hdr h' x = if ro = x then some (⟨rs, false⟩ : Block) else hdr h x) ∧
      h'.data = dfill h.data ro MEMOFFSET 0 := by
  have hmm : ((o, s, u) : Nat × Nat × Bool) ∈ bs := by rw [hbs]; simp
  obtain ⟨⟨kj, hkj, hsk⟩, h32, hoa⟩ := hents _ hmm
  simp only [] at hsk h32 hoa
  have hiff := walkH_eq_iff.mp hw
  have hcbs : chain h.total 0 (pre ++ (o, s, u) :: post) := hbs ▸ hiff.1
  have hcbs' : chain h.total 0 (pre ++ (((o, s, u) : Nat × Nat × Bool) :: post)) := hcbs
  obtain ⟨m1, hc1, hrest⟩ := chain_append_iff.mp hcbs'
  obtain ⟨heo, hsp, hcpost⟩ := hrest
  have hm1 : o = m1 := by simpa using heo
  subst hm1
  have hcmid : chain (o + s) o [((o, s, u) : Nat × Nat × Bool)] := ⟨rfl, by omega, rfl⟩
  set h1 : Heap := { h with lock := h.lock + 1 } with hh1
  have hw1 : walkH h1 = some bs := hw
  have hbs1 : bs = pre ++ [((o, s, u) : Nat × Nat × Bool)] ++ post := by rw [hbs]; simp
  obtain ⟨ro, rs, kr, pre', lext, rext, post', heq, hpre', hpost', hcp', hclx, hcrx,
      hrs, hkr, hra, hsrs⟩ :=
    joinLoop_spec (h.total + 2) h1 bs pre [((o, s, u) : Nat × Nat × Bool)] post o s kj K
      hw1 hbs1 hc1 hcmid hents htot hK hsk hoa h32
      (by
        have : K ≤ 2 ^ K := Nat.le_of_lt (Nat.lt_two_pow K)
        omega)
  have hrdE : rdH h o = some (s, u) := by
    have := hiff.2 _ hmm
    simpa using this
  have hhd : hdr h1 o = some ⟨s, u⟩ := hdr_of_rdH hrdE
  -- the final state
  set h' : Heap := { writeHdr h1 ro ⟨rs, false⟩ with nxt := ro, lock := (writeHdr h1 ro ⟨rs, false⟩).lock - 1 } with hh'
  have hbf : bfree h (o + MEMOFFSET) = some h' := by
    unfold bfree
    rw [if_neg (by simp [MEMOFFSET])]
    have hsub : o + MEMOFFSET - MEMOFFSET = o := by omega
    simp only [← hh1, hsub, hhd]
    rw [heq]
  -- chains of the new walk
  have hcl' : chain o ro lext := hclx
  have hcrx' : chain (ro + rs) (o + s) rext := hcrx
  have hcpost' : chain h.total (ro + rs) post' := by
    rw [hpost'] at hcpost
    obtain ⟨m2, hc2, hc3⟩ := chain_append_iff.mp hcpost
    have : ro + rs = m2 := chain_stop_unique hcrx' hc2
    rwa [← this] at hc3
  have hnewchain : chain h.total 0 (pre' ++ (ro, rs, false) :: post') := by
    apply chain_append_iff.mpr
    refine ⟨ro, hcp', ?_⟩
    refine ⟨rfl, by show (0:Nat) < rs; omega, ?_⟩
    exact hcpost'
  -- reads of the new walk
  have hdr' : ∀ x, hdr h' x = if ro = x then some (⟨rs, false⟩ : Block) else hdr h x := by
    intro x
    show hdr (writeHdr h1 ro ⟨rs, false⟩) x = _
    rw [hdr_writeHdr]
    rfl
  have hreads' : readsOk (rdH h') (pre' ++ (ro, rs, false) :: post') := by
    intro e he
    rcases List.mem_append.mp he with hepre | hepost
    · have hmem : e ∈ bs := by
        rw [hbs1, hpre']
        simp [hepre]
      have hbnd := chain_mem hcp' e hepre
      have hne : ro ≠ e.1 := by omega
      show (hdr h' e.1).map _ = _
      rw [hdr' e.1, if_neg hne]
      exact hiff.2 e hmem
    · rcases List.mem_cons.mp hepost with rfl | hepost
      · show rdH h' ((ro, rs, false) : Nat × Nat × Bool).1 = some (rs, false)
        unfold rdH
        rw [show ((ro, rs, false) : Nat × Nat × Bool).1 = ro from rfl, hdr' ro, if_pos rfl]
        rfl
      · have hmem : e ∈ bs := by
          rw [hbs1, hpost']
          simp [hepost]
        have hbnd := chain_mem hcpost' e hepost
        have hne : ro ≠ e.1 := by omega
        show (hdr h' e.1).map _ = _
        rw [hdr' e.1, if_neg hne]
        exact hiff.2 e hmem
  have hwalk' : walkH h' = some (pre' ++ (ro, rs, false) :: post') := by
    apply walkH_eq_iff.mpr
    exact ⟨hnewchain, hreads'⟩
  have hents' : entsOk (pre' ++ (ro, rs, false) :: post') := by
    intro e he
    rcases List.mem_append.mp he with hepre | hepost
    · exact hents e (by
        rw [hbs1, hpre']
        simp [hepre])
    · rcases List.mem_cons.mp hepost with rfl | hepost
      · exact ⟨⟨kr, hkr, hrs⟩, by show (32:Nat) ≤ rs; omega, hra⟩
      · exact hents e (by
          rw [hbs1, hpost']
          simp [hepost])
  exact ⟨h', ro, rs, kr, pre', lext, rext, post', hbf, hpre', hpost', hwalk', hcp', hcl',
    hcrx', hrs, hkr, hra, hsrs, by omega, hents', rfl, rfl, rfl, rfl, rfl, hdr', rfl⟩

/-- Conditional counterpart of the `bfree` specification: on any valid
region of exponent up to 64, a completed `bfree` call produced a coalesced
free block and retiled walk exactly as the total version describes. -/
lemma bfree_cond {h : Heap} {bs pre post : List (Nat × Nat × Bool)} {o s : Nat} {u : Bool}
    {K : Nat}
    (hw : walkH h = some bs)
    (hbs : bs = pre ++ (o, s, u) :: post)
    (hents : entsOk bs)
    (htot : h.total = 2 ^ K) (hK : K ≤ 64) :
    ∀ h2, bfree h (o + MEMOFFSET) = some h2 →
    ∃ ro rs kr pre' lext rext post',
      pre = pre' ++ lext ∧ post = rext ++ post' ∧
      walkH h2 = some (pre' ++ (ro, rs, false) :: post') ∧
      chain ro 0 pre' ∧ chain o ro lext ∧ chain (ro + rs) (o + s) rext ∧
      rs = 2 ^ kr ∧ kr ≤ 64 ∧ ro % rs = 0 ∧ s ≤ rs ∧ 32 ≤ rs ∧
      entsOk (pre' ++ (ro, rs, false) :: post') ∧
      h2.total = h.total ∧ h2.nxt = ro ∧ h2.brk = h.brk ∧ h2.lock = h.lock ∧
      h2.isInit = h.isInit ∧
      (∀ x, hdr h2 x = if ro = x then some (⟨rs, false⟩ : Block) else hdr h x) ∧
      h2.data = dfill h.data ro MEMOFFSET 0 := by
  intro hres hrun
  have hmm : ((o, s, u) : Nat × Nat × Bool) ∈ bs := by rw [hbs]; simp
  obtain ⟨⟨kj, hkj, hsk⟩, h32, hoa⟩ := hents _ hmm
  simp only [] at hsk h32 hoa
  have hiff := walkH_eq_iff.mp hw
  have hcbs : chain h.total 0 (pre ++ (o, s, u) :: post) := hbs ▸ hiff.1
  have hcbs' : chain h.total 0 (pre ++ (((o, s, u) : Nat × Nat × Bool) :: post)) := hcbs
  obtain ⟨m1, hc1, hrest⟩ := chain_append_iff.mp hcbs'
  obtain ⟨heo, hsp, hcpost⟩ := hrest
  have hm1 : o = m1 := by simpa using heo
  subst hm1
  have hcmid : chain (o + s) o [((o, s, u) : Nat × Nat × Bool)] := ⟨rfl, by omega, rfl⟩
  set h1 : Heap := { h with lock := h.lock + 1 } with hh1
  have hw1 : walkH h1 = some bs := hw
  have hbs1 : bs = pre ++ [((o, s, u) : Nat × Nat × Bool)] ++ post := by rw [hbs]; simp
  have hrdE : rdH h o = some (s, u) := by
    have := hiff.2 _ hmm
    simpa using this
  have hhd : hdr h1 o = some ⟨s, u⟩ := hdr_of_rdH hrdE
  unfold bfree at hrun
  rw [if_neg (by simp [MEMOFFSET])] at hrun
  have hsubo : o + MEMOFFSET - MEMOFFSET = o := by omega
  simp only [← hh1, hsubo, hhd] at hrun
  rcases hjl : joinLoop (h.total + 2) h1 o s with _ | jors
  · rw [hjl] at hrun
    exact absurd hrun (by simp)
  · obtain ⟨ro, rs⟩ := jors
    rw [hjl] at hrun
    simp only [Option.some.injEq] at hrun
    obtain ⟨kr, pre', lext, rext, post', hpre', hpost', hcp', hclx, hcrx,
        hrs, hkr, hra, hsrs⟩ :=
      joinLoop_cond (h.total + 2) h1 bs pre [((o, s, u) : Nat × Nat × Bool)] post o s kj K
        hw1 hbs1 hc1 hcmid hents htot hK hsk hoa h32 ro rs hjl
    set h' : Heap := { writeHdr h1 ro ⟨rs, false⟩ with nxt := ro, lock := (writeHdr h1 ro ⟨rs, false⟩).lock - 1 } with hh'
    have hresh : h' = hres := hrun
    -- chains of the new walk
    have hcl' : chain o ro lext := hclx
    have hcrx' : chain (ro + rs) (o + s) rext := hcrx
    have hcpost' : chain h.total (ro + rs) post' := by
      rw [hpost'] at hcpost
      obtain ⟨m2, hc2, hc3⟩ := chain_append_iff.mp hcpost
      have : ro + rs = m2 := chain_stop_unique hcrx' hc2
      rwa [← this] at hc3
    have hnewchain : chain h.total 0 (pre' ++ (ro, rs, false) :: post') := by
      apply chain_append_iff.mpr
      refine ⟨ro, hcp', ?_⟩
      refine ⟨rfl, by show (0:Nat) < rs; omega, ?_⟩
      exact hcpost'
    have hdr' : ∀ x, hdr h' x = if ro = x then some (⟨rs, false⟩ : Block) else hdr h x := by
      intro x
      show hdr (writeHdr h1 ro ⟨rs, false⟩) x = _
      rw [hdr_writeHdr]
      rfl
    have hreads' : readsOk (rdH h') (pre' ++ (ro, rs, false) :: post') := by
      intro e he
      rcases List.mem_append.mp he with hepre | hepost
      · have hmem2 : e ∈ bs := by
          rw [hbs1, hpre']
          simp [hepre]
        have hbnd := chain_mem hcp' e hepre
        have hne : ro ≠ e.1 := by omega
        show (hdr h' e.1).map _ = _
        rw [hdr' e.1, if_neg hne]
        exact hiff.2 e hmem2
      · rcases List.mem_cons.mp hepost with rfl | hepost
        · show rdH h' ((ro, rs, false) : Nat × Nat × Bool).1 = some (rs, false)
          unfold rdH
          rw [show ((ro, rs, false) : Nat × Nat × Bool).1 = ro from rfl, hdr' ro, if_pos rfl]
          rfl
        · have hmem2 : e ∈ bs := by
            rw [hbs1, hpost']
            simp [hepost]
          have hbnd := chain_mem hcpost' e hepost
          have hne : ro ≠ e.1 := by omega
          show (hdr h' e.1).map _ = _
          rw [hdr' e.1, if_neg hne]
          exact hiff.2 e hmem2
    have hwalk' : walkH h' = some (pre' ++ (ro, rs, false) :: post') := by
      apply walkH_eq_iff.mpr
      exact ⟨hnewchain, hreads'⟩
    have hents' : entsOk (pre' ++ (ro, rs, false) :: post') := by
      intro e he
      rcases List.mem_append.mp he with hepre | hepost
      · exact hents e (by
          rw [hbs1, hpre']
          simp [hepre])
      · rcases List.mem_cons.mp hepost with rfl | hepost
        · exact ⟨⟨kr, hkr, hrs⟩, by show (32:Nat) ≤ rs; omega, hra⟩
        · exact hents e (by
            rw [hbs1, hpost']
            simp [hepost])
    rw [← hresh]
    exact ⟨ro, rs, kr, pre', lext, rext, post', hpre', hpost', hwalk', hcp', hcl',
      hcrx', hrs, hkr, hra, hsrs, by omega, hents', rfl, rfl, rfl, rfl, rfl, hdr', rfl⟩

/-- The free right-hand buddies created by repeatedly splitting a block
at offset `o` from size `s` down to size `t`: blocks
`(o+t, t), (o+2t, 2t), ..., (o+s/2, s/2)`, all free. -/
def sibs (o : Nat) (t s : Nat) : List (Nat × Nat × Bool) :=
  if 0 < t ∧ t < s then (o + t, t, false) :: sibs o (2 * t) s else []
  termination_by s - t
  decreasing_by
    rename_i hh
    omega

lemma sibs_base (o t s : Nat) (h : ¬(0 < t ∧ t < s)) : sibs o t s = [] := by
  rw [sibs, if_neg h]

lemma lt_mul_pow2 {t : Nat} (ht : 0 < t) (j : Nat) : t < t * 2 ^ (j + 1) := by
  have hp : (2:Nat) ≤ 2 ^ (j + 1) := by
    calc (2:Nat) = 2 ^ 1 := by norm_num
    _ ≤ 2 ^ (j + 1) := Nat.pow_le_pow_right (by omega) (by omega)
  have hm : t * 2 ≤ t * 2 ^ (j + 1) := Nat.mul_le_mul (le_refl t) hp
  omega

lemma sibs_snoc : ∀ (j t o : Nat), 0 < t →
    sibs o t (t * 2 ^ (j + 1)) = sibs o t (t * 2 ^ j) ++ [(o + t * 2 ^ j, t * 2 ^ j, false)] := by
  intro j
  induction j with
  | zero =>
    intro t o ht
    rw [sibs, if_pos ⟨ht, lt_mul_pow2 ht 0⟩]
    rw [sibs, if_neg (by simp [pow_succ]; omega)]
    rw [sibs_base _ _ _ (by simp)]
    simp
  | succ j ih =>
    intro t o ht
    have h1 : t * 2 ^ (j + 1 + 1) = 2 * t * 2 ^ (j + 1) := by ring
    have h2 : t * 2 ^ (j + 1) = 2 * t * 2 ^ j := by ring
    have hc2 : 0 < t ∧ t < t * 2 ^ (j + 1) := ⟨ht, lt_mul_pow2 ht j⟩
    have hc1 : 0 < t ∧ t < t * 2 ^ (j + 1 + 1) := ⟨ht, lt_mul_pow2 ht (j + 1)⟩
    conv_rhs => rw [sibs, if_pos hc2]
    rw [h2]
    conv_lhs => rw [sibs, if_pos hc1]
    rw [h1, ih (2 * t) o (by omega)]
    simp

lemma sibs_chain : ∀ (j t o : Nat), 0 < t →
    chain (o + t * 2 ^ j) (o + t) (sibs o t (t * 2 ^ j)) := by
  intro j
  induction j with
  | zero =>
    intro t o ht
    rw [sibs_base _ _ _ (by simp)]
    show o + t = o + t * 2 ^ 0
    simp
  | succ j ih =>
    intro t o ht
    rw [sibs_snoc j t o ht]
    apply chain_append_iff.mpr
    refine ⟨o + t * 2 ^ j, ih t o ht, ?_⟩
    refine ⟨rfl, by positivity, ?_⟩
    show o + t * 2 ^ j + t * 2 ^ j = o + t * 2 ^ (j + 1)
    have : t * 2 ^ (j + 1) = t * 2 ^ j + t * 2 ^ j := by ring
    omega

lemma sibs_mem : ∀ (j t o : Nat), 0 < t →
    ∀ e ∈ sibs o t (t * 2 ^ j),
      (∃ d, d < j ∧ e = (o + t * 2 ^ d, t * 2 ^ d, false)) := by
  intro j
  induction j with
  | zero =>
    intro t o ht e he
    rw [sibs_base _ _ _ (by simp)] at he
    exact absurd he (List.not_mem_nil e)
  | succ j ih =>
    intro t o ht e he
    rw [sibs_snoc j t o ht] at he
    rcases List.mem_append.mp he with h1 | h1
    · obtain ⟨d, hd, hde⟩ := ih t o ht e h1
      exact ⟨d, by omega, hde⟩
    · obtain rfl : e = (o + t * 2 ^ j, t * 2 ^ j, false) := by simpa using h1
      exact ⟨j, by omega, rfl⟩

lemma sub64_eq {a b : Nat} (hba : b ≤ a) (ha : a - b < W64) : sub64 a b = a - b := by
  unfold sub64
  have h1 : a + W64 - b = (a - b) + W64 := by omega
  rw [h1, Nat.add_mod_right, Nat.mod_eq_of_lt (by omega)]

lemma pow2_ge32 {n k : Nat} (hn : n = 2 ^ k) (h17 : 17 ≤ n) : 32 ≤ n := by
  rcases le_or_lt k 4 with hk | hk
  · have : n ≤ 16 := by
      rw [hn]
      calc (2:Nat) ^ k ≤ 2 ^ 4 := Nat.pow_le_pow_right (by omega) hk
      _ = 16 := by norm_num
    omega
  · have : (32:Nat) ≤ 2 ^ k := by
      calc (32:Nat) = 2 ^ 5 := by norm_num
      _ ≤ 2 ^ k := Nat.pow_le_pow_right (by omega) (by omega)
    omega

lemma walk_decomp {h : Heap} {pre post : List (Nat × Nat × Bool)} {o s : Nat} {u : Bool}
    (hw : walkH h = some (pre ++ (o, s, u) :: post)) :
    chain o 0 pre ∧ 0 < s ∧ chain h.total (o + s) post ∧ rdH h o = some (s, u) := by
  obtain ⟨hc, hro⟩ := walkH_eq_iff.mp hw
  obtain ⟨m, hcp, hcc⟩ := chain_append_iff.mp hc
  obtain ⟨he1, hp, hc'⟩ := hcc
  have hom : o = m := he1
  subst hom
  exact ⟨hcp, hp, hc', hro (o, s, u) (by simp)⟩

lemma writeHdr_total (h : Heap) (o : Nat) (b : Block) : (writeHdr h o b).total = h.total := rfl

lemma writeHdr_nxt (h : Heap) (o : Nat) (b : Block) : (writeHdr h o b).nxt = h.nxt := rfl

lemma writeHdr_brk (h : Heap) (o : Nat) (b : Block) : (writeHdr h o b).brk = h.brk := rfl

lemma pow2_even {s k : Nat} (hs : s = 2 ^ k) (h2 : 2 ≤ s) : s % 2 = 0 ∧ s / 2 = 2 ^ (k - 1) := by
  have hk : 1 ≤ k := by
    by_contra hk
    have : k = 0 := by omega
    subst this
    simp at hs
    omega
  have h1 : s = 2 * 2 ^ (k - 1) := by
    rw [hs, ← pow_succ']
    congr 1
    omega
  constructor
  · omega
  · omega

/-- Full characterization of `splitLoop` on a valid state: it terminates,
replacing the chosen block `(o, s, u)` by `(o, t, u)` followed by the free
split siblings, where `t` is the final power-of-two size: minimal
(`t/2` cannot hold the request) yet sufficient whenever `s` was. -/
lemma splitLoop_spec : ∀ (f : Nat) (h : Heap) (pre post : List (Nat × Nat × Bool))
    (o s ks req : Nat) (u : Bool),
    walkH h = some (pre ++ (o, s, u) :: post) →
    entsOk (pre ++ (o, s, u) :: post) →
    s = 2 ^ ks →
    32 ≤ s →
    1 ≤ req →
    h.total ≤ W64 →
    ks + 1 ≤ f →
    ∃ t kt j h',
      splitLoop f h o req = some h' ∧
      t = 2 ^ kt ∧ 32 ≤ t ∧ t ≤ s ∧ s = t * 2 ^ j ∧
      walkH h' = some (pre ++ (o, t, u) :: (sibs o t s ++ post)) ∧
      entsOk (pre ++ (o, t, u) :: (sibs o t s ++ post)) ∧
      t / 2 < req + MEMOFFSET ∧
      (req + MEMOFFSET ≤ s → req + MEMOFFSET ≤ t) ∧
      (s < req + MEMOFFSET → t = s) ∧
      h'.total = h.total ∧ h'.nxt = h.nxt ∧ h'.brk = h.brk ∧
      h'.lock = h.lock ∧ h'.isInit = h.isInit := by
  intro f
  induction f with
  | zero => intro h pre post o s ks req u _ _ _ _ _ _ hf; omega
  | succ f ih =>
    intro h pre post o s ks req u hw hents hs h32 hreq htot hf
    obtain ⟨hcp, hsp, hcc, hrd⟩ := walk_decomp hw
    have hhd : hdr h o = some ⟨s, u⟩ := hdr_of_rdH hrd
    have hmem : o + s ≤ h.total := by
      have := chain_mem (walkH_eq_iff.mp hw).1 (o, s, u) (by simp)
      exact this.2.1
    obtain ⟨hev, hdiv⟩ := pow2_even hs (by omega)
    have hsub : sub64 (s / 2) MEMOFFSET = s / 2 - MEMOFFSET := by
      apply sub64_eq
      · show 16 ≤ s / 2; omega
      · show s / 2 - 16 < W64
        have : s ≤ W64 := by omega
        have : 0 < W64 := by norm_num [W64]
        omega
    have hks64 : ks ≤ 64 := by
      have hsw : s ≤ W64 := by omega
      rw [hs] at hsw
      exact (Nat.pow_le_pow_iff_right (by omega)).mp hsw
    have hoas : o % s = 0 := by
      have := hents (o, s, u) (by simp)
      exact this.2.2
    by_cases hg : req ≤ s / 2 - MEMOFFSET
    · -- split once and recurse
      have hns17 : 17 ≤ s / 2 := by
        have : (16:Nat) ≤ s / 2 := by omega
        show 17 ≤ s / 2
        have h16 : MEMOFFSET = 16 := rfl
        rw [h16] at hg
        omega
      have hns32 : 32 ≤ s / 2 := pow2_ge32 hdiv hns17
      have hks6 : 6 ≤ ks := by
        have : 64 ≤ s := by omega
        by_contra hk
        have hk5 : ks ≤ 5 := by omega
        have : s ≤ 32 := by
          rw [hs]
          calc (2:Nat) ^ ks ≤ 2 ^ 5 := Nat.pow_le_pow_right (by omega) hk5
          _ = 32 := by norm_num
        omega
      set ns := s / 2 with hnsdef
      have hcond : (decide (sub64 (s / 2) MEMOFFSET ≥ req) && decide (s > MINBLOCKSIZE)) = true := by
        rw [hsub]
        simp only [Bool.and_eq_true, decide_eq_true_eq]
        constructor
        · exact hg
        · show 16 < s; omega
      set h2 := writeHdr (writeHdr h o ⟨ns, u⟩) (o + ns) ⟨ns, false⟩ with h2def
      have hstep : splitLoop (f + 1) h o req = splitLoop f h2 o req := by
        conv_lhs => rw [splitLoop]
        rw [hhd]
        simp only []
        rw [if_pos hcond]
      -- the walk of h2
      have hrd2 : ∀ x, rdH h2 x =
          if o + ns = x then some (ns, false)
          else if o = x then some (ns, u)
          else rdH h x := by
        intro x
        rw [h2def, rdH_writeHdr, rdH_writeHdr]
      have hw2 : walkH h2 = some (pre ++ (o, ns, u) :: (o + ns, ns, false) :: post) := by
        apply walkH_eq_iff.mpr
        constructor
        · apply chain_append_iff.mpr
          refine ⟨o, hcp, rfl, by show 0 < ns; omega, rfl, by show 0 < ns; omega, ?_⟩
          show chain h2.total (o + ns + ns) post
          have : h2.total = h.total := rfl
          rw [this]
          have : o + ns + ns = o + s := by omega
          rw [this]
          exact hcc
        · intro e he
          rcases List.mem_append.mp he with hepre | herest
          · have hb := chain_mem hcp e hepre
            rw [hrd2, if_neg (by omega), if_neg (by omega)]
            exact (walkH_eq_iff.mp hw).2 e (by simp [hepre])
          · rcases List.mem_cons.mp herest with rfl | herest
            · rw [hrd2]
              rw [if_neg (by omega), if_pos rfl]
            · rcases List.mem_cons.mp herest with rfl | hepost
              · rw [hrd2, if_pos rfl]
              · have hb := chain_mem hcc e hepost
                rw [hrd2, if_neg (by omega), if_neg (by omega)]
                exact (walkH_eq_iff.mp hw).2 e (by simp [hepost])
      have hents2 : entsOk (pre ++ (o, ns, u) :: (o + ns, ns, false) :: post) := by
        intro e he
        have hnsdvd : ns ∣ o := by
          apply dvd_trans (pow2_dvd_of_le hdiv hs (by omega))
          exact Nat.dvd_iff_mod_eq_zero.mpr hoas
        rcases List.mem_append.mp he with hepre | herest
        · exact hents e (by simp [hepre])
        · rcases List.mem_cons.mp herest with rfl | herest
          · refine ⟨⟨ks - 1, by omega, hdiv⟩, hns32, ?_⟩
            show o % ns = 0
            exact Nat.dvd_iff_mod_eq_zero.mp hnsdvd
          · rcases List.mem_cons.mp herest with rfl | hepost
            · refine ⟨⟨ks - 1, by omega, hdiv⟩, hns32, ?_⟩
              show (o + ns) % ns = 0
              have ho : o % ns = 0 := Nat.dvd_iff_mod_eq_zero.mp hnsdvd
              rw [Nat.add_mod, ho, Nat.mod_self]
              simp
            · exact hents e (by simp [hepost])
      have htot2 : h2.total ≤ W64 := htot
      have hihf : (ks - 1) + 1 ≤ f := by omega
      obtain ⟨t, kt, j, h', hrun, hkt, ht32, htle, hsj, hw', hents', hmin, hsuf, hstop2,
        he1, he2, he3, he4, he5⟩ :=
        ih h2 pre ((o + ns, ns, false) :: post) o ns (ks - 1) req u hw2 hents2 hdiv hns32 hreq htot2 hihf
      obtain ⟨j', hj'⟩ : ∃ j', ns = t * 2 ^ j' := ⟨j, hsj⟩
      have hsnoc : sibs o t s = sibs o t ns ++ [(o + ns, ns, false)] := by
        have hseq : s = t * 2 ^ (j + 1) := by
          rw [pow_succ, ← Nat.mul_assoc, ← hsj]
          omega
        rw [hseq, sibs_snoc j t o (by omega), ← hsj]
      refine ⟨t, kt, j + 1, h', ?_, hkt, ht32, by omega, ?_, ?_, ?_, hmin, ?_, ?_, ?_, ?_, ?_, ?_, ?_⟩
      · rw [hstep]; exact hrun
      · rw [pow_succ, ← Nat.mul_assoc, ← hsj]; omega
      · rw [hsnoc]
        rw [hw']
        simp
      · rw [hsnoc]
        intro e he
        apply hents'
        simp at he ⊢
        exact he
      · intro hss
        apply hsuf
        have h16 : MEMOFFSET = 16 := rfl
        rw [h16] at hss hg ⊢
        omega
      · intro hss
        exfalso
        have h16 : MEMOFFSET = 16 := rfl
        rw [h16] at hss hg
        omega
      · rw [he1, h2def, writeHdr_total, writeHdr_total]
      · rw [he2, h2def, writeHdr_nxt, writeHdr_nxt]
      · rw [he3, h2def, writeHdr_brk, writeHdr_brk]
      · rw [he4, h2def, writeHdr_lock, writeHdr_lock]
      · rw [he5, h2def, writeHdr_isInit, writeHdr_isInit]
    · -- the loop stops: return the block unchanged
      have hcond : (decide (sub64 (s / 2) MEMOFFSET ≥ req) && decide (s > MINBLOCKSIZE)) = false := by
        rw [hsub]
        simp only [Bool.and_eq_false_iff]
        left
        simpa using hg
      have hstep : splitLoop (f + 1) h o req = some h := by
        unfold splitLoop
        rw [hhd]
        simp only []
        rw [if_neg (by rw [hcond]; simp)]
      have hnil : sibs o s s = [] := sibs_base o s s (by omega)
      refine ⟨s, ks, 0, h, hstep, hs, h32, le_refl s, by simp, ?_, ?_, ?_, ?_, fun _ => rfl,
        rfl, rfl, rfl, rfl, rfl⟩
      · rw [hnil]; simpa using hw
      · rw [hnil]; simpa using hents
      · have h16 : MEMOFFSET = 16 := rfl
        rw [h16]
        rw [show MEMOFFSET = 16 from rfl] at hg
        omega
      · intro _; omega

lemma doubleUp_spec : ∀ (f s req : Nat), 1 ≤ s → req ≤ s * 2 ^ f → req ≤ 2 ^ 63 →
    ∃ m, doubleUp (f + 1) s req = some (s * 2 ^ m) ∧ req ≤ s * 2 ^ m ∧
      (m = 0 ∨ s * 2 ^ (m - 1) < req) := by
  intro f
  induction f with
  | zero =>
    intro s req hs hreq _
    simp only [pow_zero, Nat.mul_one] at hreq
    refine ⟨0, ?_, by simpa, Or.inl rfl⟩
    unfold doubleUp
    rw [if_neg (by omega)]
    congr 1
    simp
  | succ f ih =>
    intro s req hs hreq hreqB
    by_cases hlt : s < req
    · have hreq' : req ≤ (s * 2) * 2 ^ f := by
        rw [Nat.mul_assoc, Nat.mul_comm 2 (2 ^ f), ← pow_succ]
        exact hreq
      obtain ⟨m, hrun, hge, hmin⟩ := ih (s * 2) req (by omega) hreq' hreqB
      have hm2 : (s * 2) % W64 = s * 2 := by
        apply Nat.mod_eq_of_lt
        show s * 2 < W64
        have h2p : (2:Nat) ^ 63 * 2 = W64 := by norm_num [W64]
        omega
      have hstep : doubleUp (f + 1 + 1) s req = doubleUp (f + 1) (s * 2) req := by
        conv_lhs => rw [doubleUp]
        rw [if_pos hlt, hm2]
      refine ⟨m + 1, ?_, ?_, ?_⟩
      · rw [hstep, hrun]
        congr 1
        rw [pow_succ']
        ring
      · calc req ≤ s * 2 * 2 ^ m := hge
        _ = s * 2 ^ (m + 1) := by rw [pow_succ']; ring
      · right
        simp only [Nat.add_sub_cancel]
        rcases hmin with rfl | hmin
        · simpa using hlt
        · rcases Nat.eq_zero_or_pos m with rfl | hm1
          · simpa using hlt
          · have heq : s * 2 * 2 ^ (m - 1) = s * 2 ^ m := by
              conv_rhs => rw [show m = (m - 1) + 1 by omega]
              rw [pow_succ]
              ring
            rw [← heq]
            exact hmin
    · refine ⟨0, ?_, by simpa using hlt, Or.inl rfl⟩
      conv_lhs => rw [doubleUp]
      rw [if_neg hlt]
      congr 1
      simp

lemma doubleUp_zero : ∀ (f req : Nat), 1 ≤ req → doubleUp f 0 req = none := by
  intro f
  induction f with
  | zero => intro req _; rfl
  | succ f ih =>
    intro req hreq
    rw [doubleUp]
    rw [if_pos (by omega)]
    rw [show (0 * 2) % W64 = 0 from rfl]
    exact ih req hreq

/-- Successful runs of the doubling loop: no wrap happened on the way, so
the result is a genuine power-of-two multiple of the start meeting the
requirement. -/
lemma doubleUp_cond : ∀ (f s req sz : Nat), (∃ k, s = 2 ^ k) → s ≤ W64 →
    doubleUp f s req = some sz →
    ∃ m, sz = s * 2 ^ m ∧ req ≤ sz ∧ sz ≤ W64 ∧ (m = 0 ∨ s * 2 ^ (m - 1) < req) := by
  intro f
  induction f with
  | zero =>
    intro s req sz _ _ hrun
    exact absurd hrun (by simp [doubleUp])
  | succ f ih =>
    intro s req sz hks hsW hrun
    obtain ⟨k, hk⟩ := hks
    rw [doubleUp] at hrun
    by_cases hlt : s < req
    · rw [if_pos hlt] at hrun
      by_cases hk62 : k ≤ 62
      · have hm2 : (s * 2) % W64 = s * 2 := by
          apply Nat.mod_eq_of_lt
          show s * 2 < W64
          have h1 : s ≤ 2 ^ 62 := by
            rw [hk]
            exact Nat.pow_le_pow_right (by omega) hk62
          have h2p : (2:Nat) ^ 62 * 2 < W64 := by norm_num [W64]
          omega
        rw [hm2] at hrun
        obtain ⟨m, hsz, hge, hszW, hmin⟩ :=
          ih (s * 2) req sz ⟨k + 1, by rw [hk, pow_succ]⟩ (by
            have h1 : s * 2 < W64 := by
              have h1 : s ≤ 2 ^ 62 := by
                rw [hk]
                exact Nat.pow_le_pow_right (by omega) hk62
              have h2p : (2:Nat) ^ 62 * 2 < W64 := by norm_num [W64]
              omega
            omega) hrun
        refine ⟨m + 1, ?_, hge, hszW, ?_⟩
        · rw [hsz, pow_succ']
          ring
        · right
          simp only [Nat.add_sub_cancel]
          rcases hmin with rfl | hmin
          · have hx : s * 2 ^ 0 = s := by simp
            rw [hx]
            exact hlt
          · rcases Nat.eq_zero_or_pos m with rfl | hm1
            · have hx : s * 2 ^ 0 = s := by simp
              rw [hx]
              exact hlt
            · have heq : s * 2 * 2 ^ (m - 1) = s * 2 ^ m := by
                conv_rhs => rw [show m = (m - 1) + 1 by omega]
                rw [pow_succ]
                ring
              rw [← heq]
              exact hmin
      · have hs1 : 1 ≤ s := by
          rw [hk]
          exact Nat.one_le_two_pow
        have hm0 : (s * 2) % W64 = 0 := by
          have hk64 : k ≤ 64 := by
            by_contra hc
            have h1 : 2 ^ 65 ≤ 2 ^ k := Nat.pow_le_pow_right (by omega) (by omega)
            have h2 : (2:Nat) ^ 64 < 2 ^ 65 := by norm_num
            rw [hk] at hsW
            unfold W64 at hsW
            omega
          have hk' : k = 63 ∨ k = 64 := by omega
          rcases hk' with rfl | rfl
          · rw [hk]
            norm_num [W64]
          · rw [hk]
            norm_num [W64]
        rw [hm0] at hrun
        rw [doubleUp_zero f req (by omega)] at hrun
        exact absurd hrun (by simp)
    · rw [if_neg hlt] at hrun
      have hsz : s = sz := by injection hrun
      refine ⟨0, by rw [← hsz]; simp, by omega, by omega, Or.inl rfl⟩

lemma growLoop_spec : ∀ (f : Nat) (h : Heap) (bs : List (Nat × Nat × Bool)) (K required : Nat),
    walkH h = some bs → entsOk bs → h.total = 2 ^ K → 32 ≤ h.total →
    h.total + h.brk ≤ W64 →
    1 ≤ f → (required ≤ 2 ^ (K + f - 1) ∨ 64 - K + 2 ≤ f) →
    ∃ r h2, growLoop f h required = some (r, h2) ∧
      h2.nxt = h.nxt ∧ h2.lock = h.lock ∧ h2.isInit = h.isInit ∧
      h2.total + h2.brk = h.total + h.brk ∧
      (∃ K2, h2.total = 2 ^ K2 ∧ K ≤ K2) ∧
      (∀ x, x < h.total → hdr h2 x = hdr h x) ∧
      (∃ ext, walkH h2 = some (bs ++ ext) ∧ (∀ e ∈ ext, e.2.2 = false) ∧
        entsOk (bs ++ ext) ∧
        (∀ bo, r = some bo → ∃ ext', ext = ext' ++ [(bo, bo, false)] ∧
          h2.total = bo + bo ∧ required ≤ bo)) := by
  intro f
  induction f with
  | zero => intro h bs K required _ _ _ _ _ hf1 _; omega
  | succ f ih =>
    intro h bs K required hw hents htK h32 hsum hf1 hf2
    have hK64 : K ≤ 64 := by
      have : (2:Nat) ^ K ≤ 2 ^ 64 := by rw [← htK]; exact le_trans (by omega) (le_refl W64)
      exact (Nat.pow_le_pow_iff_right (by omega)).mp this
    by_cases hbrk : h.brk < h.total
    · -- sbrk fails immediately
      have hstep : growLoop (f + 1) h required = some (none, h) := by
        conv_lhs => rw [growLoop]
        simp only []
        rw [if_pos hbrk]
      refine ⟨none, h, hstep, rfl, rfl, rfl, rfl, ⟨K, htK, le_refl K⟩, fun x _ => rfl,
        ⟨[], by simpa using hw, by simp, by simpa using hents, ?_⟩⟩
      intro bo hbo
      exact absurd hbo (by simp)
    · -- install one block at the old end
      set tot := h.total with htot
      set h3 : Heap := { writeHdr { h with brk := h.brk - tot } tot ⟨tot, false⟩ with
        total := tot + tot } with h3def
      have hstep : growLoop (f + 1) h required =
          (if tot < required then growLoop f h3 required else some (some tot, h3)) := by
        conv_lhs => rw [growLoop]
        simp only []
        rw [if_neg hbrk]
      have hmemeq : ∀ x, hdr h3 x = if tot = x then some ⟨tot, false⟩ else hdr h x := by
        intro x
        have : hdr h3 x = hdr (writeHdr { h with brk := h.brk - tot } tot ⟨tot, false⟩) x := rfl
        rw [this, hdr_writeHdr]
        rcases eq_or_ne tot x with rfl | hne
        · simp
        · rw [if_neg hne, if_neg hne]
          rfl
      have hrdeq : ∀ x, rdH h3 x = if tot = x then some (tot, false) else rdH h x := by
        intro x
        unfold rdH
        rw [hmemeq]
        rcases eq_or_ne tot x with rfl | hne
        · simp
        · rw [if_neg hne, if_neg hne]
      have hchain : chain tot 0 bs := by
        have := (walkH_eq_iff.mp hw).1
        rwa [← htot] at this
      have hw3 : walkH h3 = some (bs ++ [(tot, tot, false)]) := by
        apply walkH_eq_iff.mpr
        constructor
        · apply chain_append_iff.mpr
          refine ⟨tot, hchain, rfl, by show 0 < tot; omega, ?_⟩
          show tot + tot = h3.total
          rfl
        · intro e he
          rcases List.mem_append.mp he with hepre | hee
          · have hb := chain_mem hchain e hepre
            rw [hrdeq, if_neg (by omega)]
            exact (walkH_eq_iff.mp hw).2 e hepre
          · obtain rfl : e = (tot, tot, false) := by simpa using hee
            rw [hrdeq, if_pos rfl]
      have hents3 : entsOk (bs ++ [(tot, tot, false)]) := by
        intro e he
        rcases List.mem_append.mp he with hepre | hee
        · exact hents e hepre
        · obtain rfl : e = (tot, tot, false) := by simpa using hee
          exact ⟨⟨K, hK64, htK⟩, h32, by show tot % tot = 0; simp⟩
      have h3tot : h3.total = tot + tot := rfl
      have h3K : h3.total = 2 ^ (K + 1) := by
        rw [h3tot, pow_succ]
        omega
      have h3sum : h3.total + h3.brk = h.total + h.brk := by
        have hb3 : h3.brk = h.brk - tot := rfl
        rw [h3tot, hb3]
        omega
      have h3nxt : h3.nxt = h.nxt := rfl
      have h3lock : h3.lock = h.lock := rfl
      have h3init : h3.isInit = h.isInit := rfl
      have hK63 : K + 1 ≤ 64 := by
        have h2t : tot + tot ≤ W64 := by omega
        have hpp : (2:Nat) ^ (K + 1) ≤ 2 ^ 64 := by
          rw [pow_succ]
          calc (2:Nat) ^ K * 2 = tot + tot := by omega
          _ ≤ W64 := h2t
        exact (Nat.pow_le_pow_iff_right (by omega)).mp hpp
      by_cases hlt : tot < required
      · -- keep doubling
        have hf1' : 1 ≤ f := by
          rcases Nat.eq_zero_or_pos f with rfl | hf
          · exfalso
            rcases hf2 with hf2 | hf2
            · have hx : K + (0 + 1) - 1 = K := by omega
              rw [hx, ← htK] at hf2
              omega
            · omega
          · exact hf
        have hf2' : required ≤ 2 ^ (K + 1 + f - 1) ∨ 64 - (K + 1) + 2 ≤ f := by
          rcases hf2 with hf2 | hf2
          · left
            have : K + (f + 1) - 1 = K + 1 + f - 1 := by omega
            rwa [this] at hf2
          · right; omega
        have h3sum' : h3.total + h3.brk ≤ W64 := by rw [h3sum]; exact hsum
        obtain ⟨r, h4, hrun, hn4, hl4, hi4, hs4, ⟨K2, hK2, hKK2⟩, hpres4, ext1, hw4, hfree1,
          hents4, hsucc⟩ :=
          ih h3 (bs ++ [(tot, tot, false)]) (K + 1) required hw3 hents3 h3K
            (by rw [h3tot]; omega) h3sum' hf1' hf2'
        refine ⟨r, h4, ?_, ?_, ?_, ?_, ?_, ⟨K2, hK2, by omega⟩, ?_, ?_⟩
        · rw [hstep, if_pos hlt]; exact hrun
        · rw [hn4, h3nxt]
        · rw [hl4, h3lock]
        · rw [hi4, h3init]
        · rw [hs4, h3sum]
        · intro x hx
          rw [hpres4 x (by rw [h3tot]; omega), hmemeq, if_neg (by omega)]
        · refine ⟨(tot, tot, false) :: ext1, by simpa using hw4, ?_, by simpa using hents4, ?_⟩
          · intro e he
            rcases List.mem_cons.mp he with rfl | he
            · rfl
            · exact hfree1 e he
          · intro bo hbo
            obtain ⟨ext', hext', htot', hreq'⟩ := hsucc bo hbo
            exact ⟨(tot, tot, false) :: ext', by rw [hext']; simp, htot', hreq'⟩
      · -- big enough: success
        refine ⟨some tot, h3, ?_, h3nxt, h3lock, h3init, h3sum, ⟨K + 1, h3K, by omega⟩, ?_, ?_⟩
        · rw [hstep, if_neg hlt]
        · intro x hx
          rw [hmemeq, if_neg (by omega)]
        · refine ⟨[(tot, tot, false)], hw3, ?_, hents3, ?_⟩
          · intro e he
            obtain rfl : e = (tot, tot, false) := by simpa using he
            rfl
          · intro bo hbo
            obtain rfl : tot = bo := by simpa using hbo
            exact ⟨[], by simp, h3tot, by omega⟩

/-- Full characterization of `grow` on a valid state: both the
single-free-block doubling regime and the general extension regime
preserve the tiling; on failure the existing headers are untouched and the
region has only gained free blocks, on success the returned offset heads a
free block of the required size at the end of the region. -/
lemma grow_spec {h : Heap} {bs : List (Nat × Nat × Bool)} {K req : Nat}
    (hw : walkH h = some bs) (hents : entsOk bs) (htK : h.total = 2 ^ K)
    (h32 : 32 ≤ h.total) (hsum : h.total + h.brk ≤ W64) :
    ∀ r h2, grow h req = some (r, h2) →
      h2.nxt = h.nxt ∧ h2.lock = h.lock ∧ h2.isInit = h.isInit ∧
      h2.total + h2.brk = h.total + h.brk ∧
      (∃ K2, h2.total = 2 ^ K2 ∧ K ≤ K2) ∧
      (r = none → ∃ ext, walkH h2 = some (bs ++ ext) ∧ (∀ e ∈ ext, e.2.2 = false) ∧
        entsOk (bs ++ ext) ∧ (∀ x, x < h.total → hdr h2 x = hdr h x)) ∧
      (∀ bo, r = some bo → ∃ pre' sz ksz, walkH h2 = some (pre' ++ [(bo, sz, false)]) ∧
        entsOk (pre' ++ [(bo, sz, false)]) ∧ h2.total = bo + sz ∧
        (req + MEMOFFSET) % W64 ≤ sz ∧ sz = 2 ^ ksz ∧ 32 ≤ sz) := by
  intro r hres hrungrow
  obtain ⟨hc, hro⟩ := walkH_eq_iff.mp hw
  cases bs with
  | nil =>
    exfalso
    have h0 : (0:Nat) = h.total := hc
    omega
  | cons e rest =>
    obtain ⟨e1, sz0, u0⟩ := e
    obtain ⟨he1, hsz0p, hcrest⟩ := hc
    have he10 : e1 = 0 := he1
    subst he10
    have hhd0 : hdr h 0 = some ⟨sz0, u0⟩ :=
      hdr_of_rdH (hro (0, sz0, u0) (by simp))
    by_cases hcond : sz0 = h.total ∧ u0 = false
    · -- single-free-block regime
      obtain ⟨hsz0, hu0⟩ := hcond
      subst hu0
      have hsz0pos : 0 < sz0 := hsz0p
      have hrest : rest = [] := by
        apply chain_nil_of_eq
        have hx : (0:Nat) + sz0 = h.total := by omega
        rwa [hx] at hcrest
      subst hrest
      have hbeq : (sz0 == h.total && !false) = true := by
        simp [hsz0]
      rcases hdu : doubleUp ((req + MEMOFFSET) % W64 + 2) sz0 ((req + MEMOFFSET) % W64)
        with _ | size
      · have hgrow : grow h req = none := by
          unfold grow
          rw [hhd0]
          simp only []
          rw [hbeq]
          simp only [if_true]
          rw [hdu]
        rw [hgrow] at hrungrow
        exact absurd hrungrow (by simp)
      · obtain ⟨m, hsizem, hge, hszW, _⟩ :=
          doubleUp_cond _ sz0 ((req + MEMOFFSET) % W64) size
            ⟨K, by rw [hsz0, htK]⟩ (by rw [hsz0]; omega) hdu
        have hszle : sz0 ≤ size := by
          rw [hsizem]
          calc sz0 = sz0 * 1 := by omega
          _ ≤ sz0 * 2 ^ m := Nat.mul_le_mul (le_refl _) (Nat.one_le_two_pow)
        have hsubeq : sub64 size sz0 = size - sz0 :=
          sub64_eq hszle (by omega)
        by_cases hbrk : h.brk < size - sz0
        · -- sbrk fails: heap unchanged
          have hgrow : grow h req = some (none, h) := by
            unfold grow
            rw [hhd0]
            simp only []
            rw [hbeq]
            simp only [if_true]
            rw [hdu]
            simp only []
            rw [hsubeq]
            rw [if_pos hbrk]
          rw [hgrow] at hrungrow
          simp only [Option.some.injEq, Prod.mk.injEq] at hrungrow
          obtain ⟨rfl, rfl⟩ := hrungrow
          refine ⟨rfl, rfl, rfl, rfl, ⟨K, htK, le_refl K⟩, ?_, ?_⟩
          · intro _
            exact ⟨[], by simpa using hw, by simp, by simpa using hents, fun x _ => rfl⟩
          · intro bo hbo
            exact absurd hbo (by simp)
        · -- double the root block in place
          set h3 : Heap := { writeHdr { h with brk := h.brk - (size - sz0) } 0
              ⟨size, false⟩ with total := size } with h3def
          have hgrow : grow h req = some (some 0, h3) := by
            unfold grow
            rw [hhd0]
            simp only []
            rw [hbeq]
            simp only [if_true]
            rw [hdu]
            simp only []
            rw [hsubeq]
            rw [if_neg hbrk]
          rw [hgrow] at hrungrow
          simp only [Option.some.injEq, Prod.mk.injEq] at hrungrow
          obtain ⟨rfl, rfl⟩ := hrungrow
          have hKm : size = 2 ^ (K + m) := by
            rw [hsizem, hsz0, htK, pow_add]
          have hKm64 : K + m ≤ 64 := by
            have hsw : size ≤ W64 := hszW
            rw [hKm] at hsw
            exact (Nat.pow_le_pow_iff_right (by omega)).mp hsw
          have hrd3 : ∀ x, rdH h3 x = if 0 = x then some (size, false) else rdH h x := by
            intro x
            have : rdH h3 x = rdH (writeHdr { h with brk := h.brk - (size - sz0) } 0
                ⟨size, false⟩) x := rfl
            rw [this, rdH_writeHdr]
            rcases eq_or_ne 0 x with rfl | hne
            · simp
            · rw [if_neg hne, if_neg hne]
              rfl
          have hw3 : walkH h3 = some [(0, size, false)] := by
            apply walkH_eq_iff.mpr
            constructor
            · exact ⟨rfl, by show 0 < size; omega,
                by show 0 + size = h3.total; rw [show h3.total = size from rfl]; omega⟩
            · intro e he
              obtain rfl : e = (0, size, false) := by simpa using he
              rw [hrd3, if_pos rfl]
          have hents3 : entsOk [(0, size, false)] := by
            intro e he
            obtain rfl : e = (0, size, false) := by simpa using he
            exact ⟨⟨K + m, hKm64, hKm⟩, by show 32 ≤ size; omega, by show 0 % size = 0; simp⟩
          refine ⟨rfl, rfl, rfl, ?_, ⟨K + m, ?_, by omega⟩, ?_, ?_⟩
          · show size + (h.brk - (size - sz0)) = h.total + h.brk
            omega
          · show h3.total = 2 ^ (K + m)
            rw [show h3.total = size from rfl, hKm]
          · intro hno
            exact absurd hno (by simp)
          · intro bo hbo
            obtain rfl : (0:Nat) = bo := by simpa using hbo
            refine ⟨[], size, K + m, by simpa using hw3, by simpa using hents3, ?_, hge, hKm,
              by omega⟩
            show h3.total = 0 + size
            rw [show h3.total = size from rfl]
            omega
    · -- general regime
      have hbeq : (sz0 == h.total && !u0) = false := by
        rcases Bool.eq_false_or_eq_true u0 with hu | hu
        · simp [hu]
        · have hne : sz0 ≠ h.total := by
            intro hx
            exact hcond ⟨hx, hu⟩
          simp [hne]
      obtain ⟨r0, h20, hrun, hn2, hl2, hi2, hs2, hK2, hpres2, ext, hwx, hfree, hentsx, hsucc⟩ :=
        growLoop_spec ((req + MEMOFFSET) % W64 + 2) h ((0, sz0, u0) :: rest) K
          ((req + MEMOFFSET) % W64)
          hw hents htK h32 hsum (by omega)
          (by
            left
            have h1 : (req + MEMOFFSET) % W64 < 2 ^ ((req + MEMOFFSET) % W64) :=
              Nat.lt_two_pow _
            have h2 : (2:Nat) ^ ((req + MEMOFFSET) % W64) ≤
                2 ^ (K + ((req + MEMOFFSET) % W64 + 2) - 1) :=
              Nat.pow_le_pow_right (by omega) (by omega)
            omega)
      have hgrow : grow h req =
          growLoop ((req + MEMOFFSET) % W64 + 2) h ((req + MEMOFFSET) % W64) := by
        unfold grow
        rw [hhd0]
        simp only []
        rw [hbeq]
        rw [if_neg (by simp)]
      rw [hgrow, hrun] at hrungrow
      simp only [Option.some.injEq, Prod.mk.injEq] at hrungrow
      obtain ⟨rfl, rfl⟩ := hrungrow
      refine ⟨hn2, hl2, hi2, hs2, hK2, ?_, ?_⟩
      · intro _
        exact ⟨ext, hwx, hfree, hentsx, hpres2⟩
      · intro bo hbo
        obtain ⟨ext2, hext2, htot2, hreq2⟩ := hsucc bo hbo
        have hmem : (bo, bo, false) ∈ ((0, sz0, u0) :: rest) ++ ext := by
          rw [hext2]
          simp
        obtain ⟨⟨ksz, hksz, hpow⟩, hsz32, _⟩ := hentsx (bo, bo, false) hmem
        refine ⟨((0, sz0, u0) :: rest) ++ ext2, bo, ksz, ?_, ?_, htot2, hreq2, hpow, hsz32⟩
        · rw [hwx, hext2]
          simp
        · rw [hext2] at hentsx
          intro e he
          apply hentsx
          simp at he ⊢
          exact he

/-- On every input whose (wrap-free) requirement fits in `2 ^ 63`,
`grow` completes. -/
lemma grow_total {h : Heap} {bs : List (Nat × Nat × Bool)} {K req : Nat}
    (hw : walkH h = some bs) (hents : entsOk bs) (htK : h.total = 2 ^ K)
    (h32 : 32 ≤ h.total) (hsum : h.total + h.brk ≤ W64)
    (hreqB : req + MEMOFFSET ≤ 2 ^ 63) :
    ∃ r h2, grow h req = some (r, h2) := by
  obtain ⟨hc, hro⟩ := walkH_eq_iff.mp hw
  have hreqid : (req + MEMOFFSET) % W64 = req + MEMOFFSET := by
    apply Nat.mod_eq_of_lt
    have h2p : (2:Nat) ^ 63 < W64 := by norm_num [W64]
    omega
  cases bs with
  | nil =>
    exfalso
    have h0 : (0:Nat) = h.total := hc
    omega
  | cons e rest =>
    obtain ⟨e1, sz0, u0⟩ := e
    obtain ⟨he1, hsz0p, hcrest⟩ := hc
    have he10 : e1 = 0 := he1
    subst he10
    have hhd0 : hdr h 0 = some ⟨sz0, u0⟩ :=
      hdr_of_rdH (hro (0, sz0, u0) (by simp))
    by_cases hcond : sz0 = h.total ∧ u0 = false
    · obtain ⟨hsz0, hu0⟩ := hcond
      subst hu0
      have hsz0pos : 0 < sz0 := hsz0p
      have hbeq : (sz0 == h.total && !false) = true := by
        simp [hsz0]
      have hreqpow : req + MEMOFFSET ≤ sz0 * 2 ^ (req + MEMOFFSET + 1) := by
        have h1 : req + MEMOFFSET < 2 ^ (req + MEMOFFSET) := Nat.lt_two_pow _
        have h2 : (2:Nat) ^ (req + MEMOFFSET) ≤ 2 ^ (req + MEMOFFSET + 1) :=
          Nat.pow_le_pow_right (by omega) (by omega)
        calc req + MEMOFFSET ≤ 2 ^ (req + MEMOFFSET + 1) := by omega
        _ = 1 * 2 ^ (req + MEMOFFSET + 1) := by omega
        _ ≤ sz0 * 2 ^ (req + MEMOFFSET + 1) := Nat.mul_le_mul (by omega) (le_refl _)
      obtain ⟨m, hrun, hge, _⟩ :=
        doubleUp_spec (req + MEMOFFSET + 1) sz0 (req + MEMOFFSET) (by omega) hreqpow hreqB
      have hrun' : doubleUp ((req + MEMOFFSET) % W64 + 2) sz0 ((req + MEMOFFSET) % W64) =
          some (sz0 * 2 ^ m) := by
        rw [hreqid]
        exact hrun
      by_cases hbrk : h.brk < sub64 (sz0 * 2 ^ m) sz0
      · refine ⟨none, h, ?_⟩
        unfold grow
        rw [hhd0]
        simp only []
        rw [hbeq]
        simp only [if_true]
        rw [hrun']
        simp only []
        rw [if_pos hbrk]
      · have hgrow : grow h req = some (some 0,
            { writeHdr { h with brk := h.brk - sub64 (sz0 * 2 ^ m) sz0 } 0
              ⟨sz0 * 2 ^ m, false⟩ with total := sz0 * 2 ^ m }) := by
          unfold grow
          rw [hhd0]
          simp only []
          rw [hbeq]
          simp only [if_true]
          rw [hrun']
          simp only []
          rw [if_neg hbrk]
        exact ⟨_, _, hgrow⟩
    · have hbeq : (sz0 == h.total && !u0) = false := by
        rcases Bool.eq_false_or_eq_true u0 with hu | hu
        · simp [hu]
        · have hne : sz0 ≠ h.total := by
            intro hx
            exact hcond ⟨hx, hu⟩
          simp [hne]
      obtain ⟨r0, h20, hrun, _⟩ :=
        growLoop_spec ((req + MEMOFFSET) % W64 + 2) h ((0, sz0, u0) :: rest) K
          ((req + MEMOFFSET) % W64)
          hw hents htK h32 hsum (by omega)
          (by
            left
            have h1 : (req + MEMOFFSET) % W64 < 2 ^ ((req + MEMOFFSET) % W64) :=
              Nat.lt_two_pow _
            have h2 : (2:Nat) ^ ((req + MEMOFFSET) % W64) ≤
                2 ^ (K + ((req + MEMOFFSET) % W64 + 2) - 1) :=
              Nat.pow_le_pow_right (by omega) (by omega)
            omega)
      refine ⟨r0, h20, ?_⟩
      have hgrow : grow h req =
          growLoop ((req + MEMOFFSET) % W64 + 2) h ((req + MEMOFFSET) % W64) := by
        unfold grow
        rw [hhd0]
        simp only []
        rw [hbeq]
        rw [if_neg (by simp)]
      rw [hgrow]
      exact hrun

/-- What the search loop of `balloc` guarantees about its result: either it
found a suitable free block in the unchanged heap, or it went through
`grow` (successfully or not), leaving a grown, still-tiled region. -/
def fitPost (h : Heap) (bs : List (Nat × Nat × Bool)) (req : Nat) : FitRes → Prop
  | .found o2 h2 =>
      (h2 = h ∧ ∃ pre2 s2 post2, bs = pre2 ++ (o2, s2, false) :: post2 ∧
        req ≤ sub64 s2 MEMOFFSET) ∨
      (h2.nxt = h.nxt ∧ h2.lock = h.lock ∧ h2.isInit = h.isInit ∧
        h2.total + h2.brk = h.total + h.brk ∧ h.total ≤ h2.total ∧
        (∃ K2, h2.total = 2 ^ K2) ∧
        ∃ pre' sz ksz, walkH h2 = some (pre' ++ [(o2, sz, false)]) ∧
          entsOk (pre' ++ [(o2, sz, false)]) ∧ h2.total = o2 + sz ∧
          (req + MEMOFFSET) % W64 ≤ sz ∧ sz = 2 ^ ksz ∧ 32 ≤ sz)
  | .nomem h2 =>
      h2.nxt = h.nxt ∧ h2.lock = h.lock ∧ h2.isInit = h.isInit ∧
      h2.total + h2.brk = h.total + h.brk ∧ h.total ≤ h2.total ∧
      (∃ K2, h2.total = 2 ^ K2) ∧
      ∃ ext, walkH h2 = some (bs ++ ext) ∧ (∀ e ∈ ext, e.2.2 = false) ∧
        entsOk (bs ++ ext) ∧ (∀ x, x < h.total → hdr h2 x = hdr h x)

lemma mem_decomp {bs : List (Nat × Nat × Bool)} {o : Nat} (hx : ∃ e ∈ bs, e.1 = o) :
    ∃ pre s u post, bs = pre ++ (o, s, u) :: post := by
  obtain ⟨⟨e1, es, eu⟩, he, h1⟩ := hx
  have h1' : e1 = o := h1
  subst h1'
  obtain ⟨pre, post, rfl⟩ := List.append_of_mem he
  exact ⟨pre, es, eu, post, rfl⟩

lemma grow_fitPost {h : Heap} {bs : List (Nat × Nat × Bool)} {K req : Nat}
    (hw : walkH h = some bs) (hents : entsOk bs) (htK : h.total = 2 ^ K)
    (h32 : 32 ≤ h.total) (hsum : h.total + h.brk ≤ W64) (r : Option Nat) (h2 : Heap)
    (hgrow : grow h req = some (r, h2)) :
    ∃ res, (match grow h req with
      | none => none
      | some (none, h2) => some (FitRes.nomem h2)
      | some (some bo, h2) => some (FitRes.found bo h2)) = some res ∧
      fitPost h bs req res := by
  obtain ⟨hn2, hl2, hi2, hs2, ⟨K2, hK2, hKK2⟩, hfail, hsucc⟩ :=
    @grow_spec _ _ _ req hw hents htK h32 hsum r h2 hgrow
  have htle : h.total ≤ h2.total := by
    rw [htK, hK2]
    exact Nat.pow_le_pow_right (by omega) hKK2
  cases r with
  | none =>
    obtain ⟨ext, hwx, hfree, hentsx, hpres⟩ := hfail rfl
    refine ⟨.nomem h2, by rw [hgrow], ?_⟩
    exact ⟨hn2, hl2, hi2, hs2, htle, ⟨K2, hK2⟩, ext, hwx, hfree, hentsx, hpres⟩
  | some bo =>
    obtain ⟨pre', sz, ksz, hwx, hentsx, htot2, hreq2, hszpow, hsz32⟩ := hsucc bo rfl
    refine ⟨.found bo h2, by rw [hgrow], Or.inr ?_⟩
    exact ⟨hn2, hl2, hi2, hs2, htle, ⟨K2, hK2⟩, pre', sz, ksz, hwx, hentsx, htot2, hreq2,
      hszpow, hsz32⟩

/-- The search loop after the wrap-around: the cursor is strictly below
`next` and walks block by block until it reaches it (calling `grow`) or
finds a fitting free block. -/
lemma fit_specB : ∀ (f : Nat) (h : Heap) (bs : List (Nat × Nat × Bool)) (req o K : Nat),
    walkH h = some bs → entsOk bs → h.total = 2 ^ K → 32 ≤ h.total →
    h.total + h.brk ≤ W64 → req + MEMOFFSET ≤ 2 ^ 63 →
    (∃ e ∈ bs, e.1 = o) → (∃ e ∈ bs, e.1 = h.nxt) → o < h.nxt →
    h.nxt - o ≤ f →
    ∃ res, fit f h req o = some res ∧ fitPost h bs req res := by
  intro f
  induction f with
  | zero => intro h bs req o K _ _ _ _ _ _ _ _ ho hf; omega
  | succ f ih =>
    intro h bs req o K hw hents htK h32 hsum hreqB hoe hne ho hf
    obtain ⟨pre, s, u, post, hbs⟩ := mem_decomp hoe
    subst hbs
    obtain ⟨hcp, hsp, hcc, hrd⟩ := walk_decomp hw
    have hhd : hdr h o = some ⟨s, u⟩ := hdr_of_rdH hrd
    by_cases hsuit : (decide (sub64 s MEMOFFSET < req) || u) = true
    · -- unsuitable: advance toward next
      have hnxtpost : o + s ≤ h.nxt := by
        obtain ⟨en, hen, hen1⟩ := hne
        rcases List.mem_append.mp hen with hp | hp
        · exfalso
          have := chain_mem hcp en hp
          omega
        · rcases List.mem_cons.mp hp with rfl | hp
          · exfalso
            have hx : o = h.nxt := hen1
            omega
          · have := chain_mem hcc en hp
            omega
      have hnxtlt : h.nxt < h.total := by
        obtain ⟨en, hen, hen1⟩ := hne
        have := chain_mem (walkH_eq_iff.mp hw).1 en hen
        omega
      have hbtot : (o + s == h.total) = false := by
        simp only [beq_eq_false_iff_ne, ne_eq]
        omega
      by_cases heq : o + s = h.nxt
      · -- full cycle: grow
        have hstep : fit (f + 1) h req o = (match grow h req with
            | none => none
            | some (none, h2) => some (FitRes.nomem h2)
            | some (some bo, h2) => some (FitRes.found bo h2)) := by
          conv_lhs => rw [fit]
          rw [hhd]
          simp only []
          rw [if_pos hsuit]
          simp only [hbtot, Bool.false_eq_true, if_false]
          rw [if_pos (by simp only [beq_iff_eq]; omega)]
        obtain ⟨r0, h20, hgr⟩ := @grow_total _ _ _ req hw hents htK h32 hsum hreqB
        obtain ⟨res, hres, hpost⟩ :=
          @grow_fitPost _ _ _ req hw hents htK h32 hsum r0 h20 hgr
        exact ⟨res, by rw [hstep]; exact hres, hpost⟩
      · -- keep walking
        have hpostne : ∃ e' post', post = e' :: post' := by
          cases post with
          | nil =>
            exfalso
            have : o + s = h.total := hcc
            omega
          | cons e' post' => exact ⟨e', post', rfl⟩
        obtain ⟨e', post', rfl⟩ := hpostne
        have he'1 : e'.1 = o + s := hcc.1
        have hstep : fit (f + 1) h req o = fit f h req (o + s) := by
          conv_lhs => rw [fit]
          rw [hhd]
          simp only []
          rw [if_pos hsuit]
          simp only [hbtot, Bool.false_eq_true, if_false]
          rw [if_neg (by simp only [beq_iff_eq]; omega)]
        have hoe' : ∃ e ∈ pre ++ (o, s, u) :: e' :: post', e.1 = o + s :=
          ⟨e', by simp, he'1⟩
        obtain ⟨res, hres, hpost⟩ :=
          ih h (pre ++ (o, s, u) :: e' :: post') req (o + s) K hw hents htK h32 hsum
            hreqB hoe' hne (by omega) (by omega)
        exact ⟨res, by rw [hstep]; exact hres, hpost⟩
    · -- suitable block found: heap unchanged
      have hu : u = false := by
        rcases Bool.eq_false_or_eq_true u with hu | hu
        · exfalso; apply hsuit; simp [hu]
        · exact hu
      have hreqle : req ≤ sub64 s MEMOFFSET := by
        by_contra hc
        apply hsuit
        simp only [Bool.or_eq_true, decide_eq_true_eq]
        left
        omega
      have hstep : fit (f + 1) h req o = some (.found o h) := by
        conv_lhs => rw [fit]
        rw [hhd]
        simp only []
        rw [if_neg hsuit]
      subst hu
      exact ⟨.found o h, hstep, Or.inl ⟨rfl, pre, s, post, rfl, hreqle⟩⟩

/-- The search loop before the wrap-around: the cursor is at or past
`next` and walks block by block, wrapping from `end` to `start`. -/
lemma fit_specA : ∀ (f : Nat) (h : Heap) (bs : List (Nat × Nat × Bool)) (req o K : Nat),
    walkH h = some bs → entsOk bs → h.total = 2 ^ K → 32 ≤ h.total →
    h.total + h.brk ≤ W64 → req + MEMOFFSET ≤ 2 ^ 63 →
    (∃ e ∈ bs, e.1 = o) → (∃ e ∈ bs, e.1 = h.nxt) → h.nxt ≤ o →
    h.total - o + h.nxt + 1 ≤ f →
    ∃ res, fit f h req o = some res ∧ fitPost h bs req res := by
  intro f
  induction f with
  | zero => intro h bs req o K _ _ _ _ _ _ _ _ _ hf; omega
  | succ f ih =>
    intro h bs req o K hw hents htK h32 hsum hreqB hoe hne ho hf
    obtain ⟨pre, s, u, post, hbs⟩ := mem_decomp hoe
    subst hbs
    obtain ⟨hcp, hsp, hcc, hrd⟩ := walk_decomp hw
    have hhd : hdr h o = some ⟨s, u⟩ := hdr_of_rdH hrd
    have hotot : o + s ≤ h.total := by
      have := chain_mem (walkH_eq_iff.mp hw).1 (o, s, u) (by simp)
      exact this.2.1
    by_cases hsuit : (decide (sub64 s MEMOFFSET < req) || u) = true
    · -- unsuitable: advance
      by_cases hwrap : o + s = h.total
      · -- wrap to start
        have hbtot : (o + s == h.total) = true := by
          simp only [beq_iff_eq]
          omega
        by_cases hnz : h.nxt = 0
        · -- wrapped straight onto the cursor: grow
          have hstep : fit (f + 1) h req o = (match grow h req with
              | none => none
              | some (none, h2) => some (FitRes.nomem h2)
              | some (some bo, h2) => some (FitRes.found bo h2)) := by
            conv_lhs => rw [fit]
            rw [hhd]
            simp only []
            rw [if_pos hsuit]
            simp only [hbtot, if_true]
            rw [if_pos (by simp only [beq_iff_eq]; omega)]
          obtain ⟨r0, h20, hgr⟩ := @grow_total _ _ _ req hw hents htK h32 hsum hreqB
          obtain ⟨res, hres, hpost⟩ :=
            @grow_fitPost _ _ _ req hw hents htK h32 hsum r0 h20 hgr
          exact ⟨res, by rw [hstep]; exact hres, hpost⟩
        · -- continue from the start of the region
          have hstep : fit (f + 1) h req o = fit f h req 0 := by
            conv_lhs => rw [fit]
            rw [hhd]
            simp only []
            rw [if_pos hsuit]
            simp only [hbtot, if_true]
            rw [if_neg (by simp only [beq_iff_eq]; omega)]
          have hzoff : ∃ e ∈ pre ++ (o, s, u) :: post, e.1 = 0 := by
            cases hpre : pre with
            | nil =>
              refine ⟨(o, s, u), by simp, ?_⟩
              subst hpre
              exact ((walkH_eq_iff.mp hw).1).1
            | cons e0 pre' =>
              refine ⟨e0, by simp [hpre], ?_⟩
              have hcp' : chain o 0 (e0 :: pre') := hpre ▸ hcp
              exact hcp'.1
          obtain ⟨res, hres, hpost⟩ :=
            fit_specB f h (pre ++ (o, s, u) :: post) req 0 K hw hents htK h32 hsum
              hreqB hzoff hne (by omega) (by omega)
          exact ⟨res, by rw [hstep]; exact hres, hpost⟩
      · -- no wrap: keep walking rightward
        have hbtot : (o + s == h.total) = false := by
          simp only [beq_eq_false_iff_ne, ne_eq]
          omega
        have hpostne : ∃ e' post', post = e' :: post' := by
          cases post with
          | nil =>
            exfalso
            have : o + s = h.total := hcc
            omega
          | cons e' post' => exact ⟨e', post', rfl⟩
        obtain ⟨e', post', rfl⟩ := hpostne
        have he'1 : e'.1 = o + s := hcc.1
        have hstep : fit (f + 1) h req o = fit f h req (o + s) := by
          conv_lhs => rw [fit]
          rw [hhd]
          simp only []
          rw [if_pos hsuit]
          simp only [hbtot, Bool.false_eq_true, if_false]
          rw [if_neg (by simp only [beq_iff_eq]; omega)]
        have hoe' : ∃ e ∈ pre ++ (o, s, u) :: e' :: post', e.1 = o + s :=
          ⟨e', by simp, he'1⟩
        obtain ⟨res, hres, hpost⟩ :=
          ih h (pre ++ (o, s, u) :: e' :: post') req (o + s) K hw hents htK h32 hsum
            hreqB hoe' hne (by omega) (by omega)
        exact ⟨res, by rw [hstep]; exact hres, hpost⟩
    · -- suitable block found: heap unchanged
      have hu : u = false := by
        rcases Bool.eq_false_or_eq_true u with hu | hu
        · exfalso; apply hsuit; simp [hu]
        · exact hu
      have hreqle : req ≤ sub64 s MEMOFFSET := by
        by_contra hc
        apply hsuit
        simp only [Bool.or_eq_true, decide_eq_true_eq]
        left
        omega
      have hstep : fit (f + 1) h req o = some (.found o h) := by
        conv_lhs => rw [fit]
        rw [hhd]
        simp only []
        rw [if_neg hsuit]
      subst hu
      exact ⟨.found o h, hstep, Or.inl ⟨rfl, pre, s, post, rfl, hreqle⟩⟩

/-- The search loop of `balloc`, entered at the cursor with the fuel
`balloc` provides, always returns, and its result satisfies `fitPost`. -/
lemma fit_spec {h : Heap} {bs : List (Nat × Nat × Bool)} {req K : Nat}
    (hw : walkH h = some bs) (hents : entsOk bs) (htK : h.total = 2 ^ K)
    (h32 : 32 ≤ h.total) (hsum : h.total + h.brk ≤ W64)
    (hne : ∃ e ∈ bs, e.1 = h.nxt) (hreqB : req + MEMOFFSET ≤ 2 ^ 63) :
    ∃ res, fit (2 * h.total + 4) h req h.nxt = some res ∧ fitPost h bs req res := by
  have hnxtlt : h.nxt < h.total := by
    obtain ⟨en, hen, hen1⟩ := hne
    have := chain_mem (walkH_eq_iff.mp hw).1 en hen
    omega
  exact fit_specA (2 * h.total + 4) h bs req h.nxt K hw hents htK h32 hsum
    hreqB hne hne (le_refl _) (by omega)

/-- Conditional counterpart: with whatever fuel, a completed search
satisfies `fitPost`, for any request size. -/
lemma fit_cond : ∀ (f : Nat) (h : Heap) (bs : List (Nat × Nat × Bool)) (req o K : Nat),
    walkH h = some bs → entsOk bs → h.total = 2 ^ K → 32 ≤ h.total →
    h.total + h.brk ≤ W64 →
    (∃ e ∈ bs, e.1 = o) →
    ∀ res, fit f h req o = some res → fitPost h bs req res := by
  intro f
  induction f with
  | zero =>
    intro h bs req o K _ _ _ _ _ _ res hrun
    exact absurd hrun (by simp [fit])
  | succ f ih =>
    intro h bs req o K hw hents htK h32 hsum hoe res hrun
    obtain ⟨pre, s, u, post, hbs⟩ := mem_decomp hoe
    subst hbs
    obtain ⟨hcp, hsp, hcc, hrd⟩ := walk_decomp hw
    have hhd : hdr h o = some ⟨s, u⟩ := hdr_of_rdH hrd
    by_cases hsuit : (decide (sub64 s MEMOFFSET < req) || u) = true
    · have hotot : o + s ≤ h.total := by
        have := chain_mem (walkH_eq_iff.mp hw).1 (o, s, u) (by simp)
        exact this.2.1
      by_cases hwrap : o + s = h.total
      · have hbtot : (o + s == h.total) = true := by
          simp only [beq_iff_eq]
          omega
        by_cases hnz : h.nxt = 0
        · have hstep : fit (f + 1) h req o = (match grow h req with
              | none => none
              | some (none, h2) => some (FitRes.nomem h2)
              | some (some bo, h2) => some (FitRes.found bo h2)) := by
            conv_lhs => rw [fit]
            rw [hhd]
            simp only []
            rw [if_pos hsuit]
            simp only [hbtot, if_true]
            rw [if_pos (by simp only [beq_iff_eq]; omega)]
          rw [hstep] at hrun
          rcases hgr : grow h req with _ | rh2
          · rw [hgr] at hrun
            exact absurd hrun (by simp)
          · obtain ⟨r0, h20⟩ := rh2
            obtain ⟨res2, hres2, hpost⟩ :=
              @grow_fitPost _ _ _ req hw hents htK h32 hsum r0 h20 hgr
            rw [hres2] at hrun
            have hx : res2 = res := by injection hrun
            rw [hx] at hpost
            exact hpost
        · have hstep : fit (f + 1) h req o = fit f h req 0 := by
            conv_lhs => rw [fit]
            rw [hhd]
            simp only []
            rw [if_pos hsuit]
            simp only [hbtot, if_true]
            rw [if_neg (by simp only [beq_iff_eq]; omega)]
          rw [hstep] at hrun
          have hzoff : ∃ e ∈ pre ++ (o, s, u) :: post, e.1 = 0 := by
            cases hpre : pre with
            | nil =>
              refine ⟨(o, s, u), by simp, ?_⟩
              subst hpre
              exact ((walkH_eq_iff.mp hw).1).1
            | cons e0 pre2 =>
              refine ⟨e0, by simp [hpre], ?_⟩
              have hcp2 : chain o 0 (e0 :: pre2) := hpre ▸ hcp
              exact hcp2.1
          exact ih h (pre ++ (o, s, u) :: post) req 0 K hw hents htK h32 hsum hzoff res hrun
      · have hbtot : (o + s == h.total) = false := by
          simp only [beq_eq_false_iff_ne, ne_eq]
          omega
        by_cases heq : o + s = h.nxt
        · have hstep : fit (f + 1) h req o = (match grow h req with
              | none => none
              | some (none, h2) => some (FitRes.nomem h2)
              | some (some bo, h2) => some (FitRes.found bo h2)) := by
            conv_lhs => rw [fit]
            rw [hhd]
            simp only []
            rw [if_pos hsuit]
            simp only [hbtot, Bool.false_eq_true, if_false]
            rw [if_pos (by simp only [beq_iff_eq]; omega)]
          rw [hstep] at hrun
          rcases hgr : grow h req with _ | rh2
          · rw [hgr] at hrun
            exact absurd hrun (by simp)
          · obtain ⟨r0, h20⟩ := rh2
            obtain ⟨res2, hres2, hpost⟩ :=
              @grow_fitPost _ _ _ req hw hents htK h32 hsum r0 h20 hgr
            rw [hres2] at hrun
            have hx : res2 = res := by injection hrun
            rw [hx] at hpost
            exact hpost
        · have hpostne : ∃ e2 post2, post = e2 :: post2 := by
            cases post with
            | nil =>
              exfalso
              have : o + s = h.total := hcc
              omega
            | cons e2 post2 => exact ⟨e2, post2, rfl⟩
          obtain ⟨e2, post2, rfl⟩ := hpostne
          have he21 : e2.1 = o + s := hcc.1
          have hstep : fit (f + 1) h req o = fit f h req (o + s) := by
            conv_lhs => rw [fit]
            rw [hhd]
            simp only []
            rw [if_pos hsuit]
            simp only [hbtot, Bool.false_eq_true, if_false]
            rw [if_neg (by simp only [beq_iff_eq]; omega)]
          rw [hstep] at hrun
          have hoe2 : ∃ e ∈ pre ++ (o, s, u) :: e2 :: post2, e.1 = o + s :=
            ⟨e2, by simp, he21⟩
          exact ih h (pre ++ (o, s, u) :: e2 :: post2) req (o + s) K hw hents htK h32 hsum
            hoe2 res hrun
    · have hu : u = false := by
        rcases Bool.eq_false_or_eq_true u with hu | hu
        · exfalso; apply hsuit; simp [hu]
        · exact hu
      have hreqle : req ≤ sub64 s MEMOFFSET := by
        by_contra hc
        apply hsuit
        simp only [Bool.or_eq_true, decide_eq_true_eq]
        left
        omega
      have hstep : fit (f + 1) h req o = some (.found o h) := by
        conv_lhs => rw [fit]
        rw [hhd]
        simp only []
        rw [if_neg hsuit]
      rw [hstep] at hrun
      have hx : FitRes.found o h = res := by injection hrun
      subst hu
      rw [← hx]
      exact Or.inl ⟨rfl, pre, s, post, rfl, hreqle⟩

/-- The committing tail of `balloc`: after the best-fit split, updating
the cursor and marking the chosen block used keeps the tiling, and the
new cursor is again a block header (or the wrapped start). -/
lemma commit_spec : ∀ (h3 : Heap) (pre2 mid : List (Nat × Nat × Bool)) (o t n3 : Nat),
    walkH h3 = some (pre2 ++ (o, t, false) :: mid) →
    entsOk (pre2 ++ (o, t, false) :: mid) →
    n3 = (if o + t = h3.total then 0 else o + t) →
    walkH (writeHdr { h3 with nxt := n3 } o ⟨t, true⟩) =
      some (pre2 ++ (o, t, true) :: mid) ∧
    entsOk (pre2 ++ (o, t, true) :: mid) ∧
    (∃ e ∈ pre2 ++ (o, t, true) :: mid, e.1 = n3) := by
  intro h3 pre2 mid o t n3 hw3 hents3 hn3
  obtain ⟨hcp, htp, hcc, hrd⟩ := walk_decomp hw3
  have hrdeq : ∀ x, rdH (writeHdr { h3 with nxt := n3 } o ⟨t, true⟩) x =
      if o = x then some (t, true) else rdH h3 x := by
    intro x
    rw [rdH_writeHdr]
    rcases eq_or_ne o x with rfl | hne
    · simp
    · rw [if_neg hne, if_neg hne]
      rfl
  refine ⟨?_, ?_, ?_⟩
  · apply walkH_eq_iff.mpr
    constructor
    · apply chain_append_iff.mpr
      refine ⟨o, hcp, rfl, by show 0 < t; omega, ?_⟩
      show chain (writeHdr { h3 with nxt := n3 } o ⟨t, true⟩).total (o + t) mid
      have : (writeHdr { h3 with nxt := n3 } o ⟨t, true⟩).total = h3.total := rfl
      rw [this]
      exact hcc
    · intro e he
      rcases List.mem_append.mp he with hp | hp
      · have hb := chain_mem hcp e hp
        rw [hrdeq, if_neg (by omega)]
        exact (walkH_eq_iff.mp hw3).2 e (by simp [hp])
      · rcases List.mem_cons.mp hp with rfl | hp
        · rw [hrdeq, if_pos rfl]
        · have hb := chain_mem hcc e hp
          rw [hrdeq, if_neg (by omega)]
          exact (walkH_eq_iff.mp hw3).2 e (by simp [hp])
  · intro e he
    rcases List.mem_append.mp he with hp | hp
    · exact hents3 e (by simp [hp])
    · rcases List.mem_cons.mp hp with rfl | hp
      · have := hents3 (o, t, false) (by simp)
        exact this
      · exact hents3 e (by simp [hp])
  · by_cases hwrapc : o + t = h3.total
    · rw [hn3, if_pos hwrapc]
      cases hpre : pre2 with
      | nil =>
        refine ⟨(o, t, true), by simp, ?_⟩
        show o = 0
        subst hpre
        have h0 : chain o 0 [] := hcp
        exact h0.symm
      | cons e0 pre' =>
        refine ⟨e0, by simp [hpre], ?_⟩
        have hcp' : chain o 0 (e0 :: pre') := hpre ▸ hcp
        exact hcp'.1
    · rw [hn3, if_neg hwrapc]
      cases hmid : mid with
      | nil =>
        exfalso
        subst hmid
        have : o + t = h3.total := hcc
        omega
      | cons e' mid' =>
        refine ⟨e', by simp [hmid], ?_⟩
        have hcc' : chain h3.total (o + t) (e' :: mid') := hmid ▸ hcc
        exact hcc'.1

/- Byte-level effect analysis, towards the data-preservation claim. -/

lemma dfill_ne {d : Nat → Nat} {a n v x : Nat} (hne : dfill d a n v x ≠ d x) :
    a ≤ x ∧ x < a + n := by
  by_contra hx
  exact hne (by unfold dfill; rw [if_neg hx])

lemma writeHdr_data (h : Heap) (o : Nat) (b : Block) :
    (writeHdr h o b).data = dfill h.data o MEMOFFSET 0 := rfl

/-- A byte inside a header written at an `m`-aligned offset sits in the
first `MEMOFFSET` bytes of its `m`-block. -/
lemma hdrWrite_safe {o x m : Nat} (hal : o % m = 0) (hx : o ≤ x) (hx2 : x < o + MEMOFFSET) :
    x % m < MEMOFFSET := by
  obtain ⟨q, hq⟩ := Nat.dvd_of_mod_eq_zero hal
  obtain ⟨j, rfl⟩ : ∃ j, x = o + j := ⟨x - o, by omega⟩
  have hj : j < MEMOFFSET := by omega
  rw [hq, Nat.mul_add_mod]
  exact lt_of_le_of_lt (Nat.mod_le _ _) hj

/-- Write-set analysis of the best-fit split loop: every byte it changes
lies in the first `MEMOFFSET` bytes of some power-of-two-aligned block of
at least the requested size, and every header it leaves readable is either
untouched or carries at least the requested size. -/
lemma splitLoop_effects : ∀ (f : Nat) (h : Heap) (o req : Nat) (h' : Heap) (b : Block),
    splitLoop f h o req = some h' →
    hdr h o = some b → o % b.size = 0 → (∃ j, b.size = 2 ^ j) →
    32 ≤ b.size → b.size ≤ W64 → 1 ≤ req →
    (∀ x, h'.data x ≠ h.data x → ∃ k, req + MEMOFFSET ≤ 2 ^ k ∧ x % 2 ^ k < MEMOFFSET) ∧
    (∀ x b', hdr h' x = some b' →
      hdr h x = some b' ∨ (req + MEMOFFSET ≤ b'.size ∧ b'.size ≤ W64)) := by
  intro f
  induction f with
  | zero =>
    intro h o req h' b hrun _ _ _ _ _ _
    exact absurd hrun (by simp [splitLoop])
  | succ f ih =>
    intro h o req h' b hrun hhd hal hpow h32 hW hreq
    obtain ⟨j, hbj⟩ := hpow
    obtain ⟨hev, hdiv⟩ := pow2_even hbj (by omega)
    have hsub : sub64 (b.size / 2) MEMOFFSET = b.size / 2 - MEMOFFSET := by
      apply sub64_eq
      · show 16 ≤ b.size / 2; omega
      · show b.size / 2 - 16 < W64
        have hW0 : 0 < W64 := by norm_num [W64]
        omega
    by_cases hg : req ≤ b.size / 2 - MEMOFFSET
    · have hcond : (decide (sub64 (b.size / 2) MEMOFFSET ≥ req) &&
          decide (b.size > MINBLOCKSIZE)) = true := by
        rw [hsub]
        simp only [Bool.and_eq_true, decide_eq_true_eq]
        exact ⟨hg, by show 16 < b.size; omega⟩
      set ns := b.size / 2 with hnsdef
      have hns17 : 17 ≤ ns := by
        have h16 : MEMOFFSET = 16 := rfl
        rw [h16] at hg
        omega
      have hns32 : 32 ≤ ns := pow2_ge32 hdiv hns17
      have hnsreq : req + MEMOFFSET ≤ ns := by
        have h16 : MEMOFFSET = 16 := rfl
        rw [h16] at hg ⊢
        omega
      set h2 := writeHdr (writeHdr h o { b with size := ns }) (o + ns) ⟨ns, false⟩ with h2def
      have hstep : splitLoop (f + 1) h o req = splitLoop f h2 o req := by
        conv_lhs => rw [splitLoop]
        rw [hhd]
        simp only []
        rw [if_pos hcond]
      rw [hstep] at hrun
      have hnsdvd : ns ∣ o :=
        dvd_trans (pow2_dvd_of_le hdiv hbj (by omega)) (Nat.dvd_of_mod_eq_zero hal)
      have hoans : o % ns = 0 := Nat.dvd_iff_mod_eq_zero.mp hnsdvd
      have hhd2 : hdr h2 o = some { b with size := ns } := by
        rw [h2def, hdr_writeHdr, if_neg (by omega), hdr_writeHdr, if_pos rfl]
      have hih := ih h2 o req h' { b with size := ns } hrun hhd2
        (by show o % ns = 0; exact hoans) ⟨j - 1, hdiv⟩
        (by show 32 ≤ ns; exact hns32) (by show ns ≤ W64; omega) hreq
      have hd2 : h2.data = dfill (dfill h.data o MEMOFFSET 0) (o + ns) MEMOFFSET 0 := rfl
      refine ⟨?_, ?_⟩
      · intro x hx
        by_cases hx2 : h2.data x = h.data x
        · exact hih.1 x (by rw [← hx2] at hx; exact hx)
        · rw [hd2] at hx2
          by_cases hx3 : (o + ns) ≤ x ∧ x < (o + ns) + MEMOFFSET
          · refine ⟨j - 1, by rw [← hdiv]; exact hnsreq, ?_⟩
            rw [← hdiv]
            have halns : (o + ns) % ns = 0 := by
              rw [Nat.add_mod, hoans, Nat.mod_self]
              simp
            exact hdrWrite_safe halns hx3.1 hx3.2
          · have hx4 : dfill h.data o MEMOFFSET 0 x ≠ h.data x := by
              intro hc
              apply hx2
              unfold dfill
              rw [if_neg hx3]
              exact hc
            have hx5 := dfill_ne hx4
            refine ⟨j, by rw [← hbj]; omega, ?_⟩
            rw [← hbj]
            exact hdrWrite_safe hal hx5.1 hx5.2
      · intro x b' hx
        rcases hih.2 x b' hx with hun | hsz
        · rw [h2def, hdr_writeHdr] at hun
          by_cases hc1 : o + ns = x
          · rw [if_pos hc1] at hun
            have hb' : (⟨ns, false⟩ : Block) = b' := by injection hun
            right
            rw [← hb']
            refine ⟨?_, ?_⟩
            · show req + MEMOFFSET ≤ ns
              exact hnsreq
            · show ns ≤ W64
              omega
          · rw [if_neg hc1, hdr_writeHdr] at hun
            by_cases hc2 : o = x
            · rw [if_pos hc2] at hun
              have hb' : { b with size := ns } = b' := by injection hun
              right
              rw [← hb']
              refine ⟨?_, ?_⟩
              · show req + MEMOFFSET ≤ ns
                exact hnsreq
              · show ns ≤ W64
                omega
            · rw [if_neg hc2] at hun
              exact Or.inl hun
        · exact Or.inr hsz
    · have hcond : (decide (sub64 (b.size / 2) MEMOFFSET ≥ req) &&
          decide (b.size > MINBLOCKSIZE)) = false := by
        rw [hsub]
        simp only [Bool.and_eq_false_iff]
        left
        simpa using hg
      have hstep : splitLoop (f + 1) h o req = some h := by
        unfold splitLoop
        rw [hhd]
        simp only []
        rw [if_neg (by rw [hcond]; simp)]
      rw [hstep] at hrun
      have hh' : h = h' := by injection hrun
      subst hh'
      exact ⟨fun x hx => absurd rfl hx, fun x b' hx => Or.inl hx⟩

/-- Write-set analysis of `brealloc`'s shrink loop (same body as the
best-fit split without the `MINBLOCKSIZE` guard). -/
lemma shrinkLoop_effects : ∀ (f : Nat) (h : Heap) (o req : Nat) (h' : Heap) (b : Block),
    shrinkLoop f h o req = some h' →
    hdr h o = some b → o % b.size = 0 → (∃ j, b.size = 2 ^ j) →
    32 ≤ b.size → b.size ≤ W64 → 1 ≤ req →
    (∀ x, h'.data x ≠ h.data x → ∃ k, req + MEMOFFSET ≤ 2 ^ k ∧ x % 2 ^ k < MEMOFFSET) ∧
    (∀ x b', hdr h' x = some b' → hdr h x = some b' ∨ req + MEMOFFSET ≤ b'.size) := by
  intro f
  induction f with
  | zero =>
    intro h o req h' b hrun _ _ _ _ _ _
    exact absurd hrun (by simp [shrinkLoop])
  | succ f ih =>
    intro h o req h' b hrun hhd hal hpow h32 hW hreq
    obtain ⟨j, hbj⟩ := hpow
    obtain ⟨hev, hdiv⟩ := pow2_even hbj (by omega)
    have hsub : sub64 (b.size / 2) MEMOFFSET = b.size / 2 - MEMOFFSET := by
      apply sub64_eq
      · show 16 ≤ b.size / 2; omega
      · show b.size / 2 - 16 < W64
        have hW0 : 0 < W64 := by norm_num [W64]
        omega
    by_cases hg : req ≤ b.size / 2 - MEMOFFSET
    · have hcond : sub64 (b.size / 2) MEMOFFSET ≥ req := by
        rw [hsub]
        exact hg
      set ns := b.size / 2 with hnsdef
      have hns17 : 17 ≤ ns := by
        have h16 : MEMOFFSET = 16 := rfl
        rw [h16] at hg
        omega
      have hns32 : 32 ≤ ns := pow2_ge32 hdiv hns17
      have hnsreq : req + MEMOFFSET ≤ ns := by
        have h16 : MEMOFFSET = 16 := rfl
        rw [h16] at hg ⊢
        omega
      set h2 := writeHdr (writeHdr h o { b with size := ns }) (o + ns) ⟨ns, false⟩ with h2def
      have hstep : shrinkLoop (f + 1) h o req = shrinkLoop f h2 o req := by
        conv_lhs => rw [shrinkLoop]
        rw [hhd]
        simp only []
        rw [if_pos hcond]
      rw [hstep] at hrun
      have hnsdvd : ns ∣ o :=
        dvd_trans (pow2_dvd_of_le hdiv hbj (by omega)) (Nat.dvd_of_mod_eq_zero hal)
      have hoans : o % ns = 0 := Nat.dvd_iff_mod_eq_zero.mp hnsdvd
      have hhd2 : hdr h2 o = some { b with size := ns } := by
        rw [h2def, hdr_writeHdr, if_neg (by omega), hdr_writeHdr, if_pos rfl]
      have hih := ih h2 o req h' { b with size := ns } hrun hhd2
        (by show o % ns = 0; exact hoans) ⟨j - 1, hdiv⟩
        (by show 32 ≤ ns; exact hns32) (by show ns ≤ W64; omega) hreq
      have hd2 : h2.data = dfill (dfill h.data o MEMOFFSET 0) (o + ns) MEMOFFSET 0 := rfl
      refine ⟨?_, ?_⟩
      · intro x hx
        by_cases hx2 : h2.data x = h.data x
        · exact hih.1 x (by rw [← hx2] at hx; exact hx)
        · rw [hd2] at hx2
          by_cases hx3 : (o + ns) ≤ x ∧ x < (o + ns) + MEMOFFSET
          · refine ⟨j - 1, by rw [← hdiv]; exact hnsreq, ?_⟩
            rw [← hdiv]
            have halns : (o + ns) % ns = 0 := by
              rw [Nat.add_mod, hoans, Nat.mod_self]
              simp
            exact hdrWrite_safe halns hx3.1 hx3.2
          · have hx4 : dfill h.data o MEMOFFSET 0 x ≠ h.data x := by
              intro hc
              apply hx2
              unfold dfill
              rw [if_neg hx3]
              exact hc
            have hx5 := dfill_ne hx4
            refine ⟨j, by rw [← hbj]; omega, ?_⟩
            rw [← hbj]
            exact hdrWrite_safe hal hx5.1 hx5.2
      · intro x b' hx
        rcases hih.2 x b' hx with hun | hsz
        · rw [h2def, hdr_writeHdr] at hun
          by_cases hc1 : o + ns = x
          · rw [if_pos hc1] at hun
            have hb' : (⟨ns, false⟩ : Block) = b' := by injection hun
            right
            rw [← hb']
            show req + MEMOFFSET ≤ ns
            exact hnsreq
          · rw [if_neg hc1, hdr_writeHdr] at hun
            by_cases hc2 : o = x
            · rw [if_pos hc2] at hun
              have hb' : { b with size := ns } = b' := by injection hun
              right
              rw [← hb']
              show req + MEMOFFSET ≤ ns
              exact hnsreq
            · rw [if_neg hc2] at hun
              exact Or.inl hun
        · exact Or.inr hsz
    · have hcond : ¬(sub64 (b.size / 2) MEMOFFSET ≥ req) := by
        rw [hsub]
        exact hg
      have hstep : shrinkLoop (f + 1) h o req = some h := by
        unfold shrinkLoop
        rw [hhd]
        simp only []
        rw [if_neg hcond]
      rw [hstep] at hrun
      have hh' : h = h' := by injection hrun
      subst hh'
      exact ⟨fun x hx => absurd rfl hx, fun x b' hx => Or.inl hx⟩


/-- The heap carried by a search result. -/
def fitHeap : FitRes → Heap
  | .found _ h2 => h2
  | .nomem h2 => h2

lemma doubleUp_ge : ∀ (f s req sz : Nat), doubleUp f s req = some sz → req ≤ sz := by
  intro f
  induction f with
  | zero => intro s req sz hrun; exact absurd hrun (by simp [doubleUp])
  | succ f ih =>
    intro s req sz hrun
    rw [doubleUp] at hrun
    by_cases hc : s < req
    · rw [if_pos hc] at hrun
      exact ih _ _ _ hrun
    · rw [if_neg hc] at hrun
      have hs : s = sz := by injection hrun
      omega

/-- `growLoop` never touches bytes or headers below the old `end`. -/
lemma growLoop_effects : ∀ (f : Nat) (h : Heap) (required : Nat) (r : Option Nat) (h2 : Heap),
    growLoop f h required = some (r, h2) →
    ∀ x, x < h.total → h2.data x = h.data x ∧ hdr h2 x = hdr h x := by
  intro f
  induction f with
  | zero => intro h required r h2 hrun; exact absurd hrun (by simp [growLoop])
  | succ f ih =>
    intro h required r h2 hrun x hx
    by_cases hbrk : h.brk < h.total
    · have hstep : growLoop (f + 1) h required = some (none, h) := by
        conv_lhs => rw [growLoop]
        simp only []
        rw [if_pos hbrk]
      rw [hstep] at hrun
      have hp : ((none : Option Nat), h) = (r, h2) := by injection hrun
      have hh : h = h2 := congrArg Prod.snd hp
      rw [← hh]
      exact ⟨rfl, rfl⟩
    · set tot := h.total with htot
      set h3 : Heap := { writeHdr { h with brk := h.brk - tot } tot ⟨tot, false⟩ with
        total := tot + tot } with h3def
      have hstep : growLoop (f + 1) h required =
          (if tot < required then growLoop f h3 required else some (some tot, h3)) := by
        conv_lhs => rw [growLoop]
        simp only []
        rw [if_neg hbrk]
      rw [hstep] at hrun
      have hd3 : h3.data x = h.data x := by
        have hdd : h3.data = dfill h.data tot MEMOFFSET 0 := rfl
        rw [hdd]
        unfold dfill
        rw [if_neg (by omega)]
      have hh3 : hdr h3 x = hdr h x := by
        have hstep2 : hdr h3 x = hdr (writeHdr { h with brk := h.brk - tot } tot ⟨tot, false⟩) x :=
          rfl
        rw [hstep2, hdr_writeHdr, if_neg (by omega)]
        rfl
      by_cases hlt : tot < required
      · rw [if_pos hlt] at hrun
        have hih := ih h3 required r h2 hrun x (by show x < tot + tot; omega)
        exact ⟨by rw [hih.1, hd3], by rw [hih.2, hh3]⟩
      · rw [if_neg hlt] at hrun
        have hp : (some tot, h3) = (r, h2) := by injection hrun
        have hh : h3 = h2 := congrArg Prod.snd hp
        rw [← hh]
        exact ⟨hd3, hh3⟩

/-- `grow` only writes the bytes of a header at offset 0 (single-block
regime) or past the old `end`; any header it rewrites below the old `end`
carries at least the required size. -/
lemma grow_effects {h : Heap} {req : Nat} {r : Option Nat} {h2 : Heap} {K : Nat}
    (hrun : grow h req = some (r, h2)) (htK : h.total = 2 ^ K)
    (hsum : h.total + h.brk ≤ W64) :
    ∀ x, x < h.total →
      (h2.data x ≠ h.data x → x < MEMOFFSET) ∧
      (∀ b', hdr h2 x = some b' →
        hdr h x = some b' ∨ ((req + MEMOFFSET) % W64 ≤ b'.size ∧ b'.size ≤ W64)) := by
  unfold grow at hrun
  rcases hh0 : hdr h 0 with _ | s0 <;> rw [hh0] at hrun
  · exact absurd hrun (by simp)
  · simp only [] at hrun
    by_cases hbc : (s0.size == h.total && !s0.used) = true
    · rw [hbc] at hrun
      simp only [if_true] at hrun
      rcases hdu : doubleUp ((req + MEMOFFSET) % W64 + 2) s0.size ((req + MEMOFFSET) % W64)
        with _ | size
        <;> rw [hdu] at hrun
      · exact absurd hrun (by simp)
      · simp only [] at hrun
        have hs0t : s0.size = h.total := by
          rw [Bool.and_eq_true, beq_iff_eq] at hbc
          exact hbc.1
        obtain ⟨m, hszm, hsz, hszW, _⟩ :=
          doubleUp_cond _ s0.size ((req + MEMOFFSET) % W64) size
            ⟨K, by rw [hs0t, htK]⟩ (by rw [hs0t]; omega) hdu
        by_cases hbrk : h.brk < sub64 size s0.size
        · rw [if_pos hbrk] at hrun
          have hp : ((none : Option Nat), h) = (r, h2) := by injection hrun
          have hh : h = h2 := congrArg Prod.snd hp
          intro x hx
          rw [← hh]
          exact ⟨fun hc => absurd rfl hc, fun b' hb => Or.inl hb⟩
        · rw [if_neg hbrk] at hrun
          have hp : (some 0, ({ writeHdr { h with brk := h.brk - sub64 size s0.size } 0
              { s0 with size := size } with total := size } : Heap)) = (r, h2) := by
            injection hrun
          have hh2 : ({ writeHdr { h with brk := h.brk - sub64 size s0.size } 0
              { s0 with size := size } with total := size } : Heap) = h2 := congrArg Prod.snd hp
          intro x hx
          constructor
          · intro hne
            rw [← hh2] at hne
            have hdd : ({ writeHdr { h with brk := h.brk - sub64 size s0.size } 0
                { s0 with size := size } with total := size } : Heap).data =
                dfill h.data 0 MEMOFFSET 0 := rfl
            rw [hdd] at hne
            have hio := dfill_ne hne
            omega
          · intro b' hb
            rw [← hh2] at hb
            have hhh : hdr ({ writeHdr { h with brk := h.brk - sub64 size s0.size } 0
                { s0 with size := size } with total := size } : Heap) x =
                if 0 = x then some { s0 with size := size } else hdr h x := by
              have hstep : hdr ({ writeHdr { h with brk := h.brk - sub64 size s0.size } 0
                  { s0 with size := size } with total := size } : Heap) x =
                  hdr (writeHdr { h with brk := h.brk - sub64 size s0.size } 0
                  { s0 with size := size }) x := rfl
              rw [hstep, hdr_writeHdr]
              rcases eq_or_ne 0 x with rfl | hne
              · simp
              · rw [if_neg hne, if_neg hne]
                rfl
            rw [hhh] at hb
            by_cases h0x : 0 = x
            · rw [if_pos h0x] at hb
              have hb' : { s0 with size := size } = b' := by injection hb
              right
              rw [← hb']
              refine ⟨?_, ?_⟩
              · show (req + MEMOFFSET) % W64 ≤ size
                exact hsz
              · show size ≤ W64
                exact hszW
            · rw [if_neg h0x] at hb
              exact Or.inl hb
    · rw [Bool.not_eq_true] at hbc
      rw [hbc] at hrun
      simp only [Bool.false_eq_true, if_false] at hrun
      intro x hx
      have hg := growLoop_effects _ _ _ _ _ hrun x hx
      exact ⟨fun hc => absurd hg.1 hc, fun b' hb => Or.inl (by rw [← hg.2]; exact hb)⟩

/-- The search loop writes nothing itself; all its effects come from the
final `grow`, so bytes below the old `end` survive it outside header
starts and every rewritten header is at least the request. -/
lemma fit_effects : ∀ (f : Nat) (h : Heap) (req o K : Nat) (res : FitRes),
    fit f h req o = some res → h.total = 2 ^ K → h.total + h.brk ≤ W64 →
    ∀ x, x < h.total →
      ((fitHeap res).data x ≠ h.data x → x < MEMOFFSET) ∧
      (∀ b', hdr (fitHeap res) x = some b' →
        hdr h x = some b' ∨ ((req + MEMOFFSET) % W64 ≤ b'.size ∧ b'.size ≤ W64)) := by
  intro f
  induction f with
  | zero => intro h req o K res hrun; exact absurd hrun (by simp [fit])
  | succ f ih =>
    intro h req o K res hrun htK hsum x hx
    rcases hho : hdr h o with _ | b
    · have hstep : fit (f + 1) h req o = none := by
        conv_lhs => rw [fit]
        rw [hho]
      rw [hstep] at hrun
      exact absurd hrun (by simp)
    · by_cases hsuit : (decide (sub64 b.size MEMOFFSET < req) || b.used) = true
      · by_cases hn : ((if (o + b.size == h.total) = true then (0:Nat) else o + b.size) ==
            h.nxt) = true
        · have hstep : fit (f + 1) h req o = (match grow h req with
              | none => none
              | some (none, h2) => some (FitRes.nomem h2)
              | some (some bo, h2) => some (FitRes.found bo h2)) := by
            conv_lhs => rw [fit]
            rw [hho]
            simp only []
            rw [if_pos hsuit]
            rw [if_pos hn]
          rw [hstep] at hrun
          rcases hgr : grow h req with _ | rp
          · rw [hgr] at hrun
            exact absurd hrun (by simp)
          · obtain ⟨ro, hg⟩ := rp
            rw [hgr] at hrun
            cases ro with
            | none =>
              simp only [] at hrun
              have hres : FitRes.nomem hg = res := by injection hrun
              rw [← hres]
              exact grow_effects hgr htK hsum x hx
            | some bo =>
              simp only [] at hrun
              have hres : FitRes.found bo hg = res := by injection hrun
              rw [← hres]
              exact grow_effects hgr htK hsum x hx
        · have hstep : fit (f + 1) h req o =
              fit f h req (if (o + b.size == h.total) = true then (0:Nat) else o + b.size) := by
            conv_lhs => rw [fit]
            rw [hho]
            simp only []
            rw [if_pos hsuit]
            rw [if_neg hn]
          rw [hstep] at hrun
          exact ih h req _ K res hrun htK hsum x hx
      · have hstep : fit (f + 1) h req o = some (.found o h) := by
          conv_lhs => rw [fit]
          rw [hho]
          simp only []
          rw [if_neg hsuit]
        rw [hstep] at hrun
        have hres : FitRes.found o h = res := by injection hrun
        rw [← hres]
        exact ⟨fun hc => absurd rfl hc, fun b' hb => Or.inl hb⟩

/-- Full characterization of `balloc` on a valid initialized state: it
returns, the lock is balanced, the region stays a tiled power-of-two
region and the cursor stays on a header; on failure the old headers are
untouched and only free blocks were appended; on success the payload
pointer is `MEMOFFSET` past a used block of sufficient power-of-two size. -/
lemma balloc_spec {h : Heap} {bs : List (Nat × Nat × Bool)} {size K : Nat}
    (hinit : h.isInit = true)
    (hw : walkH h = some bs) (hents : entsOk bs) (htK : h.total = 2 ^ K)
    (h32 : 32 ≤ h.total) (hsum : h.total + h.brk ≤ W64)
    (hne : ∃ e ∈ bs, e.1 = h.nxt) (hsz : 1 ≤ size)
    (hszB : size + MEMOFFSET ≤ 2 ^ 63) :
    ∃ r h', balloc h size = some (r, h') ∧
      h'.lock = h.lock ∧ h'.isInit = true ∧
      h'.total + h'.brk = h.total + h.brk ∧ h.total ≤ h'.total ∧
      (∃ K', h'.total = 2 ^ K') ∧
      (∃ bs', walkH h' = some bs' ∧ entsOk bs' ∧ (∃ e ∈ bs', e.1 = h'.nxt)) ∧
      (r = none → h'.nxt = h.nxt ∧
        ∃ ext, walkH h' = some (bs ++ ext) ∧ (∀ e ∈ ext, e.2.2 = false) ∧
          (∀ x, x < h.total → hdr h' x = hdr h x)) ∧
      (∀ q, r = some q → ∃ o t, q = o + MEMOFFSET ∧ (∃ kt, t = 2 ^ kt) ∧
        32 ≤ t ∧ size + MEMOFFSET ≤ t ∧ hdr h' o = some ⟨t, true⟩) ∧
      (∀ x, x < h.total → h'.data x ≠ h.data x →
        x < MEMOFFSET ∨ ∃ k, size + MEMOFFSET ≤ 2 ^ k ∧ x % 2 ^ k < MEMOFFSET) ∧
      (∀ x b', x < h.total → hdr h' x = some b' →
        hdr h x = some b' ∨ (size + MEMOFFSET ≤ b'.size ∧ b'.size ≤ W64)) := by
  have hid : (size + MEMOFFSET) % W64 = size + MEMOFFSET := by
    apply Nat.mod_eq_of_lt
    have h2p : (2:Nat) ^ 63 < W64 := by norm_num [W64]
    omega
  have hw1 : walkH { h with lock := h.lock + 1 } = some bs := by
    rw [walkH_lock]; exact hw
  have hne1 : ∃ e ∈ bs, e.1 = ({ h with lock := h.lock + 1 } : Heap).nxt := hne
  obtain ⟨res, hfit, hpost⟩ :=
    @fit_spec { h with lock := h.lock + 1 } _ size K hw1 hents htK h32 hsum hne1 hszB
  have hfit' : fit (2 * h.total + 4) { h with lock := h.lock + 1 } size h.nxt = some res := hfit
  have hsz0 : ¬((size == 0) = true) := by simp; omega
  cases res with
  | nomem h2 =>
    obtain ⟨hn2, hl2, hi2, hs2, htle, ⟨K2, hK2⟩, ext, hwx, hfree, hentsx, hpres⟩ := hpost
    have hball : balloc h size = some (none, { h2 with lock := h2.lock - 1 }) := by
      unfold balloc
      rw [if_pos hinit]
      simp only []
      rw [if_neg hsz0]
      rw [hfit']
    have hl2' : h2.lock = h.lock + 1 := hl2
    have hn2' : h2.nxt = h.nxt := hn2
    refine ⟨none, { h2 with lock := h2.lock - 1 }, hball, by show h2.lock - 1 = h.lock; omega,
      by show h2.isInit = true; rw [hi2]; exact hinit, hs2, htle, ⟨K2, hK2⟩, ?_, ?_, ?_, ?_, ?_⟩
    · refine ⟨bs ++ ext, by rw [walkH_lock]; exact hwx, hentsx, ?_⟩
      obtain ⟨e, he, he1⟩ := hne
      exact ⟨e, by simp [he], by rw [he1]; show h.nxt = h2.nxt; omega⟩
    · intro _
      refine ⟨by show h2.nxt = h.nxt; omega, ext, by rw [walkH_lock]; exact hwx, hfree, ?_⟩
      intro x hx
      have : hdr { h2 with lock := h2.lock - 1 } x = hdr h2 x := rfl
      rw [this, hpres x hx]
      rfl
    · intro q hq
      exact absurd hq (by simp)
    · intro x hx hne2
      exact Or.inl ((fit_effects _ _ _ _ K _ hfit' htK hsum x hx).1 hne2)
    · intro x b' hx hb
      rcases (fit_effects _ _ _ _ K _ hfit' htK hsum x hx).2 b' hb with h1 | h1
      · exact Or.inl h1
      · rw [hid] at h1
        exact Or.inr h1
  | found o h2 =>
    have hcommon : ∃ pre2 s2 post2 ks2,
        walkH h2 = some (pre2 ++ (o, s2, false) :: post2) ∧
        entsOk (pre2 ++ (o, s2, false) :: post2) ∧
        (∃ K2, h2.total = 2 ^ K2) ∧ h2.total ≤ W64 ∧
        h2.lock = h.lock + 1 ∧ h2.isInit = true ∧
        h2.total + h2.brk = h.total + h.brk ∧ h.total ≤ h2.total ∧
        s2 = 2 ^ ks2 ∧ 32 ≤ s2 ∧ size + MEMOFFSET ≤ s2 := by
      rcases hpost with ⟨heq2, pre2, s2, post2, hbs2, hreqle⟩ |
        ⟨hn2, hl2, hi2, hs2, htle, ⟨K2, hK2⟩, pre', sz, ksz, hwx, hentsx, htot2, hreq2, hszpow,
          hsz32⟩
      · subst heq2
        subst hbs2
        obtain ⟨⟨ks2, hks2, hs2pow⟩, hs232, _⟩ := hents (o, s2, false) (by simp)
        have hs232x : 32 ≤ s2 := hs232
        have hs2tot : o + s2 ≤ h.total := by
          have := chain_mem (walkH_eq_iff.mp hw).1 (o, s2, false) (by simp)
          exact this.2.1
        have hsubeq : sub64 s2 MEMOFFSET = s2 - 16 := by
          apply sub64_eq
          · show 16 ≤ s2; omega
          · show s2 - 16 < W64; omega
        rw [hsubeq] at hreqle
        refine ⟨pre2, s2, post2, ks2, hw1, hents, ⟨K, htK⟩, by show h.total ≤ W64; omega,
          rfl, hinit, rfl, le_refl _, hs2pow, hs232, ?_⟩
        show size + 16 ≤ s2
        omega
      · rw [hid] at hreq2
        refine ⟨pre', sz, [], ksz, hwx, hentsx, ⟨K2, hK2⟩, ?_, hl2, by rw [hi2]; exact hinit,
          hs2, htle, hszpow, hsz32, hreq2⟩
        show h2.total ≤ W64
        have hx : h2.total + h2.brk = h.total + h.brk := hs2
        omega
    obtain ⟨pre2, s2, post2, ks2, hw2, hents2, ⟨K2, hK2⟩, htw, hl2, hi2, hsm2, htle2,
      hs2pow, hs232, hfit2⟩ := hcommon
    have hks2K2 : ks2 ≤ K2 := by
      have hle : s2 ≤ h2.total := by
        have hx := chain_mem (walkH_eq_iff.mp hw2).1 (o, s2, false) (by simp)
        have hy : o + s2 ≤ h2.total := hx.2.1
        omega
      rw [hs2pow, hK2] at hle
      exact (Nat.pow_le_pow_iff_right (by omega)).mp hle
    have hfuel : ks2 + 1 ≤ h2.total + 2 := by
      have h1 : K2 < 2 ^ K2 := Nat.lt_two_pow _
      rw [hK2]
      omega
    obtain ⟨t, kt, j, h3, hrun3, hktpow, ht32, htles, hsj, hw3, hents3, hmin, hsuf, hstop,
      he1, he2, he3, he4, he5⟩ :=
      splitLoop_spec (h2.total + 2) h2 pre2 post2 o s2 ks2 size false hw2 hents2 hs2pow
        hs232 (by omega) htw hfuel
    have hsuft : size + MEMOFFSET ≤ t := hsuf hfit2
    have hhd3 : hdr h3 o = some ⟨t, false⟩ := by
      apply hdr_of_rdH
      exact (walkH_eq_iff.mp hw3).2 (o, t, false) (by simp)
    have hn3conv : (if (o + t == h3.total) = true then (0:Nat) else o + t) =
        (if o + t = h3.total then 0 else o + t) := by
      by_cases hx : o + t = h3.total
      · simp [hx]
      · simp [hx]
    obtain ⟨hw5, hents5, hcur5⟩ :=
      commit_spec h3 pre2 (sibs o t s2 ++ post2) o t
        (if o + t == h3.total then 0 else o + t) hw3 hents3 hn3conv
    have hball : balloc h size = some (some (o + MEMOFFSET),
        { writeHdr { h3 with nxt := if o + t == h3.total then 0 else o + t } o ⟨t, true⟩ with
          lock := (writeHdr { h3 with nxt := if o + t == h3.total then 0 else o + t } o
            ⟨t, true⟩).lock - 1 }) := by
      unfold balloc
      rw [if_pos hinit]
      simp only []
      rw [if_neg hsz0]
      rw [hfit']
      simp only []
      rw [hrun3]
      simp only []
      rw [hhd3]
    have hlock3 : h3.lock = h.lock + 1 := by rw [he4, hl2]
    set h5 := writeHdr { h3 with nxt := if o + t == h3.total then 0 else o + t } o ⟨t, true⟩
      with h5def
    have h5lock : h5.lock = h3.lock := rfl
    have h5init : h5.isInit = h3.isInit := rfl
    have h5total : h5.total = h3.total := rfl
    have h5brk : h5.brk = h3.brk := rfl
    have hhd2o : hdr h2 o = some ⟨s2, false⟩ :=
      hdr_of_rdH ((walkH_eq_iff.mp hw2).2 (o, s2, false) (by simp))
    have hoal2 : o % s2 = 0 := (hents2 (o, s2, false) (by simp)).2.2
    have hs2W : s2 ≤ W64 := by
      have hxm := chain_mem (walkH_eq_iff.mp hw2).1 (o, s2, false) (by simp)
      have hy : o + s2 ≤ h2.total := hxm.2.1
      omega
    have hse := splitLoop_effects (h2.total + 2) h2 o size h3 ⟨s2, false⟩ hrun3 hhd2o
      (by show o % s2 = 0; exact hoal2) ⟨ks2, hs2pow⟩ (by show 32 ≤ s2; exact hs232)
      (by show s2 ≤ W64; exact hs2W) hsz
    refine ⟨some (o + MEMOFFSET), { h5 with lock := h5.lock - 1 }, hball, ?_, ?_, ?_, ?_, ?_,
      ?_, ?_, ?_, ?_, ?_⟩
    · show h5.lock - 1 = h.lock
      rw [h5lock, hlock3]
      omega
    · show h5.isInit = true
      rw [h5init, he5, hi2]
    · show h5.total + h5.brk = h.total + h.brk
      rw [h5total, h5brk, he1, he3, hsm2]
    · show h.total ≤ h5.total
      rw [h5total, he1]
      exact htle2
    · exact ⟨K2, by show h5.total = 2 ^ K2; rw [h5total, he1, hK2]⟩
    · refine ⟨pre2 ++ (o, t, true) :: (sibs o t s2 ++ post2), ?_, hents5, ?_⟩
      · show walkH { h5 with lock := h5.lock - 1 } = _
        rw [walkH_lock]
        exact hw5
      · obtain ⟨e, he, he1x⟩ := hcur5
        exact ⟨e, he, he1x⟩
    · intro hq
      exact absurd hq (by simp)
    · intro q hq
      obtain rfl : o + MEMOFFSET = q := by simpa using hq
      refine ⟨o, t, rfl, ⟨kt, hktpow⟩, ht32, hsuft, ?_⟩
      have hx : hdr { h5 with lock := h5.lock - 1 } o = hdr h5 o := rfl
      rw [hx, h5def, hdr_writeHdr, if_pos rfl]
    · intro x hx hne2
      by_cases hcf : h2.data x = ({ h with lock := h.lock + 1 } : Heap).data x
      · by_cases hcs : h3.data x = h2.data x
        · have hxo : dfill h3.data o MEMOFFSET 0 x ≠ h3.data x := by
            intro hc
            apply hne2
            show dfill h3.data o MEMOFFSET 0 x = h.data x
            rw [hc, hcs]
            exact hcf
          have hio := dfill_ne hxo
          right
          have htdvd : t ∣ o := dvd_trans (pow2_dvd_of_le hktpow hs2pow htles)
            (Nat.dvd_of_mod_eq_zero hoal2)
          refine ⟨kt, by rw [← hktpow]; exact hsuft, ?_⟩
          rw [← hktpow]
          exact hdrWrite_safe (Nat.dvd_iff_mod_eq_zero.mp htdvd) hio.1 hio.2
        · exact Or.inr (hse.1 x hcs)
      · exact Or.inl ((fit_effects _ _ _ _ K _ hfit' htK hsum x hx).1 hcf)
    · intro x b' hx hb
      have hb5 : hdr h5 x = some b' := hb
      rw [h5def, hdr_writeHdr] at hb5
      by_cases hxo : o = x
      · rw [if_pos hxo] at hb5
        have hbb : (⟨t, true⟩ : Block) = b' := by injection hb5
        right
        rw [← hbb]
        refine ⟨?_, ?_⟩
        · show size + MEMOFFSET ≤ t
          exact hsuft
        · show t ≤ W64
          omega
      · rw [if_neg hxo] at hb5
        have hb3 : hdr h3 x = some b' := hb5
        rcases hse.2 x b' hb3 with h1 | h1
        · rcases (fit_effects _ _ _ _ K _ hfit' htK hsum x hx).2 b' h1 with h2x | h2x
          · exact Or.inl h2x
          · rw [hid] at h2x
            exact Or.inr h2x
        · exact Or.inr h1

/-- Conditional counterpart of the `balloc` characterization: for any
request size (no wrap-freedom assumed), a completed call preserves the
region invariant, balances the lock, and on success returns a used
power-of-two block whose size meets the wrapped `BLOCKSIZE` of the
request; write effects below the old end are confined as in the total
version, with the wrapped request bound. -/
lemma balloc_cond {h : Heap} {bs : List (Nat × Nat × Bool)} {size K : Nat}
    (hinit : h.isInit = true)
    (hw : walkH h = some bs) (hents : entsOk bs) (htK : h.total = 2 ^ K)
    (h32 : 32 ≤ h.total) (hsum : h.total + h.brk ≤ W64)
    (hne : ∃ e ∈ bs, e.1 = h.nxt) (hsz : 1 ≤ size) :
    ∀ r h', balloc h size = some (r, h') →
      h'.lock = h.lock ∧ h'.isInit = true ∧
      h'.total + h'.brk = h.total + h.brk ∧ h.total ≤ h'.total ∧
      (∃ K', h'.total = 2 ^ K') ∧
      (∃ bs', walkH h' = some bs' ∧ entsOk bs' ∧ (∃ e ∈ bs', e.1 = h'.nxt)) ∧
      (r = none → h'.nxt = h.nxt ∧
        ∃ ext, walkH h' = some (bs ++ ext) ∧ (∀ e ∈ ext, e.2.2 = false) ∧
          (∀ x, x < h.total → hdr h' x = hdr h x)) ∧
      (∀ q, r = some q → ∃ o t, q = o + MEMOFFSET ∧ (∃ kt, t = 2 ^ kt) ∧
        32 ≤ t ∧ (size + MEMOFFSET) % W64 ≤ t ∧ hdr h' o = some ⟨t, true⟩) ∧
      (∀ x, x < h.total → h'.data x ≠ h.data x →
        x < MEMOFFSET ∨ ∃ k, (size + MEMOFFSET) % W64 ≤ 2 ^ k ∧ x % 2 ^ k < MEMOFFSET) ∧
      (∀ x b', x < h.total → hdr h' x = some b' →
        hdr h x = some b' ∨ ((size + MEMOFFSET) % W64 ≤ b'.size ∧ b'.size ≤ W64)) := by
  intro r hres hrun
  have hw1 : walkH { h with lock := h.lock + 1 } = some bs := by
    rw [walkH_lock]; exact hw
  have hne1 : ∃ e ∈ bs, e.1 = ({ h with lock := h.lock + 1 } : Heap).nxt := hne
  have hsz0 : ¬((size == 0) = true) := by simp; omega
  have hrun2 := hrun
  unfold balloc at hrun2
  rw [if_pos hinit] at hrun2
  simp only [] at hrun2
  rw [if_neg hsz0] at hrun2
  have hfitne : fit (2 * h.total + 4) { h with lock := h.lock + 1 } size h.nxt ≠ none := by
    intro hc
    rw [hc] at hrun2
    exact absurd hrun2 (by simp)
  obtain ⟨res, hfit'⟩ := Option.ne_none_iff_exists'.mp hfitne
  have hpost := fit_cond (2 * h.total + 4) { h with lock := h.lock + 1 } bs size h.nxt K
    hw1 hents htK h32 hsum hne1 res hfit'
  cases res with
  | nomem h2 =>
    obtain ⟨hn2, hl2, hi2, hs2, htle, ⟨K2, hK2⟩, ext, hwx, hfree, hentsx, hpres⟩ := hpost
    have hball : balloc h size = some (none, { h2 with lock := h2.lock - 1 }) := by
      unfold balloc
      rw [if_pos hinit]
      simp only []
      rw [if_neg hsz0]
      rw [hfit']
    rw [hball] at hrun
    simp only [Option.some.injEq, Prod.mk.injEq] at hrun
    obtain ⟨rfl, rfl⟩ := hrun
    have hl2' : h2.lock = h.lock + 1 := hl2
    have hn2' : h2.nxt = h.nxt := hn2
    refine ⟨by show h2.lock - 1 = h.lock; omega,
      by show h2.isInit = true; rw [hi2]; exact hinit, hs2, htle, ⟨K2, hK2⟩, ?_, ?_, ?_, ?_, ?_⟩
    · refine ⟨bs ++ ext, by rw [walkH_lock]; exact hwx, hentsx, ?_⟩
      obtain ⟨e, he, he1⟩ := hne
      exact ⟨e, by simp [he], by rw [he1]; show h.nxt = h2.nxt; omega⟩
    · intro _
      refine ⟨by show h2.nxt = h.nxt; omega, ext, by rw [walkH_lock]; exact hwx, hfree, ?_⟩
      intro x hx
      have : hdr { h2 with lock := h2.lock - 1 } x = hdr h2 x := rfl
      rw [this, hpres x hx]
      rfl
    · intro q hq
      exact absurd hq (by simp)
    · intro x hx hne2
      exact Or.inl ((fit_effects _ _ _ _ K _ hfit' htK hsum x hx).1 hne2)
    · intro x b' hx hb
      rcases (fit_effects _ _ _ _ K _ hfit' htK hsum x hx).2 b' hb with h1 | h1
      · exact Or.inl h1
      · exact Or.inr h1
  | found o h2 =>
    have hcommon : ∃ pre2 s2 post2 ks2,
        walkH h2 = some (pre2 ++ (o, s2, false) :: post2) ∧
        entsOk (pre2 ++ (o, s2, false) :: post2) ∧
        (∃ K2, h2.total = 2 ^ K2) ∧ h2.total ≤ W64 ∧
        h2.lock = h.lock + 1 ∧ h2.isInit = true ∧
        h2.total + h2.brk = h.total + h.brk ∧ h.total ≤ h2.total ∧
        s2 = 2 ^ ks2 ∧ 32 ≤ s2 ∧ (size + MEMOFFSET) % W64 ≤ s2 := by
      rcases hpost with ⟨heq2, pre2, s2, post2, hbs2, hreqle⟩ |
        ⟨hn2, hl2, hi2, hs2, htle, ⟨K2, hK2⟩, pre', sz, ksz, hwx, hentsx, htot2, hreq2, hszpow,
          hsz32⟩
      · subst heq2
        subst hbs2
        obtain ⟨⟨ks2, hks2, hs2pow⟩, hs232, _⟩ := hents (o, s2, false) (by simp)
        have hs232x : 32 ≤ s2 := hs232
        have hs2tot : o + s2 ≤ h.total := by
          have := chain_mem (walkH_eq_iff.mp hw).1 (o, s2, false) (by simp)
          exact this.2.1
        have hsubeq : sub64 s2 MEMOFFSET = s2 - 16 := by
          apply sub64_eq
          · show 16 ≤ s2; omega
          · show s2 - 16 < W64; omega
        rw [hsubeq] at hreqle
        refine ⟨pre2, s2, post2, ks2, hw1, hents, ⟨K, htK⟩, by show h.total ≤ W64; omega,
          rfl, hinit, rfl, le_refl _, hs2pow, hs232, ?_⟩
        refine le_trans (Nat.mod_le _ _) ?_
        show size + MEMOFFSET ≤ s2
        have h16 : MEMOFFSET = 16 := rfl
        rw [h16]
        omega
      · refine ⟨pre', sz, [], ksz, hwx, hentsx, ⟨K2, hK2⟩, ?_, hl2, by rw [hi2]; exact hinit,
          hs2, htle, hszpow, hsz32, hreq2⟩
        show h2.total ≤ W64
        have hx : h2.total + h2.brk = h.total + h.brk := hs2
        omega
    obtain ⟨pre2, s2, post2, ks2, hw2, hents2, ⟨K2, hK2⟩, htw, hl2, hi2, hsm2, htle2,
      hs2pow, hs232, hfit2⟩ := hcommon
    have hks2K2 : ks2 ≤ K2 := by
      have hle : s2 ≤ h2.total := by
        have hx := chain_mem (walkH_eq_iff.mp hw2).1 (o, s2, false) (by simp)
        have hy : o + s2 ≤ h2.total := hx.2.1
        omega
      rw [hs2pow, hK2] at hle
      exact (Nat.pow_le_pow_iff_right (by omega)).mp hle
    have hfuel : ks2 + 1 ≤ h2.total + 2 := by
      have h1 : K2 < 2 ^ K2 := Nat.lt_two_pow _
      rw [hK2]
      omega
    obtain ⟨t, kt, j, h3, hrun3, hktpow, ht32, htles, hsj, hw3, hents3, hmin, hsuf, hstop,
      he1, he2, he3, he4, he5⟩ :=
      splitLoop_spec (h2.total + 2) h2 pre2 post2 o s2 ks2 size false hw2 hents2 hs2pow
        hs232 (by omega) htw hfuel
    have hsuft : (size + MEMOFFSET) % W64 ≤ t := by
      by_cases hreal : size + MEMOFFSET ≤ s2
      · exact le_trans (Nat.mod_le _ _) (hsuf hreal)
      · rw [hstop (by omega)]
        exact hfit2
    have hhd3 : hdr h3 o = some ⟨t, false⟩ := by
      apply hdr_of_rdH
      exact (walkH_eq_iff.mp hw3).2 (o, t, false) (by simp)
    have hn3conv : (if (o + t == h3.total) = true then (0:Nat) else o + t) =
        (if o + t = h3.total then 0 else o + t) := by
      by_cases hx : o + t = h3.total
      · simp [hx]
      · simp [hx]
    obtain ⟨hw5, hents5, hcur5⟩ :=
      commit_spec h3 pre2 (sibs o t s2 ++ post2) o t
        (if o + t == h3.total then 0 else o + t) hw3 hents3 hn3conv
    have hball : balloc h size = some (some (o + MEMOFFSET),
        { writeHdr { h3 with nxt := if o + t == h3.total then 0 else o + t } o ⟨t, true⟩ with
          lock := (writeHdr { h3 with nxt := if o + t == h3.total then 0 else o + t } o
            ⟨t, true⟩).lock - 1 }) := by
      unfold balloc
      rw [if_pos hinit]
      simp only []
      rw [if_neg hsz0]
      rw [hfit']
      simp only []
      rw [hrun3]
      simp only []
      rw [hhd3]
    rw [hball] at hrun
    simp only [Option.some.injEq, Prod.mk.injEq] at hrun
    obtain ⟨rfl, rfl⟩ := hrun
    have hlock3 : h3.lock = h.lock + 1 := by rw [he4, hl2]
    set h5 := writeHdr { h3 with nxt := if o + t == h3.total then 0 else o + t } o ⟨t, true⟩
      with h5def
    have h5lock : h5.lock = h3.lock := rfl
    have h5init : h5.isInit = h3.isInit := rfl
    have h5total : h5.total = h3.total := rfl
    have h5brk : h5.brk = h3.brk := rfl
    have hhd2o : hdr h2 o = some ⟨s2, false⟩ :=
      hdr_of_rdH ((walkH_eq_iff.mp hw2).2 (o, s2, false) (by simp))
    have hoal2 : o % s2 = 0 := (hents2 (o, s2, false) (by simp)).2.2
    have hs2W : s2 ≤ W64 := by
      have hxm := chain_mem (walkH_eq_iff.mp hw2).1 (o, s2, false) (by simp)
      have hy : o + s2 ≤ h2.total := hxm.2.1
      omega
    have hse := splitLoop_effects (h2.total + 2) h2 o size h3 ⟨s2, false⟩ hrun3 hhd2o
      (by show o % s2 = 0; exact hoal2) ⟨ks2, hs2pow⟩ (by show 32 ≤ s2; exact hs232)
      (by show s2 ≤ W64; exact hs2W) hsz
    refine ⟨?_, ?_, ?_, ?_, ?_, ?_, ?_, ?_, ?_, ?_⟩
    · show h5.lock - 1 = h.lock
      rw [h5lock, hlock3]
      omega
    · show h5.isInit = true
      rw [h5init, he5, hi2]
    · show h5.total + h5.brk = h.total + h.brk
      rw [h5total, h5brk, he1, he3, hsm2]
    · show h.total ≤ h5.total
      rw [h5total, he1]
      exact htle2
    · exact ⟨K2, by show h5.total = 2 ^ K2; rw [h5total, he1, hK2]⟩
    · refine ⟨pre2 ++ (o, t, true) :: (sibs o t s2 ++ post2), ?_, hents5, ?_⟩
      · show walkH { h5 with lock := h5.lock - 1 } = _
        rw [walkH_lock]
        exact hw5
      · obtain ⟨e, he, he1x⟩ := hcur5
        exact ⟨e, he, he1x⟩
    · intro hq
      exact absurd hq (by simp)
    · intro q hq
      obtain rfl : o + MEMOFFSET = q := by simpa using hq
      refine ⟨o, t, rfl, ⟨kt, hktpow⟩, ht32, hsuft, ?_⟩
      have hx : hdr { h5 with lock := h5.lock - 1 } o = hdr h5 o := rfl
      rw [hx, h5def, hdr_writeHdr, if_pos rfl]
    · intro x hx hne2
      by_cases hcf : h2.data x = ({ h with lock := h.lock + 1 } : Heap).data x
      · by_cases hcs : h3.data x = h2.data x
        · have hxo : dfill h3.data o MEMOFFSET 0 x ≠ h3.data x := by
            intro hc
            apply hne2
            show dfill h3.data o MEMOFFSET 0 x = h.data x
            rw [hc, hcs]
            exact hcf
          have hio := dfill_ne hxo
          right
          have htdvd : t ∣ o := dvd_trans (pow2_dvd_of_le hktpow hs2pow htles)
            (Nat.dvd_of_mod_eq_zero hoal2)
          refine ⟨kt, by rw [← hktpow]; exact hsuft, ?_⟩
          rw [← hktpow]
          exact hdrWrite_safe (Nat.dvd_iff_mod_eq_zero.mp htdvd) hio.1 hio.2
        · obtain ⟨k, hk1, hk2⟩ := hse.1 x hcs
          exact Or.inr ⟨k, le_trans (Nat.mod_le _ _) hk1, hk2⟩
      · exact Or.inl ((fit_effects _ _ _ _ K _ hfit' htK hsum x hx).1 hcf)
    · intro x b' hx hb
      have hb5 : hdr h5 x = some b' := hb
      rw [h5def, hdr_writeHdr] at hb5
      by_cases hxo : o = x
      · rw [if_pos hxo] at hb5
        have hbb : (⟨t, true⟩ : Block) = b' := by injection hb5
        right
        rw [← hbb]
        refine ⟨?_, ?_⟩
        · show (size + MEMOFFSET) % W64 ≤ t
          exact hsuft
        · show t ≤ W64
          omega
      · rw [if_neg hxo] at hb5
        have hb3 : hdr h3 x = some b' := hb5
        rcases hse.2 x b' hb3 with h1 | h1
        · rcases (fit_effects _ _ _ _ K _ hfit' htK hsum x hx).2 b' h1 with h2x | h2x
          · exact Or.inl h2x
          · exact Or.inr h2x
        · exact Or.inr ⟨le_trans (Nat.mod_le _ _) h1.1, h1.2⟩

/-- Full characterization of the shrink loop of `brealloc` on a valid
state: although the source omits the `MINBLOCKSIZE` guard here, a nonzero
request keeps every produced size at or above 32 bytes, and the loop acts
exactly like the best-fit split. -/
lemma shrinkLoop_spec : ∀ (f : Nat) (h : Heap) (pre post : List (Nat × Nat × Bool))
    (o s ks req : Nat) (u : Bool),
    walkH h = some (pre ++ (o, s, u) :: post) →
    entsOk (pre ++ (o, s, u) :: post) →
    s = 2 ^ ks →
    32 ≤ s →
    1 ≤ req →
    h.total ≤ W64 →
    ks + 1 ≤ f →
    ∃ t kt j h',
      shrinkLoop f h o req = some h' ∧
      t = 2 ^ kt ∧ 32 ≤ t ∧ t ≤ s ∧ s = t * 2 ^ j ∧
      walkH h' = some (pre ++ (o, t, u) :: (sibs o t s ++ post)) ∧
      entsOk (pre ++ (o, t, u) :: (sibs o t s ++ post)) ∧
      t / 2 < req + MEMOFFSET ∧
      (req + MEMOFFSET ≤ s → req + MEMOFFSET ≤ t) ∧
      h'.total = h.total ∧ h'.nxt = h.nxt ∧ h'.brk = h.brk ∧
      h'.lock = h.lock ∧ h'.isInit = h.isInit := by
  intro f
  induction f with
  | zero => intro h pre post o s ks req u _ _ _ _ _ _ hf; omega
  | succ f ih =>
    intro h pre post o s ks req u hw hents hs h32 hreq htot hf
    obtain ⟨hcp, hsp, hcc, hrd⟩ := walk_decomp hw
    have hhd : hdr h o = some ⟨s, u⟩ := hdr_of_rdH hrd
    have hmem : o + s ≤ h.total := by
      have := chain_mem (walkH_eq_iff.mp hw).1 (o, s, u) (by simp)
      exact this.2.1
    obtain ⟨hev, hdiv⟩ := pow2_even hs (by omega)
    have hsub : sub64 (s / 2) MEMOFFSET = s / 2 - MEMOFFSET := by
      apply sub64_eq
      · show 16 ≤ s / 2; omega
      · show s / 2 - 16 < W64
        have : s ≤ W64 := by omega
        omega
    have hks64 : ks ≤ 64 := by
      have hsw : s ≤ W64 := by omega
      rw [hs] at hsw
      exact (Nat.pow_le_pow_iff_right (by omega)).mp hsw
    have hoas : o % s = 0 := by
      have := hents (o, s, u) (by simp)
      exact this.2.2
    by_cases hg : req ≤ s / 2 - MEMOFFSET
    · -- split once and recurse
      have hns17 : 17 ≤ s / 2 := by
        have h16x : (16:Nat) ≤ s / 2 := by omega
        have hM : MEMOFFSET = 16 := rfl
        rw [hM] at hg
        omega
      have hns32 : 32 ≤ s / 2 := pow2_ge32 hdiv hns17
      have hks6 : 6 ≤ ks := by
        have h64 : 64 ≤ s := by omega
        by_contra hk
        have hk5 : ks ≤ 5 := by omega
        have : s ≤ 32 := by
          rw [hs]
          calc (2:Nat) ^ ks ≤ 2 ^ 5 := Nat.pow_le_pow_right (by omega) hk5
          _ = 32 := by norm_num
        omega
      set ns := s / 2 with hnsdef
      have hcond : sub64 (s / 2) MEMOFFSET ≥ req := by
        rw [hsub]
        exact hg
      set h2 := writeHdr (writeHdr h o ⟨ns, u⟩) (o + ns) ⟨ns, false⟩ with h2def
      have hstep : shrinkLoop (f + 1) h o req = shrinkLoop f h2 o req := by
        conv_lhs => rw [shrinkLoop]
        rw [hhd]
        simp only []
        rw [if_pos hcond]
      have hrd2 : ∀ x, rdH h2 x =
          if o + ns = x then some (ns, false)
          else if o = x then some (ns, u)
          else rdH h x := by
        intro x
        rw [h2def, rdH_writeHdr, rdH_writeHdr]
      have hw2 : walkH h2 = some (pre ++ (o, ns, u) :: (o + ns, ns, false) :: post) := by
        apply walkH_eq_iff.mpr
        constructor
        · apply chain_append_iff.mpr
          refine ⟨o, hcp, rfl, by show 0 < ns; omega, rfl, by show 0 < ns; omega, ?_⟩
          show chain h2.total (o + ns + ns) post
          have : h2.total = h.total := rfl
          rw [this]
          have : o + ns + ns = o + s := by omega
          rw [this]
          exact hcc
        · intro e he
          rcases List.mem_append.mp he with hepre | herest
          · have hb := chain_mem hcp e hepre
            rw [hrd2, if_neg (by omega), if_neg (by omega)]
            exact (walkH_eq_iff.mp hw).2 e (by simp [hepre])
          · rcases List.mem_cons.mp herest with rfl | herest
            · rw [hrd2]
              rw [if_neg (by omega), if_pos rfl]
            · rcases List.mem_cons.mp herest with rfl | hepost
              · rw [hrd2, if_pos rfl]
              · have hb := chain_mem hcc e hepost
                rw [hrd2, if_neg (by omega), if_neg (by omega)]
                exact (walkH_eq_iff.mp hw).2 e (by simp [hepost])
      have hents2 : entsOk (pre ++ (o, ns, u) :: (o + ns, ns, false) :: post) := by
        intro e he
        have hnsdvd : ns ∣ o := by
          apply dvd_trans (pow2_dvd_of_le hdiv hs (by omega))
          exact Nat.dvd_iff_mod_eq_zero.mpr hoas
        rcases List.mem_append.mp he with hepre | herest
        · exact hents e (by simp [hepre])
        · rcases List.mem_cons.mp herest with rfl | herest
          · refine ⟨⟨ks - 1, by omega, hdiv⟩, hns32, ?_⟩
            show o % ns = 0
            exact Nat.dvd_iff_mod_eq_zero.mp hnsdvd
          · rcases List.mem_cons.mp herest with rfl | hepost
            · refine ⟨⟨ks - 1, by omega, hdiv⟩, hns32, ?_⟩
              show (o + ns) % ns = 0
              have ho : o % ns = 0 := Nat.dvd_iff_mod_eq_zero.mp hnsdvd
              rw [Nat.add_mod, ho, Nat.mod_self]
              simp
            · exact hents e (by simp [hepost])
      have htot2 : h2.total ≤ W64 := htot
      have hihf : (ks - 1) + 1 ≤ f := by omega
      obtain ⟨t, kt, j, h', hrun, hkt, ht32, htle, hsj, hw', hents', hmin, hsuf,
        he1, he2, he3, he4, he5⟩ :=
        ih h2 pre ((o + ns, ns, false) :: post) o ns (ks - 1) req u hw2 hents2 hdiv hns32 hreq htot2 hihf
      have hsnoc : sibs o t s = sibs o t ns ++ [(o + ns, ns, false)] := by
        have hseq : s = t * 2 ^ (j + 1) := by
          rw [pow_succ, ← Nat.mul_assoc, ← hsj]
          omega
        rw [hseq, sibs_snoc j t o (by omega), ← hsj]
      refine ⟨t, kt, j + 1, h', ?_, hkt, ht32, by omega, ?_, ?_, ?_, hmin, ?_, ?_, ?_, ?_, ?_, ?_⟩
      · rw [hstep]; exact hrun
      · rw [pow_succ, ← Nat.mul_assoc, ← hsj]; omega
      · rw [hsnoc]
        rw [hw']
        simp
      · rw [hsnoc]
        intro e he
        apply hents'
        simp at he ⊢
        exact he
      · intro hss
        apply hsuf
        have h16 : MEMOFFSET = 16 := rfl
        rw [h16] at hss hg ⊢
        omega
      · rw [he1, h2def, writeHdr_total, writeHdr_total]
      · rw [he2, h2def, writeHdr_nxt, writeHdr_nxt]
      · rw [he3, h2def, writeHdr_brk, writeHdr_brk]
      · rw [he4, h2def, writeHdr_lock, writeHdr_lock]
      · rw [he5, h2def, writeHdr_isInit, writeHdr_isInit]
    · -- the loop stops: return the block unchanged
      have hcond : ¬(sub64 (s / 2) MEMOFFSET ≥ req) := by
        rw [hsub]
        simpa using hg
      have hstep : shrinkLoop (f + 1) h o req = some h := by
        conv_lhs => rw [shrinkLoop]
        rw [hhd]
        simp only []
        rw [if_neg hcond]
      have hnil : sibs o s s = [] := sibs_base o s s (by omega)
      refine ⟨s, ks, 0, h, hstep, hs, h32, le_refl s, by simp, ?_, ?_, ?_, ?_, rfl, rfl, rfl, rfl, rfl⟩
      · rw [hnil]; simpa using hw
      · rw [hnil]; simpa using hents
      · have h16 : MEMOFFSET = 16 := rfl
        rw [h16]
        rw [show MEMOFFSET = 16 from rfl] at hg
        omega
      · intro _; omega

/-- Full characterization of the rightward-absorption loop of `brealloc`:
it is read-only and always returns; when it commits, the committed size is
an aligned power of two that covers the original block plus a prefix of
the following blocks and meets the request. -/
lemma absorb_spec : ∀ (f : Nat) (h : Heap) (post' : List (Nat × Nat × Bool))
    (o cs kc req K : Nat),
    chain h.total (o + cs) post' → readsOk (rdH h) post' → entsOk post' →
    h.total = 2 ^ K → cs = 2 ^ kc → 32 ≤ cs → o % cs = 0 →
    ∀ r, absorb f h o cs req = some r →
      ∀ ns, r = some ns → ∃ km rext2 post2, ns = 2 ^ km ∧ cs ≤ ns ∧
        (req + MEMOFFSET) % W64 ≤ ns ∧ o % ns = 0 ∧ 32 ≤ ns ∧
        post' = rext2 ++ post2 ∧ chain (o + ns) (o + cs) rext2 := by
  intro f
  induction f with
  | zero =>
    intro h post' o cs kc req K _ _ _ _ _ _ _ r hrun
    exact absurd hrun (by simp [absorb])
  | succ f ih =>
    intro h post' o cs kc req K hcc hro hents htK hcs h32 hoa r hrun
    by_cases hcomm : cs ≥ (req + MEMOFFSET) % W64
    · -- commit in place
      have hstep : absorb (f + 1) h o cs req = some (some cs) := by
        conv_lhs => rw [absorb]
        rw [if_pos hcomm]
      rw [hstep] at hrun
      obtain rfl : some cs = r := by simpa using hrun
      intro ns hns
      obtain rfl : cs = ns := by simpa using hns
      exact ⟨kc, [], post', hcs, le_refl _, hcomm, hoa, h32, by simp, rfl⟩
    · have hz : ¬((cs == 0) = true) := by simp; omega
      rcases le_or_lt kc 62 with hk62 | hk62
      · have hm2 : (cs * 2) % W64 = cs * 2 := pow2_double_mod hcs hk62
        have hz2 : ¬((cs * 2 == 0) = true) := by simp; omega
        by_cases hal : (o % (cs * 2) != 0) = true
        · -- not a left buddy at this size: break
          have hstep : absorb (f + 1) h o cs req = some none := by
            conv_lhs => rw [absorb]
            rw [if_neg hcomm]
            rw [if_neg hz]
            simp only [hm2]
            rw [if_neg hz2, if_pos hal]
          rw [hstep] at hrun
          obtain rfl : (none : Option Nat) = r := by simpa using hrun
          intro ns hns
          exact absurd hns (by simp)
        · have hal' : o % (cs * 2) = 0 := by simpa using hal
          by_cases hbt : o + cs = h.total
          · -- buddy is end: break
            have hstep : absorb (f + 1) h o cs req = some none := by
              conv_lhs => rw [absorb]
              rw [if_neg hcomm]
              rw [if_neg hz]
              simp only [hm2]
              rw [if_neg hz2, if_neg hal]
              rw [if_pos (by simp only [beq_iff_eq]; omega)]
            rw [hstep] at hrun
            obtain rfl : (none : Option Nat) = r := by simpa using hrun
            intro ns hns
            exact absurd hns (by simp)
          · have hlt : o + cs < h.total := by
              have := chain_le hcc
              omega
            have hpostne : ∃ e2 rest, post' = e2 :: rest := by
              cases post' with
              | nil =>
                exfalso
                have : o + cs = h.total := hcc
                omega
              | cons e2 rest => exact ⟨e2, rest, rfl⟩
            obtain ⟨⟨b1, bsz, bu⟩, rest, rfl⟩ := hpostne
            have hb1 : b1 = o + cs := hcc.1
            subst hb1
            have hhd : hdr h (o + cs) = some ⟨bsz, bu⟩ :=
              hdr_of_rdH (hro (o + cs, bsz, bu) (by simp))
            by_cases hmerge : (bsz != cs || bu) = true
            · -- size mismatch or used: break
              have hstep : absorb (f + 1) h o cs req = some none := by
                conv_lhs => rw [absorb]
                rw [if_neg hcomm]
                rw [if_neg hz]
                simp only [hm2]
                rw [if_neg hz2, if_neg hal]
                rw [if_neg (by simp only [beq_iff_eq]; omega)]
                rw [hhd]
                simp only []
                rw [if_pos hmerge]
              rw [hstep] at hrun
              obtain rfl : (none : Option Nat) = r := by simpa using hrun
              intro ns hns
              exact absurd hns (by simp)
            · -- absorb the buddy and double
              have hbsz : bsz = cs := by
                rcases Bool.eq_false_or_eq_true (bsz != cs) with hx | hx
                · exfalso; apply hmerge; simp [hx]
                · simpa using hx
              have hbu : bu = false := by
                rcases Bool.eq_false_or_eq_true bu with hx | hx
                · exfalso; apply hmerge; simp [hx]
                · exact hx
              subst hbu
              rw [hbsz] at hhd hcc hro hents hmerge ⊢
              have hstep : absorb (f + 1) h o cs req = absorb f h o (cs * 2) req := by
                conv_lhs => rw [absorb]
                rw [if_neg hcomm]
                rw [if_neg hz]
                simp only [hm2]
                rw [if_neg hz2, if_neg hal]
                rw [if_neg (by simp only [beq_iff_eq]; omega)]
                rw [hhd]
                simp only []
                rw [if_neg hmerge]
              rw [hstep] at hrun
              have hcc' : chain h.total (o + cs * 2) rest := by
                have hx : chain h.total (o + cs + cs) rest := hcc.2.2
                have : o + cs + cs = o + cs * 2 := by omega
                rwa [this] at hx
              have hsucc :=
                ih h rest o (cs * 2) (kc + 1) req K hcc'
                  (fun e he => hro e (by simp [he]))
                  (fun e he => hents e (by simp [he]))
                  htK (by rw [pow_succ, ← hcs]) (by omega)
                  hal' r hrun
              intro ns hns
              obtain ⟨km, rext2, post2, hnspow, hcsle, hreqle, hoans, hns32, hrest, hchain⟩ :=
                hsucc ns hns
              refine ⟨km, (o + cs, cs, false) :: rext2, post2, hnspow, by omega, hreqle,
                hoans, hns32, by simp [hrest], ?_⟩
              refine ⟨rfl, by show 0 < cs; omega, ?_⟩
              show chain (o + ns) (o + cs + cs) rext2
              have : o + cs + cs = o + cs * 2 := by omega
              rw [this]
              exact hchain
      · -- kc ≥ 63: the doubled modulus wraps to zero and the code faults
        have hm0 : (cs * 2) % W64 = 0 := pow2_double_mod_zero hcs hk62
        have hstep : absorb (f + 1) h o cs req = none := by
          conv_lhs => rw [absorb]
          rw [if_neg hcomm]
          rw [if_neg hz]
          simp only [hm0]
          rw [if_pos (show ((0:Nat) == 0) = true from rfl)]
        rw [hstep] at hrun
        exact absurd hrun (by simp)

lemma walkH_nxt (h : Heap) (n : Nat) : walkH { h with nxt := n } = walkH h := rfl

lemma walkH_dataset (h : Heap) (d : Nat → Nat) : walkH { h with data := d } = walkH h := rfl

lemma hok_of_walk {h : Heap} {bs : List (Nat × Nat × Bool)} {K : Nat}
    (hw : walkH h = some bs) (hents : entsOk bs) (htK : h.total = 2 ^ K) (hK : K ≤ 64)
    (h32 : 32 ≤ h.total) : hok h = true :=
  hok_iff.mpr ⟨bs, hw, (walkH_eq_iff.mp hw).1, (walkH_eq_iff.mp hw).2, hents, ⟨K, hK, htK⟩, h32⟩

lemma rdH_of_hdr_eq {h h' : Heap} {x : Nat} (he : hdr h' x = hdr h x) : rdH h' x = rdH h x := by
  unfold rdH
  rw [he]

/-- Master case analysis of `brealloc` on a live block of a valid state:
any completed call leaves a tiled power-of-two region with a balanced
lock, and a `NULL` result (the relocation path whose inner allocation
failed) leaves the original block restored — its header again carries the
original size and the used mark. -/
lemma brealloc_live {h : Heap} {pre post : List (Nat × Nat × Bool)} {o s size K : Nat}
    (hinit : h.isInit = true)
    (hw : walkH h = some (pre ++ (o, s, true) :: post))
    (hents : entsOk (pre ++ (o, s, true) :: post))
    (htK : h.total = 2 ^ K) (h32 : 32 ≤ h.total)
    (hsum : h.total + h.brk ≤ W64)
    (hne : ∃ e ∈ pre ++ (o, s, true) :: post, e.1 = h.nxt)
    (hsz : 1 ≤ size) :
    ∀ r h', brealloc h (o + MEMOFFSET) size = some (r, h') →
      hok h' = true ∧ h'.lock = h.lock ∧ h'.isInit = true ∧
      (r = none → hdr h' o = some ⟨s, true⟩) := by
  intro r h' hbre
  have hK64 : K ≤ 64 := by
    have hx : (2:Nat) ^ K ≤ 2 ^ 64 := by
      rw [← htK]
      exact le_trans (by omega) (le_refl W64)
    exact (Nat.pow_le_pow_iff_right (by omega)).mp hx
  obtain ⟨hcp, hsp, hcc, hrd⟩ := walk_decomp hw
  obtain ⟨⟨ks, hks, hspowm⟩, hs32m, hoam⟩ := hents (o, s, true) (by simp)
  have hspow : s = 2 ^ ks := hspowm
  have hs32 : 32 ≤ s := hs32m
  have hoa : o % s = 0 := hoam
  have hostot : o + s ≤ h.total := by
    have := chain_mem (walkH_eq_iff.mp hw).1 (o, s, true) (by simp)
    exact this.2.1
  have hksK : ks ≤ K := by
    have : (2:Nat) ^ ks ≤ 2 ^ K := by rw [← hspow, ← htK]; omega
    exact (Nat.pow_le_pow_iff_right (by omega)).mp this
  have hKlt : K < 2 ^ K := Nat.lt_two_pow _
  have hw1 : walkH { h with lock := h.lock + 1 } = some (pre ++ (o, s, true) :: post) := by
    rw [walkH_lock]; exact hw
  have hhd1 : hdr { h with lock := h.lock + 1 } o = some ⟨s, true⟩ := hdr_of_rdH hrd
  unfold brealloc at hbre
  rw [show ((o + MEMOFFSET == 0)) = false from by
    simp only [beq_eq_false_iff_ne, ne_eq]
    have hM : MEMOFFSET = 16 := rfl
    omega] at hbre
  simp only [Bool.false_eq_true, if_false] at hbre
  rw [show ((size == 0)) = false from by
    simp only [beq_eq_false_iff_ne, ne_eq]
    omega] at hbre
  simp only [Bool.false_eq_true, if_false] at hbre
  rw [show o + MEMOFFSET - MEMOFFSET = o from by omega] at hbre
  rw [hhd1] at hbre
  simp only [] at hbre
  by_cases hshr : sub64 s MEMOFFSET ≥ size
  · -- shrink-in-place path
    rw [if_pos hshr] at hbre
    obtain ⟨t, kt, j, h2, hrun, hktpow, ht32, htles, hsj, hw2, hents2, hmin, hsuf,
      he1, he2, he3, he4, he5⟩ :=
      shrinkLoop_spec (h.total + 2) { h with lock := h.lock + 1 } pre post o s ks size true
        hw1 hents hspow hs32 hsz (by show h.total ≤ W64; omega) (by omega)
    rw [hrun] at hbre
    simp only [] at hbre
    have hhd2 : hdr h2 o = some ⟨t, true⟩ := by
      apply hdr_of_rdH
      exact (walkH_eq_iff.mp hw2).2 (o, t, true) (by simp)
    rw [hhd2] at hbre
    simp only [] at hbre
    injection hbre with hpair
    injection hpair with hr hh'
    subst hr
    subst hh'
    refine ⟨?_, ?_, ?_, ?_⟩
    · apply @hok_of_walk _ (pre ++ (o, t, true) :: (sibs o t s ++ post)) K
      · exact walkH_eq_iff.mpr ⟨(walkH_eq_iff.mp hw2).1, (walkH_eq_iff.mp hw2).2⟩
      · exact hents2
      · show h2.total = 2 ^ K
        rw [he1]
        exact htK
      · exact hK64
      · show 32 ≤ h2.total
        rw [he1]
        exact h32
    · show ({ h2 with nxt := o + t } : Heap).lock - 1 = h.lock
      have hx : ({ h2 with nxt := o + t } : Heap).lock = h2.lock := rfl
      rw [hx, he4]
      show h.lock + 1 - 1 = h.lock
      omega
    · show h2.isInit = true
      rw [he5]
      exact hinit
    · intro hrn
      exact absurd hrn (by simp)
  · -- absorb / relocate paths
    rw [if_neg hshr] at hbre
    have habsne : absorb (h.total + 2) { h with lock := h.lock + 1 } o s size ≠ none := by
      intro hc
      rw [hc] at hbre
      exact absurd hbre (by simp)
    obtain ⟨r0, habs⟩ := Option.ne_none_iff_exists'.mp habsne
    have hsucc :=
      absorb_spec (h.total + 2) { h with lock := h.lock + 1 } post o s ks size K
        (by show chain h.total (o + s) post; exact hcc)
        (fun e he => (walkH_eq_iff.mp hw1).2 e (by simp [he]))
        (fun e he => hents e (by simp [he]))
        htK hspow hs32 hoa r0 habs
    rw [habs] at hbre
    cases r0 with
    | some ns =>
      -- absorption commit
      simp only [] at hbre
      obtain ⟨km, rext2, post2, hnspow, hcsle, hreqle, hoans, hns32, hrest, hchain⟩ :=
        hsucc ns rfl
      injection hbre with hpair
      injection hpair with hr hh'
      subst hr
      subst hh'
      have hcpost2 : chain h.total (o + ns) post2 := by
        rw [hrest] at hcc
        obtain ⟨m, hcm, hcm2⟩ := chain_append_iff.mp hcc
        have : o + ns = m := chain_stop_unique hchain hcm
        rwa [← this] at hcm2
      have hrdeq : ∀ x, rdH (writeHdr { h with lock := h.lock + 1 } o ⟨ns, true⟩) x =
          if o = x then some (ns, true) else rdH h x := by
        intro x
        rw [rdH_writeHdr]
        rcases eq_or_ne o x with rfl | hne'
        · simp
        · rw [if_neg hne', if_neg hne']
          rfl
      have hwn : walkH (writeHdr { h with lock := h.lock + 1 } o ⟨ns, true⟩) =
          some (pre ++ (o, ns, true) :: post2) := by
        apply walkH_eq_iff.mpr
        constructor
        · apply chain_append_iff.mpr
          refine ⟨o, hcp, rfl, by show 0 < ns; omega, ?_⟩
          show chain (writeHdr { h with lock := h.lock + 1 } o ⟨ns, true⟩).total (o + ns) post2
          have hx : (writeHdr { h with lock := h.lock + 1 } o ⟨ns, true⟩).total = h.total := rfl
          rw [hx]
          exact hcpost2
        · intro e he
          rcases List.mem_append.mp he with hp | hp
          · have hb := chain_mem hcp e hp
            rw [hrdeq, if_neg (by omega)]
            exact (walkH_eq_iff.mp hw).2 e (by simp [hp])
          · rcases List.mem_cons.mp hp with rfl | hp
            · rw [hrdeq, if_pos rfl]
            · have hb := chain_mem hcpost2 e hp
              rw [hrdeq, if_neg (by omega)]
              apply (walkH_eq_iff.mp hw).2 e
              simp [hrest, hp]
      have hentsn : entsOk (pre ++ (o, ns, true) :: post2) := by
        intro e he
        rcases List.mem_append.mp he with hp | hp
        · exact hents e (by simp [hp])
        · rcases List.mem_cons.mp hp with rfl | hp
          · have hkm64 : km ≤ 64 := by
              have h1 : o + ns ≤ h.total := chain_le hcpost2
              have h2 : (2:Nat) ^ km ≤ 2 ^ K := by rw [← hnspow, ← htK]; omega
              have h3 : km ≤ K := (Nat.pow_le_pow_iff_right (by omega)).mp h2
              omega
            exact ⟨⟨km, hkm64, hnspow⟩, hns32, hoans⟩
          · apply hents e
            simp [hrest, hp]
      refine ⟨?_, ?_, ?_, ?_⟩
      · apply @hok_of_walk _ (pre ++ (o, ns, true) :: post2) K
        · exact walkH_eq_iff.mpr ⟨(walkH_eq_iff.mp hwn).1, (walkH_eq_iff.mp hwn).2⟩
        · exact hentsn
        · exact htK
        · exact hK64
        · exact h32
      · show (writeHdr { h with lock := h.lock + 1 } o ⟨ns, true⟩).lock - 1 = h.lock
        show h.lock + 1 - 1 = h.lock
        omega
      · show (writeHdr { h with lock := h.lock + 1 } o ⟨ns, true⟩).isInit = true
        exact hinit
      · intro hrn
        exact absurd hrn (by simp)
    | none =>
      -- relocation: free, allocate, restore on failure
      simp only [] at hbre
      have hbfne : bfree { h with lock := h.lock + 1 } (o + MEMOFFSET) ≠ none := by
        intro hc
        rw [hc] at hbre
        exact absurd hbre (by simp)
      obtain ⟨h2, hbf⟩ := Option.ne_none_iff_exists'.mp hbfne
      obtain ⟨ro, rs, kr, pre', lext, rext, post', hpre', hpost', hw2, hcp', hcl',
        hcrx', hrspow, hkr, hra, hsrs, hrs32, hents2, ht2, hn2, hb2, hl2, hi2, hdr2, hdata2⟩ :=
        @bfree_cond _ _ pre post o s true K hw1 rfl hents htK hK64 h2 hbf
      rw [hbf] at hbre
      simp only [] at hbre
      have hrole : ro ≤ o := chain_le hcl'
      have hballne : balloc h2 size ≠ none := by
        intro hc
        rw [hc] at hbre
        exact absurd hbre (by simp)
      obtain ⟨rbh3, hball⟩ := Option.ne_none_iff_exists'.mp hballne
      obtain ⟨rb, h3⟩ := rbh3
      obtain ⟨hbl3, hbi3, hbs3, hbtle3, ⟨K3, hK3⟩, ⟨bs3, hwb3, hentsb3, hneb3⟩,
        hfail3, hsucc3⟩ :=
        @balloc_cond h2 (pre' ++ (ro, rs, false) :: post') size K
          (by rw [hi2]; show ({ h with lock := h.lock + 1 } : Heap).isInit = true; exact hinit)
          hw2 hents2 (by rw [ht2]; exact htK) (by rw [ht2]; exact h32)
          (by rw [ht2, hb2]; exact hsum)
          ⟨(ro, rs, false), by simp, by rw [hn2]⟩ hsz rb h3 hball
      rw [hball] at hbre
      have hlock2 : h2.lock = h.lock + 1 := hl2
      have hK364 : K3 ≤ 64 := by
        have hx : h3.total + h3.brk = h2.total + h2.brk := hbs3
        have hy1 : h2.total = h.total := ht2
        have hy2 : h2.brk = h.brk := hb2
        have hz : (2:Nat) ^ K3 ≤ 2 ^ 64 := by
          rw [← hK3]
          show h3.total ≤ W64
          omega
        exact (Nat.pow_le_pow_iff_right (by omega)).mp hz
      have h32t3 : 32 ≤ h3.total := by
        have hx : h2.total ≤ h3.total := hbtle3
        have hy1 : h2.total = h.total := ht2
        omega
      cases rb with
      | none =>
        -- inner allocation failed: restore the old header
        simp only [] at hbre
        obtain ⟨hn3, ext, hwx3, hfree3, hpres3⟩ := hfail3 rfl
        injection hbre with hpair
        injection hpair with hr hh'
        subst hr
        subst hh'
        have hrd4 : ∀ x, rdH (writeHdr h3 o ⟨s, true⟩) x =
            if o = x then some (s, true) else rdH h3 x := by
          intro x
          rw [rdH_writeHdr]
        have h4total : (writeHdr h3 o ⟨s, true⟩).total = h3.total := rfl
        have hroro : ro + rs ≤ h2.total := by
          have := chain_mem (walkH_eq_iff.mp hw2).1 (ro, rs, false) (by simp)
          exact this.2.1
        have hosle : o + s ≤ ro + rs := chain_le hcrx'
        -- chain pieces of the grown failed heap
        have hc3 : chain h3.total 0 ((pre' ++ (ro, rs, false) :: post') ++ ext) :=
          (walkH_eq_iff.mp hwx3).1
        obtain ⟨m, hcm1, hcext⟩ := chain_append_iff.mp hc3
        have hm2 : m = h2.total := chain_stop_unique hcm1 (walkH_eq_iff.mp hw2).1
        subst hm2
        obtain ⟨m2, hcm2, hcm3⟩ := chain_append_iff.mp hcm1
        have hm2ro : ro = m2 := chain_stop_unique hcp' hcm2
        subst hm2ro
        have hcpost' : chain h2.total (ro + rs) post' := hcm3.2.2
        have hdr3eq : ∀ x, x < h2.total → hdr h3 x = hdr h2 x := by
          intro x hx
          exact hpres3 x hx
        have hrd3eq : ∀ x, x < h2.total → rdH h3 x = rdH h2 x := by
          intro x hx
          exact rdH_of_hdr_eq (hdr3eq x hx)
        have hrd2eq : ∀ x, x ≠ ro → rdH h2 x = rdH h x := by
          intro x hx
          apply rdH_of_hdr_eq
          rw [hdr2 x, if_neg (by omega)]
          rfl
        have hentsall : entsOk ((pre' ++ (ro, rs, false) :: post') ++ ext) := by
          have hb3 : bs3 = (pre' ++ (ro, rs, false) :: post') ++ ext := by
            rw [hwx3] at hwb3
            exact (Option.some.injEq _ _).mp hwb3.symm
          rw [hb3] at hentsb3
          exact hentsb3
        rcases eq_or_lt_of_le hrole with rfl | hrlt
        · -- the join stayed at ro: the restore rebuilds the original block front
          have hlext : lext = [] := chain_nil_of_eq hcl'
          subst hlext
          have hpre'' : pre = pre' := by simpa using hpre'
          subst hpre''
          have hw4 : walkH (writeHdr h3 ro ⟨s, true⟩) =
              some (pre ++ (ro, s, true) :: (rext ++ (post' ++ ext))) := by
            apply walkH_eq_iff.mpr
            constructor
            · apply chain_append_iff.mpr
              refine ⟨ro, hcp', rfl, by show 0 < s; omega, ?_⟩
              show chain (writeHdr h3 ro ⟨s, true⟩).total (ro + s) (rext ++ (post' ++ ext))
              rw [h4total]
              apply chain_append_iff.mpr
              refine ⟨ro + rs, hcrx', ?_⟩
              apply chain_append_iff.mpr
              exact ⟨h2.total, hcpost', hcext⟩
            · intro e he
              rcases List.mem_append.mp he with hp | hp
              · have hb := chain_mem hcp' e hp
                rw [hrd4, if_neg (by omega), hrd3eq e.1 (by omega),
                  hrd2eq e.1 (by omega)]
                exact (walkH_eq_iff.mp hw).2 e (by simp [hp])
              · rcases List.mem_cons.mp hp with rfl | hp
                · rw [hrd4, if_pos rfl]
                · rcases List.mem_append.mp hp with hp2 | hp2
                  · have hb := chain_mem hcrx' e hp2
                    rw [hrd4, if_neg (by omega), hrd3eq e.1 (by omega),
                      hrd2eq e.1 (by omega)]
                    apply (walkH_eq_iff.mp hw).2 e
                    rw [hpost']
                    simp [hp2]
                  · rcases List.mem_append.mp hp2 with hp3 | hp3
                    · have hb := chain_mem hcpost' e hp3
                      rw [hrd4, if_neg (by omega), hrd3eq e.1 (by omega)]
                      exact (walkH_eq_iff.mp hw2).2 e (by simp [hp3])
                    · have hb := chain_mem hcext e hp3
                      have hbb := chain_mem hc3 e (by simp [hp3])
                      rw [hrd4, if_neg (by omega)]
                      exact (walkH_eq_iff.mp hwx3).2 e (by simp [hp3])
          have hents4 : entsOk (pre ++ (ro, s, true) :: (rext ++ (post' ++ ext))) := by
            intro e he
            rcases List.mem_append.mp he with hp | hp
            · exact hents e (by simp [hp])
            · rcases List.mem_cons.mp hp with rfl | hp
              · exact ⟨⟨ks, hks, hspow⟩, hs32, hoa⟩
              · rcases List.mem_append.mp hp with hp2 | hp2
                · apply hents e
                  rw [hpost']
                  simp [hp2]
                · rcases List.mem_append.mp hp2 with hp3 | hp3
                  · exact hentsall e (by simp [hp3])
                  · exact hentsall e (by simp [hp3])
          refine ⟨?_, ?_, ?_, ?_⟩
          · apply @hok_of_walk _ (pre ++ (ro, s, true) :: (rext ++ (post' ++ ext))) K3
            · exact walkH_eq_iff.mpr ⟨(walkH_eq_iff.mp hw4).1, (walkH_eq_iff.mp hw4).2⟩
            · exact hents4
            · show (writeHdr h3 ro ⟨s, true⟩).total = 2 ^ K3
              rw [h4total]
              exact hK3
            · exact hK364
            · show 32 ≤ (writeHdr h3 ro ⟨s, true⟩).total
              rw [h4total]
              omega
          · show (writeHdr h3 ro ⟨s, true⟩).lock - 1 = h.lock
            have hx : (writeHdr h3 ro ⟨s, true⟩).lock = h3.lock := rfl
            rw [hx, hbl3, hlock2]
            omega
          · show h3.isInit = true
            exact hbi3
          · intro _
            show hdr { writeHdr h3 ro ⟨s, true⟩ with
              lock := (writeHdr h3 ro ⟨s, true⟩).lock - 1 } ro = some ⟨s, true⟩
            have hx : hdr { writeHdr h3 ro ⟨s, true⟩ with
                lock := (writeHdr h3 ro ⟨s, true⟩).lock - 1 } ro =
                hdr (writeHdr h3 ro ⟨s, true⟩) ro := rfl
            rw [hx, hdr_writeHdr, if_pos rfl]
        · -- the join moved left: the restore write is invisible to the walk
          have hw4 : walkH (writeHdr h3 o ⟨s, true⟩) =
              some ((pre' ++ (ro, rs, false) :: post') ++ ext) := by
            apply walkH_eq_iff.mpr
            refine ⟨hc3, ?_⟩
            intro e he
            have hne' : e.1 ≠ o := by
              rcases List.mem_append.mp he with hp | hp
              · rcases List.mem_append.mp hp with hp2 | hp2
                · have hb := chain_mem hcp' e hp2
                  omega
                · rcases List.mem_cons.mp hp2 with rfl | hp3
                  · show ro ≠ o
                    omega
                  · have hb := chain_mem hcpost' e hp3
                    omega
              · have hb := chain_mem hcext e hp
                omega
            rw [hrd4, if_neg (by omega)]
            exact (walkH_eq_iff.mp hwx3).2 e he
          refine ⟨?_, ?_, ?_, ?_⟩
          · apply @hok_of_walk _ ((pre' ++ (ro, rs, false) :: post') ++ ext) K3
            · exact walkH_eq_iff.mpr ⟨(walkH_eq_iff.mp hw4).1, (walkH_eq_iff.mp hw4).2⟩
            · exact hentsall
            · show (writeHdr h3 o ⟨s, true⟩).total = 2 ^ K3
              rw [h4total]
              exact hK3
            · exact hK364
            · show 32 ≤ (writeHdr h3 o ⟨s, true⟩).total
              rw [h4total]
              omega
          · show (writeHdr h3 o ⟨s, true⟩).lock - 1 = h.lock
            have hx : (writeHdr h3 o ⟨s, true⟩).lock = h3.lock := rfl
            rw [hx, hbl3, hlock2]
            omega
          · show h3.isInit = true
            exact hbi3
          · intro _
            show hdr { writeHdr h3 o ⟨s, true⟩ with
              lock := (writeHdr h3 o ⟨s, true⟩).lock - 1 } o = some ⟨s, true⟩
            have hx : hdr { writeHdr h3 o ⟨s, true⟩ with
                lock := (writeHdr h3 o ⟨s, true⟩).lock - 1 } o =
                hdr (writeHdr h3 o ⟨s, true⟩) o := rfl
            rw [hx, hdr_writeHdr, if_pos rfl]
      | some q =>
        -- relocation succeeded: only payload bytes are copied
        simp only [] at hbre
        rcases hhd3 : hdr h3 o with _ | bold
        · rw [hhd3] at hbre
          simp only [] at hbre
          exact absurd hbre (by simp)
        · rw [hhd3] at hbre
          simp only [] at hbre
          by_cases hqp : q < o + MEMOFFSET
          · rw [if_pos hqp] at hbre
            injection hbre with hpair
            injection hpair with hr hh'
            subst hr
            subst hh'
            refine ⟨?_, ?_, ?_, ?_⟩
            · apply @hok_of_walk _ bs3 K3
              · exact walkH_eq_iff.mpr ⟨(walkH_eq_iff.mp hwb3).1, (walkH_eq_iff.mp hwb3).2⟩
              · exact hentsb3
              · show h3.total = 2 ^ K3
                exact hK3
              · exact hK364
              · exact h32t3
            · show h3.lock - 1 = h.lock
              rw [hbl3, hlock2]
              omega
            · show h3.isInit = true
              exact hbi3
            · intro hrn
              exact absurd hrn (by simp)
          · rw [if_neg hqp] at hbre
            injection hbre with hpair
            injection hpair with hr hh'
            subst hr
            subst hh'
            refine ⟨?_, ?_, ?_, ?_⟩
            · apply @hok_of_walk _ bs3 K3
              · exact walkH_eq_iff.mpr ⟨(walkH_eq_iff.mp hwb3).1, (walkH_eq_iff.mp hwb3).2⟩
              · exact hentsb3
              · show h3.total = 2 ^ K3
                exact hK3
              · exact hK364
              · exact h32t3
            · show h3.lock - 1 = h.lock
              rw [hbl3, hlock2]
              omega
            · show h3.isInit = true
              exact hbi3
            · intro hrn
              exact absurd hrn (by simp)

/-- Arena analogue of `sibs`: the free right-hand buddies created by
repeatedly splitting, with the arena's `free = true` encoding. -/
def asibs (o : Nat) (t s : Nat) : List (Nat × Nat × Bool) :=
  if 0 < t ∧ t < s then (o + t, t, true) :: asibs o (2 * t) s else []
  termination_by s - t
  decreasing_by
    rename_i hh
    omega

lemma asibs_base (o t s : Nat) (h : ¬(0 < t ∧ t < s)) : asibs o t s = [] := by
  rw [asibs, if_neg h]

lemma asibs_snoc : ∀ (j t o : Nat), 0 < t →
    asibs o t (t * 2 ^ (j + 1)) = asibs o t (t * 2 ^ j) ++ [(o + t * 2 ^ j, t * 2 ^ j, true)] := by
  intro j
  induction j with
  | zero =>
    intro t o ht
    rw [asibs, if_pos ⟨ht, lt_mul_pow2 ht 0⟩]
    rw [asibs, if_neg (by simp [pow_succ]; omega)]
    rw [asibs_base _ _ _ (by simp)]
    simp
  | succ j ih =>
    intro t o ht
    have h1 : t * 2 ^ (j + 1 + 1) = 2 * t * 2 ^ (j + 1) := by ring
    have h2 : t * 2 ^ (j + 1) = 2 * t * 2 ^ j := by ring
    have hc2 : 0 < t ∧ t < t * 2 ^ (j + 1) := ⟨ht, lt_mul_pow2 ht j⟩
    have hc1 : 0 < t ∧ t < t * 2 ^ (j + 1 + 1) := ⟨ht, lt_mul_pow2 ht (j + 1)⟩
    conv_rhs => rw [asibs, if_pos hc2]
    rw [h2]
    conv_lhs => rw [asibs, if_pos hc1]
    rw [h1, ih (2 * t) o (by omega)]
    simp

lemma asibs_chain : ∀ (j t o : Nat), 0 < t →
    chain (o + t * 2 ^ j) (o + t) (asibs o t (t * 2 ^ j)) := by
  intro j
  induction j with
  | zero =>
    intro t o ht
    rw [asibs_base _ _ _ (by simp)]
    show o + t = o + t * 2 ^ 0
    simp
  | succ j ih =>
    intro t o ht
    rw [asibs_snoc j t o ht]
    apply chain_append_iff.mpr
    refine ⟨o + t * 2 ^ j, ih t o ht, ?_⟩
    refine ⟨rfl, by positivity, ?_⟩
    show o + t * 2 ^ j + t * 2 ^ j = o + t * 2 ^ (j + 1)
    have : t * 2 ^ (j + 1) = t * 2 ^ j + t * 2 ^ j := by ring
    omega

lemma asibs_mem : ∀ (j t o : Nat), 0 < t →
    ∀ e ∈ asibs o t (t * 2 ^ j),
      (∃ d, d < j ∧ e = (o + t * 2 ^ d, t * 2 ^ d, true)) := by
  intro j
  induction j with
  | zero =>
    intro t o ht e he
    rw [asibs_base _ _ _ (by simp)] at he
    exact absurd he (List.not_mem_nil e)
  | succ j ih =>
    intro t o ht e he
    rw [asibs_snoc j t o ht] at he
    rcases List.mem_append.mp he with h1 | h1
    · obtain ⟨d, hd, hde⟩ := ih t o ht e h1
      exact ⟨d, by omega, hde⟩
    · obtain rfl : e = (o + t * 2 ^ j, t * 2 ^ j, true) := by simpa using h1
      exact ⟨j, by omega, rfl⟩

lemma walkA_decomp {a : Arena} {pre post : List (Nat × Nat × Bool)} {o s : Nat} {u : Bool}
    (hw : walkA a = some (pre ++ (o, s, u) :: post)) :
    chain o 0 pre ∧ 0 < s ∧ chain a.total (o + s) post ∧ rdA a o = some (s, u) := by
  obtain ⟨hc, hro⟩ := walkA_eq_iff.mp hw
  obtain ⟨m, hcp, hcc⟩ := chain_append_iff.mp hc
  obtain ⟨he1, hp, hc'⟩ := hcc
  have hom : o = m := he1
  subst hom
  exact ⟨hcp, hp, hc', hro (o, s, u) (by simp)⟩

lemma writeA_total (a : Arena) (o : Nat) (b : ABlock) : (writeA a o b).total = a.total := rfl

lemma aok_of_walk {a : Arena} {bs : List (Nat × Nat × Bool)} {K : Nat}
    (hw : walkA a = some bs) (hents : entsOk bs) (htK : a.total = 2 ^ K) (hK : K ≤ 64)
    (h32 : 32 ≤ a.total) : aok a = true :=
  aok_iff.mpr ⟨bs, hw, (walkA_eq_iff.mp hw).1, (walkA_eq_iff.mp hw).2, hents, ⟨K, hK, htK⟩, h32⟩

lemma chain_last : ∀ {bs : List (Nat × Nat × Bool)} {o stop : Nat}, chain stop o bs →
    ∀ e ∈ bs, e.1 + e.2.1 = stop → ∃ pre1, bs = pre1 ++ [e] := by
  intro bs
  induction bs with
  | nil => intro o stop _ e he; exact absurd he (List.not_mem_nil e)
  | cons x rest ih =>
    intro o stop hc e he hstop
    obtain ⟨hx, hp, hc'⟩ := hc
    rcases List.mem_cons.mp he with rfl | he
    · have hrest : rest = [] := by
        apply chain_nil_of_eq
        have hx1 : o + e.2.1 = stop := by
          rw [← hstop, hx]
        rwa [hx1] at hc'
      subst hrest
      exact ⟨[], rfl⟩
    · obtain ⟨pre1, hpre1⟩ := ih hc' e he hstop
      exact ⟨x :: pre1, by rw [hpre1]; simp⟩

/-- The first-fit search of `buddy_alloc`: read-only, always returns, and
a hit is a free block of the walk that holds the request. -/
lemma afit_spec : ∀ (f : Nat) (a : Arena) (bs : List (Nat × Nat × Bool)) (req o : Nat),
    walkA a = some bs → (∃ e ∈ bs, e.1 = o) → a.total - o ≤ f →
    ∃ r, afit f a req o = some r ∧
      (∀ o2, r = some o2 → ∃ pre2 s2 post2, bs = pre2 ++ (o2, s2, true) :: post2 ∧
        req ≤ sub64 s2 BLOCK_MEM_OFFSET) := by
  intro f
  induction f with
  | zero =>
    intro a bs req o hw hoe hf
    exfalso
    obtain ⟨e, he, he1⟩ := hoe
    have := chain_mem (walkA_eq_iff.mp hw).1 e he
    omega
  | succ f ih =>
    intro a bs req o hw hoe hf
    obtain ⟨pre, s, u, post, hbs⟩ := mem_decomp hoe
    subst hbs
    obtain ⟨hcp, hsp, hcc, hrd⟩ := walkA_decomp hw
    have hhd : hdrA a o = some ⟨s, u⟩ := hdrA_of_rdA hrd
    by_cases hsuit : (!u || decide (sub64 s BLOCK_MEM_OFFSET < req)) = true
    · -- unsuitable: advance
      have hstep0 : afit (f + 1) a req o =
          (if a.total ≤ o + s then some none else afit f a req (o + s)) := by
        conv_lhs => rw [afit]
        rw [hhd]
        simp only []
        rw [if_pos hsuit]
      by_cases hend : a.total ≤ o + s
      · refine ⟨none, by rw [hstep0, if_pos hend], ?_⟩
        intro o2 ho2
        exact absurd ho2 (by simp)
      · have hpostne : ∃ e' post', post = e' :: post' := by
          cases post with
          | nil =>
            exfalso
            have : o + s = a.total := hcc
            omega
          | cons e' post' => exact ⟨e', post', rfl⟩
        obtain ⟨e', post', rfl⟩ := hpostne
        have he'1 : e'.1 = o + s := hcc.1
        obtain ⟨r, hrun, hpost⟩ :=
          ih a (pre ++ (o, s, u) :: e' :: post') req (o + s) hw ⟨e', by simp, he'1⟩ (by omega)
        exact ⟨r, by rw [hstep0, if_neg hend]; exact hrun, hpost⟩
    · -- found
      have hu : u = true := by
        rcases Bool.eq_false_or_eq_true u with hu | hu
        · exact hu
        · exfalso; apply hsuit; simp [hu]
      have hreq : req ≤ sub64 s BLOCK_MEM_OFFSET := by
        by_contra hch
        apply hsuit
        simp only [Bool.or_eq_true, decide_eq_true_eq]
        right
        omega
      subst hu
      refine ⟨some o, ?_, ?_⟩
      · conv_lhs => rw [afit]
        rw [hhd]
        simp only []
        rw [if_neg hsuit]
      · intro o2 ho2
        obtain rfl : o = o2 := by simpa using ho2
        exact ⟨pre, s, post, rfl, hreq⟩

/-- Full characterization of the best-fit split loop of `buddy_alloc`:
it terminates, replacing the chosen block by a smaller power-of-two block
followed by free right-hand buddies, never going below 32 bytes (the
`BLOCK_MIN_SIZE` guard refuses the split that would). -/
lemma asplitLoop_spec : ∀ (f : Nat) (a : Arena) (pre post : List (Nat × Nat × Bool))
    (o s ks req : Nat) (u : Bool),
    walkA a = some (pre ++ (o, s, u) :: post) →
    entsOk (pre ++ (o, s, u) :: post) →
    s = 2 ^ ks →
    32 ≤ s →
    a.total ≤ W64 →
    ks + 1 ≤ f →
    ∃ t kt j a',
      asplitLoop f a o req = some a' ∧
      t = 2 ^ kt ∧ 32 ≤ t ∧ t ≤ s ∧ s = t * 2 ^ j ∧
      walkA a' = some (pre ++ (o, t, u) :: (asibs o t s ++ post)) ∧
      entsOk (pre ++ (o, t, u) :: (asibs o t s ++ post)) ∧
      a'.total = a.total := by
  intro f
  induction f with
  | zero => intro a pre post o s ks req u _ _ _ _ _ hf; omega
  | succ f ih =>
    intro a pre post o s ks req u hw hents hs h32 htot hf
    obtain ⟨hcp, hsp, hcc, hrd⟩ := walkA_decomp hw
    have hhd : hdrA a o = some ⟨s, u⟩ := hdrA_of_rdA hrd
    have hmem : o + s ≤ a.total := by
      have := chain_mem (walkA_eq_iff.mp hw).1 (o, s, u) (by simp)
      exact this.2.1
    obtain ⟨hev, hdiv⟩ := pow2_even hs (by omega)
    have hsub : sub64 (s / 2) BLOCK_MEM_OFFSET = s / 2 - 16 := by
      apply sub64_eq
      · show 16 ≤ s / 2; omega
      · show s / 2 - 16 < W64
        have : s ≤ W64 := by omega
        omega
    have hks64 : ks ≤ 64 := by
      have hsw : s ≤ W64 := by omega
      rw [hs] at hsw
      exact (Nat.pow_le_pow_iff_right (by omega)).mp hsw
    have hoas : o % s = 0 := by
      have := hents (o, s, u) (by simp)
      exact this.2.2
    by_cases hg : req ≤ s / 2 - 16
    · by_cases hmin : s / 2 < BLOCK_MIN_SIZE
      · -- split refused by the minimum size: the loop ends
        have hstep : asplitLoop (f + 1) a o req = some a := by
          conv_lhs => rw [asplitLoop]
          rw [hhd]
          simp only []
          rw [if_pos (by rw [hsub]; exact hg), if_pos hmin]
        have hnil : asibs o s s = [] := asibs_base o s s (by omega)
        refine ⟨s, ks, 0, a, hstep, hs, h32, le_refl s, by simp, ?_, ?_, rfl⟩
        · rw [hnil]; simpa using hw
        · rw [hnil]; simpa using hents
      · -- split once and recurse
        have hns24 : 24 ≤ s / 2 := by
          show 24 ≤ s / 2
          have hB : BLOCK_MIN_SIZE = 24 := rfl
          rw [hB] at hmin
          omega
        have hns32 : 32 ≤ s / 2 := pow2_ge32 hdiv (by omega)
        have hks6 : 6 ≤ ks := by
          have h64 : 64 ≤ s := by omega
          by_contra hk
          have hk5 : ks ≤ 5 := by omega
          have : s ≤ 32 := by
            rw [hs]
            calc (2:Nat) ^ ks ≤ 2 ^ 5 := Nat.pow_le_pow_right (by omega) hk5
            _ = 32 := by norm_num
          omega
        set ns := s / 2 with hnsdef
        set a2 := writeA (writeA a o ⟨ns, u⟩) (o + ns) ⟨ns, true⟩ with a2def
        have hstep : asplitLoop (f + 1) a o req = asplitLoop f a2 o req := by
          conv_lhs => rw [asplitLoop]
          rw [hhd]
          simp only []
          rw [if_pos (by rw [hsub]; exact hg), if_neg hmin]
        have hrd2 : ∀ x, rdA a2 x =
            if o + ns = x then some (ns, true)
            else if o = x then some (ns, u)
            else rdA a x := by
          intro x
          rw [a2def, rdA_writeA, rdA_writeA]
        have hw2 : walkA a2 = some (pre ++ (o, ns, u) :: (o + ns, ns, true) :: post) := by
          apply walkA_eq_iff.mpr
          constructor
          · apply chain_append_iff.mpr
            refine ⟨o, hcp, rfl, by show 0 < ns; omega, rfl, by show 0 < ns; omega, ?_⟩
            show chain a2.total (o + ns + ns) post
            have hxx : a2.total = a.total := rfl
            rw [hxx]
            have hxy : o + ns + ns = o + s := by omega
            rw [hxy]
            exact hcc
          · intro e he
            rcases List.mem_append.mp he with hepre | herest
            · have hb := chain_mem hcp e hepre
              rw [hrd2, if_neg (by omega), if_neg (by omega)]
              exact (walkA_eq_iff.mp hw).2 e (by simp [hepre])
            · rcases List.mem_cons.mp herest with rfl | herest
              · rw [hrd2]
                rw [if_neg (by omega), if_pos rfl]
              · rcases List.mem_cons.mp herest with rfl | hepost
                · rw [hrd2, if_pos rfl]
                · have hb := chain_mem hcc e hepost
                  rw [hrd2, if_neg (by omega), if_neg (by omega)]
                  exact (walkA_eq_iff.mp hw).2 e (by simp [hepost])
        have hents2 : entsOk (pre ++ (o, ns, u) :: (o + ns, ns, true) :: post) := by
          intro e he
          have hnsdvd : ns ∣ o := by
            apply dvd_trans (pow2_dvd_of_le hdiv hs (by omega))
            exact Nat.dvd_iff_mod_eq_zero.mpr hoas
          rcases List.mem_append.mp he with hepre | herest
          · exact hents e (by simp [hepre])
          · rcases List.mem_cons.mp herest with rfl | herest
            · refine ⟨⟨ks - 1, by omega, hdiv⟩, hns32, ?_⟩
              show o % ns = 0
              exact Nat.dvd_iff_mod_eq_zero.mp hnsdvd
            · rcases List.mem_cons.mp herest with rfl | hepost
              · refine ⟨⟨ks - 1, by omega, hdiv⟩, hns32, ?_⟩
                show (o + ns) % ns = 0
                have ho : o % ns = 0 := Nat.dvd_iff_mod_eq_zero.mp hnsdvd
                rw [Nat.add_mod, ho, Nat.mod_self]
                simp
              · exact hents e (by simp [hepost])
        have htot2 : a2.total ≤ W64 := htot
        obtain ⟨t, kt, j, a', hrun, hkt, ht32, htle, hsj, hw', hents', he1⟩ :=
          ih a2 pre ((o + ns, ns, true) :: post) o ns (ks - 1) req u hw2 hents2 hdiv hns32
            htot2 (by omega)
        have hsnoc : asibs o t s = asibs o t ns ++ [(o + ns, ns, true)] := by
          have hseq : s = t * 2 ^ (j + 1) := by
            rw [pow_succ, ← Nat.mul_assoc, ← hsj]
            omega
          rw [hseq, asibs_snoc j t o (by omega), ← hsj]
        refine ⟨t, kt, j + 1, a', ?_, hkt, ht32, by omega, ?_, ?_, ?_, ?_⟩
        · rw [hstep]; exact hrun
        · rw [pow_succ, ← Nat.mul_assoc, ← hsj]; omega
        · rw [hsnoc]
          rw [hw']
          simp
        · rw [hsnoc]
          intro e he
          apply hents'
          simp at he ⊢
          exact he
        · rw [he1, a2def, writeA_total, writeA_total]
    · -- request no longer fits in the half: the loop ends
      have hstep : asplitLoop (f + 1) a o req = some a := by
        conv_lhs => rw [asplitLoop]
        rw [hhd]
        simp only []
        rw [if_neg (by rw [hsub]; simpa using hg)]
      have hnil : asibs o s s = [] := asibs_base o s s (by omega)
      refine ⟨s, ks, 0, a, hstep, hs, h32, le_refl s, by simp, ?_, ?_, rfl⟩
      · rw [hnil]; simpa using hw
      · rw [hnil]; simpa using hents

/-- Full characterization of `buddy_alloc` on a valid arena with a
nonzero request: it returns, the arena stays a tiled power-of-two region,
and a success hands out the payload of a used block that holds the
request. -/
lemma buddy_alloc_spec {a : Arena} {bs : List (Nat × Nat × Bool)} {size K : Nat}
    (hw : walkA a = some bs) (hents : entsOk bs) (htK : a.total = 2 ^ K)
    (h32 : 32 ≤ a.total) (hK64 : K ≤ 64) (hsz : 1 ≤ size) :
    ∃ r a', buddy_alloc a size = some (r, a') ∧ aok a' = true ∧ a'.total = a.total ∧
      (r = none → a' = a) := by
  have htW : a.total ≤ W64 := by
    rw [htK]
    calc (2:Nat) ^ K ≤ 2 ^ 64 := Nat.pow_le_pow_right (by omega) hK64
    _ = W64 := rfl
  have hbsne : ∃ e ∈ bs, e.1 = 0 := by
    cases bs with
    | nil =>
      exfalso
      have : (0:Nat) = a.total := (walkA_eq_iff.mp hw).1
      omega
    | cons e rest =>
      exact ⟨e, by simp, ((walkA_eq_iff.mp hw).1).1⟩
  obtain ⟨r0, hfit, hfound⟩ := afit_spec (a.total + 2) a bs size 0 hw hbsne (by omega)
  have hsz0 : ¬((size == 0) = true) := by simp; omega
  cases r0 with
  | none =>
    refine ⟨none, a, ?_, aok_of_walk hw hents htK hK64 h32, rfl, fun _ => rfl⟩
    unfold buddy_alloc
    rw [if_neg hsz0]
    rw [hfit]
  | some o =>
    obtain ⟨pre2, s2, post2, hbs2, hreq2⟩ := hfound o rfl
    subst hbs2
    obtain ⟨⟨ks2, hks2, hs2pow⟩, hs232m, _⟩ := hents (o, s2, true) (by simp)
    have hs2pow' : s2 = 2 ^ ks2 := hs2pow
    have hs232 : 32 ≤ s2 := hs232m
    have hfuel : ks2 + 1 ≤ a.total + 2 := by
      have h1 : K < 2 ^ K := Nat.lt_two_pow _
      have h2 : ks2 ≤ K := by
        have hle : s2 ≤ a.total := by
          have hx := chain_mem (walkA_eq_iff.mp hw).1 (o, s2, true) (by simp)
          have hy : o + s2 ≤ a.total := hx.2.1
          omega
        rw [hs2pow', htK] at hle
        exact (Nat.pow_le_pow_iff_right (by omega)).mp hle
      omega
    obtain ⟨t, kt, j, a2, hrun, hktpow, ht32, htles, hsj, hw2, hents2, htot2⟩ :=
      asplitLoop_spec (a.total + 2) a pre2 post2 o s2 ks2 size true hw hents hs2pow'
        hs232 htW hfuel
    have hhd2 : hdrA a2 o = some ⟨t, true⟩ := by
      apply hdrA_of_rdA
      exact (walkA_eq_iff.mp hw2).2 (o, t, true) (by simp)
    have hrd3 : ∀ x, rdA (writeA a2 o ⟨t, false⟩) x =
        if o = x then some (t, false) else rdA a2 x := by
      intro x
      rw [rdA_writeA]
    obtain ⟨hcp2, htp2, hcc2, _⟩ := walkA_decomp hw2
    have hw3 : walkA (writeA a2 o ⟨t, false⟩) =
        some (pre2 ++ (o, t, false) :: (asibs o t s2 ++ post2)) := by
      apply walkA_eq_iff.mpr
      constructor
      · apply chain_append_iff.mpr
        refine ⟨o, hcp2, rfl, by show 0 < t; omega, ?_⟩
        show chain (writeA a2 o ⟨t, false⟩).total (o + t) (asibs o t s2 ++ post2)
        have hx : (writeA a2 o ⟨t, false⟩).total = a2.total := rfl
        rw [hx]
        exact hcc2
      · intro e he
        rcases List.mem_append.mp he with hp | hp
        · have hb := chain_mem hcp2 e hp
          rw [hrd3, if_neg (by omega)]
          exact (walkA_eq_iff.mp hw2).2 e (by simp [hp])
        · rcases List.mem_cons.mp hp with rfl | hp
          · rw [hrd3, if_pos rfl]
          · have hb := chain_mem hcc2 e hp
            rw [hrd3, if_neg (by omega)]
            exact (walkA_eq_iff.mp hw2).2 e (by simp [hp])
    have hents3 : entsOk (pre2 ++ (o, t, false) :: (asibs o t s2 ++ post2)) := by
      intro e he
      rcases List.mem_append.mp he with hp | hp
      · exact hents2 e (by simp [hp])
      · rcases List.mem_cons.mp hp with rfl | hp
        · have := hents2 (o, t, true) (by simp)
          exact this
        · exact hents2 e (by simp [hp])
    refine ⟨some (o + BLOCK_MEM_OFFSET), writeA a2 o ⟨t, false⟩, ?_, ?_, ?_, ?_⟩
    · unfold buddy_alloc
      rw [if_neg hsz0]
      rw [hfit]
      simp only []
      rw [hrun]
      simp only []
      rw [hhd2]
    · apply aok_of_walk hw3 hents3
      · show (writeA a2 o ⟨t, false⟩).total = 2 ^ K
        rw [writeA_total, htot2]
        exact htK
      · exact hK64
      · show 32 ≤ (writeA a2 o ⟨t, false⟩).total
        rw [writeA_total, htot2]
        exact h32
    · rw [writeA_total, htot2]
    · intro hq
      exact absurd hq (by simp)

/-- One step of the coalescing loop of `buddy_free`: `try_merge` always
returns; when it merges, the result is the left member carrying the
doubled size, marked free, and the region remains exactly tiled. -/
lemma try_merge_spec {a : Arena} {pre post : List (Nat × Nat × Bool)} {o s ks K : Nat} {u : Bool}
    (hw : walkA a = some (pre ++ (o, s, u) :: post))
    (hents : entsOk (pre ++ (o, s, u) :: post))
    (htK : a.total = 2 ^ K) (hK62 : K ≤ 62) (hspow : s = 2 ^ ks) :
    ∃ res, try_merge a o = some res ∧
      ∀ pr, res = some pr → ∃ pre2 post2, pr.2.total = a.total ∧
        walkA pr.2 = some (pre2 ++ (pr.1, s * 2, true) :: post2) ∧
        entsOk (pre2 ++ (pr.1, s * 2, true) :: post2) := by
  obtain ⟨hcp, hsp, hcc, hrd⟩ := walkA_decomp hw
  have hhd : hdrA a o = some ⟨s, u⟩ := hdrA_of_rdA hrd
  obtain ⟨⟨ks', hks', hspow2⟩, hs32m, hoam⟩ := hents (o, s, u) (by simp)
  have hs32 : 32 ≤ s := hs32m
  have hoa : o % s = 0 := hoam
  have hostot : o + s ≤ a.total := by
    have := chain_mem (walkA_eq_iff.mp hw).1 (o, s, u) (by simp)
    exact this.2.1
  have hz : ¬((s == 0) = true) := by simp; omega
  have hksle : ks ≤ 62 := by
    have h1 : s ≤ a.total := by omega
    rw [hspow, htK] at h1
    have h2 : ks ≤ K := (Nat.pow_le_pow_iff_right (by omega)).mp h1
    omega
  have hm2 : (s * 2) % W64 = s * 2 := pow2_double_mod hspow hksle
  have hz2 : ¬((s * 2 == 0) = true) := by simp; omega
  by_cases hal : o % (s * 2) = 0
  · -- left member
    by_cases hend : a.total ≤ o + s
    · refine ⟨none, ?_, ?_⟩
      · unfold try_merge
        rw [hhd]
        simp only []
        rw [if_neg hz]
        simp only [hm2]
        rw [if_neg hz2, if_pos (by simp only [beq_iff_eq]; omega)]
        rw [if_pos hend]
      · intro pr hpr
        exact absurd hpr (by simp)
    · have hpostne : ∃ s' u' post2, post = (o + s, s', u') :: post2 := by
        cases post with
        | nil =>
          exfalso
          have : o + s = a.total := hcc
          omega
        | cons e' post2 =>
          obtain ⟨e1, es, eu⟩ := e'
          have he1 : e1 = o + s := hcc.1
          subst he1
          exact ⟨es, eu, post2, rfl⟩
      obtain ⟨s', u', post2, rfl⟩ := hpostne
      have hhdb : hdrA a (o + s) = some ⟨s', u'⟩ :=
        hdrA_of_rdA ((walkA_eq_iff.mp hw).2 (o + s, s', u') (by simp))
      by_cases hmg : (!u' || s' != s) = true
      · refine ⟨none, ?_, ?_⟩
        · unfold try_merge
          rw [hhd]
          simp only []
          rw [if_neg hz]
          simp only [hm2]
          rw [if_neg hz2, if_pos (by simp only [beq_iff_eq]; omega)]
          rw [if_neg hend]
          rw [hhdb]
          simp only []
          rw [if_pos hmg]
        · intro pr hpr
          exact absurd hpr (by simp)
      · have hu' : u' = true := by
          rcases Bool.eq_false_or_eq_true u' with hx | hx
          · exact hx
          · exfalso; apply hmg; simp [hx]
        have hs'x : s = s' := by
          rcases Bool.eq_false_or_eq_true (s' != s) with hx | hx
          · exfalso; apply hmg; simp [hx]
          · exact (by simpa using hx : s' = s).symm
        subst hu'
        subst hs'x
        have hres : try_merge a o = some (some (o, writeA a o ⟨s * 2, true⟩)) := by
          unfold try_merge
          rw [hhd]
          simp only []
          rw [if_neg hz]
          simp only [hm2]
          rw [if_neg hz2, if_pos (by simp only [beq_iff_eq]; omega)]
          rw [if_neg hend]
          rw [hhdb]
          simp only []
          rw [if_neg hmg]
        have hrdw : ∀ x, rdA (writeA a o ⟨s * 2, true⟩) x =
            if o = x then some (s * 2, true) else rdA a x := by
          intro x
          rw [rdA_writeA]
        have hccp : chain a.total (o + s * 2) post2 := by
          have hx : chain a.total (o + s + s) post2 := hcc.2.2
          have hy : o + s + s = o + s * 2 := by omega
          rwa [hy] at hx
        have hwm : walkA (writeA a o ⟨s * 2, true⟩) =
            some (pre ++ (o, s * 2, true) :: post2) := by
          apply walkA_eq_iff.mpr
          constructor
          · apply chain_append_iff.mpr
            refine ⟨o, hcp, rfl, by show 0 < s * 2; omega, ?_⟩
            show chain (writeA a o ⟨s * 2, true⟩).total (o + s * 2) post2
            have hx : (writeA a o ⟨s * 2, true⟩).total = a.total := rfl
            rw [hx]
            exact hccp
          · intro e he
            rcases List.mem_append.mp he with hp | hp
            · have hb := chain_mem hcp e hp
              rw [hrdw, if_neg (by omega)]
              exact (walkA_eq_iff.mp hw).2 e (by simp [hp])
            · rcases List.mem_cons.mp hp with rfl | hp
              · rw [hrdw, if_pos rfl]
              · have hb := chain_mem hccp e hp
                rw [hrdw, if_neg (by omega)]
                exact (walkA_eq_iff.mp hw).2 e (by simp [hp])
        have hentsm : entsOk (pre ++ (o, s * 2, true) :: post2) := by
          intro e he
          rcases List.mem_append.mp he with hp | hp
          · exact hents e (by simp [hp])
          · rcases List.mem_cons.mp hp with rfl | hp
            · have hk1 : ks + 1 ≤ K := by
                have h1 : o + s * 2 ≤ a.total := chain_le hccp
                have h2 : (2:Nat) ^ (ks + 1) ≤ 2 ^ K := by
                  rw [pow_succ, ← hspow, ← htK]
                  omega
                exact (Nat.pow_le_pow_iff_right (by omega)).mp h2
              refine ⟨⟨ks + 1, by omega, by rw [pow_succ, ← hspow]⟩, by show 32 ≤ s * 2; omega, hal⟩
            · exact hents e (by simp [hp])
        refine ⟨some (o, writeA a o ⟨s * 2, true⟩), hres, ?_⟩
        intro pr hpr
        obtain rfl : (o, writeA a o ⟨s * 2, true⟩) = pr := by simpa using hpr
        exact ⟨pre, post2, rfl, hwm, hentsm⟩
  · -- right member
    have hodd : o % (s * 2) = s := by
      rcases mod_double_cases (by omega : 0 < s) hoa with hx | hx
      · exact absurd hx hal
      · exact hx
    have hso : s ≤ o := by
      have hx : o % (s * 2) ≤ o := Nat.mod_le o (s * 2)
      omega
    have hblt : ¬(o < s) := by omega
    have hbend : ¬(a.total ≤ o - s) := by
      have : o < a.total := by omega
      omega
    obtain ⟨e, he, he1, hesz⟩ :=
      left_neighbor_boundary hcp
        (fun e' he' => hents e' (by simp [he']))
        hspow (by omega) hoa hso hodd
    obtain ⟨e1, es, eu⟩ := e
    have he1' : e1 = o - s := he1
    subst he1'
    have hesz' : es ≤ s := hesz
    have hhdb : hdrA a (o - s) = some ⟨es, eu⟩ :=
      hdrA_of_rdA ((walkA_eq_iff.mp hw).2 (o - s, es, eu) (by simp [he]))
    by_cases hmg : (!eu || es != s) = true
    · refine ⟨none, ?_, ?_⟩
      · unfold try_merge
        rw [hhd]
        simp only []
        rw [if_neg hz]
        simp only [hm2]
        rw [if_neg hz2, if_neg (by simp only [beq_iff_eq]; omega)]
        rw [if_neg hblt, if_neg hbend]
        rw [hhdb]
        simp only []
        rw [if_pos hmg]
      · intro pr hpr
        exact absurd hpr (by simp)
    · have heu : eu = true := by
        rcases Bool.eq_false_or_eq_true eu with hx | hx
        · exact hx
        · exfalso; apply hmg; simp [hx]
      have hesx : s = es := by
        rcases Bool.eq_false_or_eq_true (es != s) with hx | hx
        · exfalso; apply hmg; simp [hx]
        · exact (by simpa using hx : es = s).symm
      subst heu
      subst hesx
      obtain ⟨pre1, hpre1⟩ :=
        chain_last hcp (o - s, s, true) he (by show o - s + s = o; omega)
      have hres : try_merge a o = some (some (o - s, writeA a (o - s) ⟨s * 2, true⟩)) := by
        unfold try_merge
        rw [hhd]
        simp only []
        rw [if_neg hz]
        simp only [hm2]
        rw [if_neg hz2, if_neg (by simp only [beq_iff_eq]; omega)]
        rw [if_neg hblt, if_neg hbend]
        rw [hhdb]
        simp only []
        rw [if_neg hmg]
      have hrdw : ∀ x, rdA (writeA a (o - s) ⟨s * 2, true⟩) x =
          if o - s = x then some (s * 2, true) else rdA a x := by
        intro x
        rw [rdA_writeA]
      obtain ⟨m, hcm1, hcm2⟩ := chain_append_iff.mp (hpre1 ▸ hcp)
      have hmos : m = o - s := hcm2.1.symm
      subst hmos
      have hcpre1 : chain (o - s) 0 pre1 := hcm1
      have hccp : chain a.total (o - s + s * 2) post := by
        have hx : o - s + s * 2 = o + s := by omega
        rw [hx]
        exact hcc
      have hwm : walkA (writeA a (o - s) ⟨s * 2, true⟩) =
          some (pre1 ++ (o - s, s * 2, true) :: post) := by
        apply walkA_eq_iff.mpr
        constructor
        · apply chain_append_iff.mpr
          refine ⟨o - s, hcpre1, rfl, by show 0 < s * 2; omega, ?_⟩
          show chain (writeA a (o - s) ⟨s * 2, true⟩).total (o - s + s * 2) post
          have hx : (writeA a (o - s) ⟨s * 2, true⟩).total = a.total := rfl
          rw [hx]
          exact hccp
        · intro e2 he2
          rcases List.mem_append.mp he2 with hp | hp
          · have hb := chain_mem hcpre1 e2 hp
            rw [hrdw, if_neg (by omega)]
            apply (walkA_eq_iff.mp hw).2 e2
            rw [hpre1]
            simp [hp]
          · rcases List.mem_cons.mp hp with rfl | hp
            · rw [hrdw, if_pos rfl]
            · have hb := chain_mem hcc e2 hp
              rw [hrdw, if_neg (by omega)]
              exact (walkA_eq_iff.mp hw).2 e2 (by simp [hp])
      have hentsm : entsOk (pre1 ++ (o - s, s * 2, true) :: post) := by
        intro e2 he2
        rcases List.mem_append.mp he2 with hp | hp
        · apply hents e2
          rw [hpre1]
          simp [hp]
        · rcases List.mem_cons.mp hp with rfl | hp
          · have hk1 : ks + 1 ≤ K := by
              have h1 : o - s + s * 2 ≤ a.total := chain_le hccp
              have h2 : (2:Nat) ^ (ks + 1) ≤ 2 ^ K := by
                rw [pow_succ, ← hspow, ← htK]
                omega
              exact (Nat.pow_le_pow_iff_right (by omega)).mp h2
            refine ⟨⟨ks + 1, by omega, by rw [pow_succ, ← hspow]⟩, by show 32 ≤ s * 2; omega, ?_⟩
            show (o - s) % (s * 2) = 0
            have hdm := Nat.div_add_mod o (s * 2)
            have hx : o - s = s * 2 * (o / (s * 2)) := by omega
            rw [hx]
            exact Nat.mul_mod_right _ _
          · exact hents e2 (by simp [hp])
      refine ⟨some (o - s, writeA a (o - s) ⟨s * 2, true⟩), hres, ?_⟩
      intro pr hpr
      obtain rfl : (o - s, writeA a (o - s) ⟨s * 2, true⟩) = pr := by simpa using hpr
      exact ⟨pre1, post, rfl, hwm, hentsm⟩

/-- The coalescing loop of `buddy_free` terminates on a valid arena: each
merge doubles the candidate size, which is bounded by the region size, and
the region stays exactly tiled throughout. -/
lemma buddy_free_loop_spec : ∀ (f : Nat) (a : Arena) (pre post : List (Nat × Nat × Bool))
    (o s ks K : Nat) (u : Bool),
    walkA a = some (pre ++ (o, s, u) :: post) →
    entsOk (pre ++ (o, s, u) :: post) →
    a.total = 2 ^ K → K ≤ 62 → s = 2 ^ ks →
    K - ks + 1 ≤ f →
    ∃ a', buddy_free_loop f a o = some a' ∧ a'.total = a.total ∧
      ∃ bs', walkA a' = some bs' ∧ entsOk bs' := by
  intro f
  induction f with
  | zero => intro a pre post o s ks K u _ _ _ _ _ hf; omega
  | succ f ih =>
    intro a pre post o s ks K u hw hents htK hK64 hspow hf
    obtain ⟨res, htm, hsucc⟩ := try_merge_spec hw hents htK hK64 hspow
    cases res with
    | none =>
      refine ⟨a, ?_, rfl, pre ++ (o, s, u) :: post, hw, hents⟩
      conv_lhs => rw [buddy_free_loop]
      rw [htm]
    | some pr =>
      obtain ⟨o2, a2⟩ := pr
      obtain ⟨pre2, post2, htot2, hw2, hents2⟩ := hsucc (o2, a2) rfl
      have hk1 : ks + 1 ≤ K := by
        have hx := chain_mem (walkA_eq_iff.mp hw2).1 (o2, s * 2, true) (by simp)
        have hy : o2 + s * 2 ≤ a2.total := hx.2.1
        rw [htot2] at hy
        have h2 : (2:Nat) ^ (ks + 1) ≤ 2 ^ K := by
          rw [pow_succ, ← hspow, ← htK]
          omega
        exact (Nat.pow_le_pow_iff_right (by omega)).mp h2
      obtain ⟨a', hrun, htot', hbs'⟩ :=
        ih a2 pre2 post2 o2 (s * 2) (ks + 1) K true hw2 hents2 (by rw [htot2]; exact htK)
          hK64 (by rw [pow_succ, ← hspow]) (by omega)
      refine ⟨a', ?_, by rw [htot', htot2], hbs'⟩
      conv_lhs => rw [buddy_free_loop]
      rw [htm]
      simp only []
      exact hrun

/-- `buddy_free` on the payload of any block of a valid arena returns,
and the arena remains exactly tiled. -/
lemma buddy_free_spec {a : Arena} {pre post : List (Nat × Nat × Bool)} {o s ks K : Nat}
    {u : Bool}
    (hw : walkA a = some (pre ++ (o, s, u) :: post))
    (hents : entsOk (pre ++ (o, s, u) :: post))
    (htK : a.total = 2 ^ K) (hK64 : K ≤ 62) (hspow : s = 2 ^ ks) :
    ∃ a', buddy_free a (o + BLOCK_MEM_OFFSET) = some a' ∧ a'.total = a.total ∧
      ∃ bs', walkA a' = some bs' ∧ entsOk bs' := by
  have hfp : o + BLOCK_MEM_OFFSET - BLOCK_MEM_OFFSET = o := by omega
  have hfuel : K - ks + 1 ≤ a.total + 2 := by
    have h1 : K < 2 ^ K := Nat.lt_two_pow _
    rw [htK]
    omega
  obtain ⟨a', hrun, htot', hbs'⟩ :=
    buddy_free_loop_spec (a.total + 2) a pre post o s ks K u hw hents htK hK64 hspow hfuel
  refine ⟨a', ?_, htot', hbs'⟩
  unfold buddy_free
  rw [hfp]
  exact hrun

/- Helper facts and concrete states for the claim theorems. -/

lemma pow2_le_64 {t K : Nat} (ht : t = 2 ^ K) (hle : t ≤ W64) : K ≤ 64 := by
  rw [ht] at hle
  have hx : (2:Nat) ^ K ≤ 2 ^ 64 := hle
  exact (Nat.pow_le_pow_iff_right (by omega)).mp hx

lemma hok_dataset (h : Heap) (d : Nat → Nat) : hok { h with data := d } = hok h := rfl

/-- `bcalloc` on a valid state completes and preserves the region
invariant: a wrapped-to-zero product short-circuits in `balloc`, any other
product allocates and the `memset` touches only payload bytes. -/
lemma bcalloc_spec {h : Heap} {bs : List (Nat × Nat × Bool)} {ni sz K : Nat}
    (hinit : h.isInit = true)
    (hw : walkH h = some bs) (hents : entsOk bs) (htK : h.total = 2 ^ K)
    (h32 : 32 ≤ h.total) (hsum : h.total + h.brk ≤ W64)
    (hne : ∃ e ∈ bs, e.1 = h.nxt)
    (hprod : (ni * sz) % W64 + MEMOFFSET ≤ 2 ^ 63) :
    ∃ r h', bcalloc h ni sz = some (r, h') ∧ hok h' = true := by
  have hK64 : K ≤ 64 := pow2_le_64 htK (by omega)
  by_cases h0 : (ni * sz) % W64 = 0
  · have hcond : (((ni * sz) % W64) == 0) = true := by simp [h0]
    have hball : balloc h ((ni * sz) % W64) = some (none, h) := by
      unfold balloc
      rw [if_pos hinit]
      simp only []
      rw [if_pos hcond]
    have hbc : bcalloc h ni sz = some (none, h) := by
      unfold bcalloc
      simp only [hball]
    exact ⟨none, h, hbc, hok_of_walk hw hents htK hK64 h32⟩
  · have hsz' : 1 ≤ (ni * sz) % W64 := by omega
    obtain ⟨r, h', hball, hl, hi, hsumq, htle, ⟨K', hK'⟩, ⟨bs', hw', hents', hcur⟩, hnone,
        hsome, hdataq, hhdrq⟩ :=
      balloc_spec hinit hw hents htK h32 hsum hne hsz' hprod
    have hok' : hok h' = true :=
      hok_of_walk hw' hents' hK' (pow2_le_64 hK' (by omega)) (by omega)
    cases r with
    | none =>
      have hbc : bcalloc h ni sz = some (none, h') := by
        unfold bcalloc
        simp only [hball]
      exact ⟨none, h', hbc, hok'⟩
    | some q =>
      refine ⟨some q, { h' with data := dfill h'.data q ((ni * sz) % W64) 0 }, ?_, ?_⟩
      · unfold bcalloc
        simp only [hball]
      · rw [hok_dataset]
        exact hok'

/-- A valid heap whose single block is allocated. -/
def HeapT : Heap :=
  { mem := [(0, ⟨64, true⟩)], total := 64, nxt := 0, brk := 0, lock := 0,
    isInit := true, data := fun _ => 0 }

/-- A valid heap whose single block is free. -/
def HeapF : Heap :=
  { mem := [(0, ⟨64, false⟩)], total := 64, nxt := 0, brk := 0, lock := 0,
    isInit := true, data := fun _ => 0 }

/-- A valid heap of two allocated blocks: relocating either block fails
for lack of break budget. -/
def HeapC5 : Heap :=
  { mem := [(32, ⟨32, true⟩), (0, ⟨32, true⟩)], total := 64, nxt := 0, brk := 0,
    lock := 0, isInit := true, data := fun _ => 0 }

/-- A valid arena whose single block is allocated (`free = false`). -/
def ArenaT : Arena := { mem := [(0, ⟨64, false⟩)], total := 64 }

/-- A valid arena whose single block is free. -/
def ArenaF : Arena := { mem := [(0, ⟨64, true⟩)], total := 64 }

/-- A valid heap whose single block spans `2 ^ 63` bytes and is allocated:
freeing it makes `join` compute `offset % (size * 2)` with the modulus
wrapped to zero on a 64-bit `size_t`. -/
def HeapBig : Heap :=
  { mem := [(0, ⟨2 ^ 63, true⟩)], total := 2 ^ 63, nxt := 0, brk := 0, lock := 0,
    isInit := true, data := fun _ => 0 }

/-- The same `2 ^ 63`-byte region with its block free. -/
def HeapBigF : Heap :=
  { mem := [(0, ⟨2 ^ 63, false⟩)], total := 2 ^ 63, nxt := 0, brk := 0, lock := 0,
    isInit := true, data := fun _ => 0 }

/-- A valid arena whose single `2 ^ 63`-byte block is allocated. -/
def ArenaBig : Arena := { mem := [(0, ⟨2 ^ 63, false⟩)], total := 2 ^ 63 }

/-- Two 32-byte blocks, the first allocated: the saturating `brealloc`
request wraps the absorption commit test. -/
def HeapC4abs : Heap :=
  { mem := [(0, ⟨32, true⟩), (32, ⟨32, false⟩)], total := 64, nxt := 0, brk := 0,
    lock := 0, isInit := true, data := fun _ => 0 }

/-- Claim C10, counterexample to the original claim at exponent 63: at a
`2 ^ 63`-byte block the doubled modulus `size * 2` wraps to zero on a
64-bit `size_t`, so C evaluates `offset % 0` and faults — modelled as
`none` — in both the heap variant's `join` and the arena variant's
`try_merge`. -/
theorem C10_counterexample_fault_at_2pow63 :
    walkH HeapBig = some [(0, 2 ^ 63, true)] ∧
    entsOk [(0, 2 ^ 63, true)] ∧
    HeapBig.total = 2 ^ 63 ∧
    bfree HeapBig (0 + MEMOFFSET) = none ∧
    walkA ArenaBig = some [(0, 2 ^ 63, false)] ∧
    entsOk [(0, 2 ^ 63, false)] ∧
    ArenaBig.total = 2 ^ 63 ∧
    buddy_free ArenaBig (0 + BLOCK_MEM_OFFSET) = none := by
  refine ⟨rfl, ?_, rfl, rfl, rfl, ?_, rfl, rfl⟩
  · intro e he
    simp only [List.mem_singleton] at he
    subst he
    exact ⟨⟨63, by norm_num, rfl⟩, by norm_num, by norm_num⟩
  · intro e he
    simp only [List.mem_singleton] at he
    subst he
    exact ⟨⟨63, by norm_num, rfl⟩, by norm_num, by norm_num⟩

/-- Claim C10 (corrected: region exponents limited to 62 — at a `2 ^ 63`
block both variants wrap `size * 2` to zero and fault on the modulus): on
any region of at most `2 ^ 62` bytes satisfying the tiling and
power-of-two-size invariants, the coalescing loop of `free` terminates —
`bfree`'s `join` loop (heap variant) and the `try_merge` loop of
`buddy_free` (arena variant) each double the candidate size, which is
bounded by the region size, so both calls return. -/
theorem C10_free_coalescing_terminates :
    (∀ (h : Heap) (pre post : List (Nat × Nat × Bool)) (o s : Nat) (u : Bool) (K : Nat),
      walkH h = some (pre ++ (o, s, u) :: post) →
      entsOk (pre ++ (o, s, u) :: post) →
      h.total = 2 ^ K → K ≤ 62 →
      ∃ h', bfree h (o + MEMOFFSET) = some h') ∧
    (∀ (a : Arena) (pre post : List (Nat × Nat × Bool)) (o s : Nat) (u : Bool) (K : Nat),
      walkA a = some (pre ++ (o, s, u) :: post) →
      entsOk (pre ++ (o, s, u) :: post) →
      a.total = 2 ^ K → K ≤ 62 →
      ∃ a', buddy_free a (o + BLOCK_MEM_OFFSET) = some a') := by
  constructor
  · intro h pre post o s u K hw hents htK hK62
    obtain ⟨h', ro, rs, kr, pre', lext, rext, post', hrun, -⟩ :=
      bfree_spec hw rfl hents htK hK62
    exact ⟨h', hrun⟩
  · intro a pre post o s u K hw hents htK hK62
    obtain ⟨⟨ks, hks, hspow⟩, -, -⟩ := hents (o, s, u) (by simp)
    have hspow' : s = 2 ^ ks := hspow
    obtain ⟨a', hrun, -⟩ := buddy_free_spec hw hents htK hK62 hspow'
    exact ⟨a', hrun⟩

/-- Claim C10, witness: freeing the single block of a concrete heap and of
a concrete arena both return. -/
theorem C10_witness :
    (∃ h', bfree HeapT (0 + MEMOFFSET) = some h') ∧
    (∃ a', buddy_free ArenaT (0 + BLOCK_MEM_OFFSET) = some a') := by
  constructor
  · exact C10_free_coalescing_terminates.1 HeapT [] [] 0 64 true 6 rfl
      (by
        intro e he
        simp only [List.nil_append, List.mem_singleton] at he
        subst he
        exact ⟨⟨6, by decide, by decide⟩, by decide, by decide⟩)
      rfl (by decide)
  · exact C10_free_coalescing_terminates.2 ArenaT [] [] 0 64 false 6 rfl
      (by
        intro e he
        simp only [List.nil_append, List.mem_singleton] at he
        subst he
        exact ⟨⟨6, by decide, by decide⟩, by decide, by decide⟩)
      rfl (by decide)

/-- Claim C5: if the relocation path of `brealloc` fails in its internal
`balloc`, the call returns `NULL`, the original block's header again
carries its original size and the used mark, the lock is balanced, and the
region still satisfies the tiling and power-of-two invariants — even
though the internal `bfree` may have coalesced the block with free
buddies. -/
theorem C5_relocation_failure_restores_block :
    ∀ (h : Heap) (pre post : List (Nat × Nat × Bool)) (o s size K : Nat),
      h.isInit = true →
      walkH h = some (pre ++ (o, s, true) :: post) →
      entsOk (pre ++ (o, s, true) :: post) →
      h.total = 2 ^ K → 32 ≤ h.total → h.total + h.brk ≤ W64 →
      (∃ e ∈ pre ++ (o, s, true) :: post, e.1 = h.nxt) → 1 ≤ size →
      ∀ h', brealloc h (o + MEMOFFSET) size = some (none, h') →
        hok h' = true ∧ h'.lock = h.lock ∧ hdr h' o = some ⟨s, true⟩ := by
  intro h pre post o s size K hinit hw hents htK h32 hsum hne hsz h' hbre
  obtain ⟨hh, hl, -, hres⟩ := brealloc_live hinit hw hents htK h32 hsum hne hsz none h' hbre
  exact ⟨hh, hl, hres rfl⟩

/-- Claim C5, witness: on a concrete heap of two allocated 32-byte blocks
with no break budget, `brealloc(payload 0, 100)` must relocate, the inner
`balloc` fails, and the call restores the header `(32, used)` at offset 0,
returns `NULL`, balances the lock, and leaves a valid region. -/
theorem C5_witness :
    hok ((brealloc HeapC5 16 100).getD (none, HeapC5)).2 = true ∧
    ((brealloc HeapC5 16 100).getD (none, HeapC5)).2.lock = HeapC5.lock ∧
    hdr ((brealloc HeapC5 16 100).getD (none, HeapC5)).2 0 = some ⟨32, true⟩ :=
  C5_relocation_failure_restores_block HeapC5 [] [(32, 32, true)] 0 32 100 6 rfl rfl
    (by
      intro e he
      simp only [List.nil_append, List.mem_cons, List.not_mem_nil, or_false] at he
      rcases he with rfl | rfl
      · exact ⟨⟨5, by decide, by decide⟩, by decide, by decide⟩
      · exact ⟨⟨5, by decide, by decide⟩, by decide, by decide⟩)
    rfl (by decide) (by decide) ⟨(0, 32, true), by simp, rfl⟩ (by decide)
    ((brealloc HeapC5 16 100).getD (none, HeapC5)).2 rfl

/-- Claim C3, counterexample to the original claim: freeing the single
(free) `2 ^ 63`-byte block of a valid region does not complete — `join`
evaluates the modulus with `size * 2` wrapped to zero and faults,
modelled as `none`. -/
theorem C3_counterexample_bfree_fault :
    walkH HeapBigF = some [(0, 2 ^ 63, false)] ∧
    entsOk [(0, 2 ^ 63, false)] ∧
    HeapBigF.total = 2 ^ 63 ∧
    bfree HeapBigF (0 + MEMOFFSET) = none := by
  refine ⟨rfl, ?_, rfl, rfl⟩
  intro e he
  simp only [List.mem_singleton] at he
  subst he
  exact ⟨⟨63, by norm_num, rfl⟩, by norm_num, by norm_num⟩

/-- Claim C3 (corrected: the completion conjuncts are bounded away from
the 64-bit wrap — allocation requests stay below `2 ^ 63 - 16` and the
freeing calls run on regions of at most `2 ^ 62` bytes; beyond those
bounds C's doubling loops diverge or fault): every public call of either
variant — `balloc`, `bfree`, `bcalloc`, `brealloc` on a live block,
`buddy_alloc`, `buddy_free` — run from a region whose walk tiles
`[start, end)` exactly with valid blocks, completes with the region again
tiled exactly (walking from `start` by successive sizes lands only on
headers and yields exactly `end`), the heap variant's growth path and
`split` included. -/
theorem C3_public_calls_preserve_tiling :
    (∀ (h : Heap) (bs : List (Nat × Nat × Bool)) (size K : Nat),
      h.isInit = true → walkH h = some bs → entsOk bs → h.total = 2 ^ K →
      32 ≤ h.total → h.total + h.brk ≤ W64 → (∃ e ∈ bs, e.1 = h.nxt) → 1 ≤ size →
      size + MEMOFFSET ≤ 2 ^ 63 →
      ∃ r h', balloc h size = some (r, h') ∧ hok h' = true) ∧
    (∀ (h : Heap) (pre post : List (Nat × Nat × Bool)) (o s : Nat) (u : Bool) (K : Nat),
      walkH h = some (pre ++ (o, s, u) :: post) → entsOk (pre ++ (o, s, u) :: post) →
      h.total = 2 ^ K → K ≤ 62 →
      ∃ h', bfree h (o + MEMOFFSET) = some h' ∧ hok h' = true) ∧
    (∀ (h : Heap) (bs : List (Nat × Nat × Bool)) (ni sz K : Nat),
      h.isInit = true → walkH h = some bs → entsOk bs → h.total = 2 ^ K →
      32 ≤ h.total → h.total + h.brk ≤ W64 → (∃ e ∈ bs, e.1 = h.nxt) →
      (ni * sz) % W64 + MEMOFFSET ≤ 2 ^ 63 →
      ∃ r h', bcalloc h ni sz = some (r, h') ∧ hok h' = true) ∧
    (∀ (h : Heap) (pre post : List (Nat × Nat × Bool)) (o s size K : Nat),
      h.isInit = true → walkH h = some (pre ++ (o, s, true) :: post) →
      entsOk (pre ++ (o, s, true) :: post) → h.total = 2 ^ K →
      32 ≤ h.total → h.total + h.brk ≤ W64 →
      (∃ e ∈ pre ++ (o, s, true) :: post, e.1 = h.nxt) → 1 ≤ size →
      ∀ r h', brealloc h (o + MEMOFFSET) size = some (r, h') → hok h' = true) ∧
    (∀ (a : Arena) (bs : List (Nat × Nat × Bool)) (size K : Nat),
      walkA a = some bs → entsOk bs → a.total = 2 ^ K → 32 ≤ a.total → K ≤ 64 →
      1 ≤ size →
      ∃ r a', buddy_alloc a size = some (r, a') ∧ aok a' = true) ∧
    (∀ (a : Arena) (pre post : List (Nat × Nat × Bool)) (o s : Nat) (u : Bool) (K : Nat),
      walkA a = some (pre ++ (o, s, u) :: post) → entsOk (pre ++ (o, s, u) :: post) →
      a.total = 2 ^ K → K ≤ 62 →
      ∃ a', buddy_free a (o + BLOCK_MEM_OFFSET) = some a' ∧ aok a' = true) := by
  refine ⟨?_, ?_, ?_, ?_, ?_, ?_⟩
  · intro h bs size K hinit hw hents htK h32 hsum hne hsz hszB
    obtain ⟨r, h', hball, hl, hi, hsumq, htle, ⟨K', hK'⟩, ⟨bs', hw', hents', hcur⟩, -, -⟩ :=
      balloc_spec hinit hw hents htK h32 hsum hne hsz hszB
    exact ⟨r, h', hball, hok_of_walk hw' hents' hK' (pow2_le_64 hK' (by omega)) (by omega)⟩
  · intro h pre post o s u K hw hents htK hK62
    obtain ⟨h', ro, rs, kr, pre', lext, rext, post', hrun, hpre, hpost, hw', hcp, hcl, hcr,
      hrsk, hkr64, hroal, hsle, hrs32, hents', hht, hnx, hbrk, hlk, hii, hhdr, hdata⟩ :=
      bfree_spec hw rfl hents htK hK62
    have h32s : 32 ≤ s := (hents (o, s, u) (by simp)).2.1
    have hos : o + s ≤ h.total := (chain_mem (walkH_eq_iff.mp hw).1 (o, s, u) (by simp)).2.1
    refine ⟨h', hrun, hok_of_walk hw' hents' ?_ (show K ≤ 64 by omega) ?_⟩
    · rw [hht, htK]
    · rw [hht]; omega
  · intro h bs ni sz K hinit hw hents htK h32 hsum hne hprod
    exact bcalloc_spec hinit hw hents htK h32 hsum hne hprod
  · intro h pre post o s size K hinit hw hents htK h32 hsum hne hsz r h' hbre
    exact (brealloc_live hinit hw hents htK h32 hsum hne hsz r h' hbre).1
  · intro a bs size K hw hents htK h32 hK64 hsz
    obtain ⟨r, a', hrun, haok, -, -⟩ := buddy_alloc_spec hw hents htK h32 hK64 hsz
    exact ⟨r, a', hrun, haok⟩
  · intro a pre post o s u K hw hents htK hK62
    obtain ⟨⟨ks, hks, hspow⟩, h32e, -⟩ := hents (o, s, u) (by simp)
    have hspow' : s = 2 ^ ks := hspow
    have h32s : 32 ≤ s := h32e
    have hos : o + s ≤ a.total := (chain_mem (walkA_eq_iff.mp hw).1 (o, s, u) (by simp)).2.1
    obtain ⟨a', hrun, hht, bs', hw', hents'⟩ := buddy_free_spec hw hents htK hK62 hspow'
    refine ⟨a', hrun, aok_of_walk hw' hents' ?_ (show K ≤ 64 by omega) ?_⟩
    · rw [hht, htK]
    · rw [hht]; omega

/-- Claim C3, witness: each of the six calls, run on a concrete valid
state, completes with the region invariant intact. -/
theorem C3_witness :
    (∃ r h', balloc HeapF 8 = some (r, h') ∧ hok h' = true) ∧
    (∃ h', bfree HeapT (0 + MEMOFFSET) = some h' ∧ hok h' = true) ∧
    (∃ r h', bcalloc HeapF 2 4 = some (r, h') ∧ hok h' = true) ∧
    hok ((brealloc HeapT 16 8).getD (none, HeapT)).2 = true ∧
    (∃ r a', buddy_alloc ArenaF 8 = some (r, a') ∧ aok a' = true) ∧
    (∃ a', buddy_free ArenaT (0 + BLOCK_MEM_OFFSET) = some a' ∧ aok a' = true) := by
  refine ⟨?_, ?_, ?_, ?_, ?_, ?_⟩
  · exact C3_public_calls_preserve_tiling.1 HeapF [(0, 64, false)] 8 6 rfl rfl
      (by
        intro e he
        simp only [List.mem_singleton] at he
        subst he
        exact ⟨⟨6, by decide, by decide⟩, by decide, by decide⟩)
      rfl (by decide) (by decide) ⟨(0, 64, false), by simp, rfl⟩ (by decide) (by decide)
  · exact C3_public_calls_preserve_tiling.2.1 HeapT [] [] 0 64 true 6 rfl
      (by
        intro e he
        simp only [List.nil_append, List.mem_singleton] at he
        subst he
        exact ⟨⟨6, by decide, by decide⟩, by decide, by decide⟩)
      rfl (by decide)
  · exact C3_public_calls_preserve_tiling.2.2.1 HeapF [(0, 64, false)] 2 4 6 rfl rfl
      (by
        intro e he
        simp only [List.mem_singleton] at he
        subst he
        exact ⟨⟨6, by decide, by decide⟩, by decide, by decide⟩)
      rfl (by decide) (by decide) ⟨(0, 64, false), by simp, rfl⟩ (by decide)
  · exact C3_public_calls_preserve_tiling.2.2.2.1 HeapT [] [] 0 64 8 6 rfl rfl
      (by
        intro e he
        simp only [List.nil_append, List.mem_singleton] at he
        subst he
        exact ⟨⟨6, by decide, by decide⟩, by decide, by decide⟩)
      rfl (by decide) (by decide) ⟨(0, 64, true), by simp, rfl⟩ (by decide)
      ((brealloc HeapT 16 8).getD (none, HeapT)).1
      ((brealloc HeapT 16 8).getD (none, HeapT)).2 rfl
  · exact C3_public_calls_preserve_tiling.2.2.2.2.1 ArenaF [(0, 64, true)] 8 6 rfl
      (by
        intro e he
        simp only [List.mem_singleton] at he
        subst he
        exact ⟨⟨6, by decide, by decide⟩, by decide, by decide⟩)
      rfl (by decide) (by decide) (by decide)
  · exact C3_public_calls_preserve_tiling.2.2.2.2.2 ArenaT [] [] 0 64 false 6 rfl
      (by
        intro e he
        simp only [List.nil_append, List.mem_singleton] at he
        subst he
        exact ⟨⟨6, by decide, by decide⟩, by decide, by decide⟩)
      rfl (by decide)

/- Correctness of the relocation copy loops. -/

lemma dwrite_at (d : Nat → Nat) (a v : Nat) : dwrite d a v a = v := by
  unfold dwrite
  rw [if_pos rfl]

lemma dwrite_ne {d : Nat → Nat} {a v x : Nat} (hx : x ≠ a) : dwrite d a v x = d x := by
  unfold dwrite
  rw [if_neg hx]

lemma copyFwd_outside : ∀ (n : Nat) (d : Nat → Nat) (src dst x : Nat),
    x < dst ∨ dst + n ≤ x → copyFwd d src dst n x = d x := by
  intro n
  induction n with
  | zero => intro d src dst x _; rfl
  | succ n ih =>
    intro d src dst x hx
    show copyFwd (dwrite d dst (d src)) (src + 1) (dst + 1) n x = d x
    rw [ih (dwrite d dst (d src)) (src + 1) (dst + 1) x (by omega)]
    exact dwrite_ne (by omega)

/-- Forward copy with `dst ≤ src` moves each of the `n` source bytes
intact, even when the ranges overlap. -/
lemma copyFwd_eq : ∀ (n : Nat) (d : Nat → Nat) (src dst : Nat), dst ≤ src →
    ∀ i, i < n → copyFwd d src dst n (dst + i) = d (src + i) := by
  intro n
  induction n with
  | zero => intro d src dst _ i hi; omega
  | succ n ih =>
    intro d src dst hds i hi
    show copyFwd (dwrite d dst (d src)) (src + 1) (dst + 1) n (dst + i) = d (src + i)
    cases i with
    | zero =>
      rw [copyFwd_outside n _ (src + 1) (dst + 1) (dst + 0) (by omega)]
      show dwrite d dst (d src) dst = d src
      exact dwrite_at d dst (d src)
    | succ j =>
      have harr : dst + (j + 1) = (dst + 1) + j := by omega
      rw [harr, ih (dwrite d dst (d src)) (src + 1) (dst + 1) (by omega) j (by omega)]
      rw [show (src + 1) + j = src + (j + 1) by omega]
      exact dwrite_ne (by omega)

lemma copyBwd_outside : ∀ (n : Nat) (d : Nat → Nat) (src dst x : Nat),
    x < dst ∨ dst + n ≤ x → copyBwd d src dst n x = d x := by
  intro n
  induction n with
  | zero => intro d src dst x _; rfl
  | succ n ih =>
    intro d src dst x hx
    show copyBwd (dwrite d (dst + n) (d (src + n))) src dst n x = d x
    rw [ih (dwrite d (dst + n) (d (src + n))) src dst x (by omega)]
    exact dwrite_ne (by omega)

/-- Backward copy with `src ≤ dst` moves each of the `n` source bytes
intact, even when the ranges overlap. -/
lemma copyBwd_eq : ∀ (n : Nat) (d : Nat → Nat) (src dst : Nat), src ≤ dst →
    ∀ i, i < n → copyBwd d src dst n (dst + i) = d (src + i) := by
  intro n
  induction n with
  | zero => intro d src dst _ i hi; omega
  | succ n ih =>
    intro d src dst hds i hi
    show copyBwd (dwrite d (dst + n) (d (src + n))) src dst n (dst + i) = d (src + i)
    by_cases hin : i = n
    · subst hin
      rw [copyBwd_outside i _ src dst (dst + i) (by omega)]
      exact dwrite_at d (dst + i) (d (src + i))
    · rw [ih (dwrite d (dst + n) (d (src + n))) src dst hds i (by omega)]
      exact dwrite_ne (by omega)

/-- No header write of at least the request size can land inside the
first `n` payload bytes of a live block: the write offset would be a
multiple of the block size strictly inside the block. -/
lemma payload_safe {o s ks n i k : Nat} (hoal : o % s = 0) (hspow : s = 2 ^ ks)
    (hin : i < n) (his : MEMOFFSET + i < s)
    (hk : n + MEMOFFSET ≤ 2 ^ k) (hmod : (o + MEMOFFSET + i) % 2 ^ k < MEMOFFSET) : False := by
  rcases le_or_lt (2 ^ k) s with hks | hks
  · have hdvd : 2 ^ k ∣ o :=
      dvd_trans (pow2_dvd_of_le rfl hspow hks) (Nat.dvd_of_mod_eq_zero hoal)
    obtain ⟨q, hq⟩ := hdvd
    rw [hq] at hmod
    rw [show 2 ^ k * q + MEMOFFSET + i = 2 ^ k * q + (MEMOFFSET + i) by omega,
      Nat.mul_add_mod] at hmod
    have hlt : MEMOFFSET + i < 2 ^ k := by omega
    rw [Nat.mod_eq_of_lt hlt] at hmod
    omega
  · have hsd : s ∣ 2 ^ k := pow2_dvd_of_le hspow rfl (by omega)
    set x := o + MEMOFFSET + i with hxdef
    have hq := Nat.div_add_mod x (2 ^ k)
    set w := 2 ^ k * (x / 2 ^ k) with hwdef
    have hw1 : w ≤ x := by omega
    have hw2 : x < w + MEMOFFSET := by omega
    have hsw : s ∣ w := dvd_trans hsd (dvd_mul_right _ _)
    have hso : s ∣ o := Nat.dvd_of_mod_eq_zero hoal
    have how : o < w := by omega
    have hws : w < o + s := by omega
    have hdw : s ∣ (w - o) := Nat.dvd_sub' hsw hso
    have hle : s ≤ w - o := Nat.le_of_dvd (by omega) hdw
    omega

/-- Claim C4, counterexample to the original claim: with a 64-bit
`size_t`, `brealloc(p, 2 ^ 64 - 1)` on a live 32-byte block commits the
block in place — the absorption loop compares `block_size >= BLOCKSIZE(size)`
with `BLOCKSIZE(2 ^ 64 - 1)` wrapped to 15 — and returns the old payload
address over a block of capacity far below the request. -/
theorem C4_counterexample_saturating_request :
    walkH HeapC4abs = some [(0, 32, true), (32, 32, false)] ∧
    entsOk [(0, 32, true), (32, 32, false)] ∧
    HeapC4abs.total = 2 ^ 6 ∧ 32 ≤ HeapC4abs.total ∧
    HeapC4abs.total + HeapC4abs.brk ≤ W64 ∧
    (∃ e ∈ [((0:Nat), (32:Nat), true), ((32:Nat), (32:Nat), false)], e.1 = HeapC4abs.nxt) ∧
    1 ≤ 2 ^ 64 - 1 ∧
    ∃ h', brealloc HeapC4abs (0 + MEMOFFSET) (2 ^ 64 - 1) = some (some (0 + MEMOFFSET), h') ∧
      hdr h' (0 + MEMOFFSET - MEMOFFSET) = some ⟨32, true⟩ ∧
      ¬(2 ^ 64 - 1 + MEMOFFSET ≤ 32) := by
  refine ⟨rfl, ?_, rfl, by decide, by decide, ⟨(0, 32, true), by simp, rfl⟩, by norm_num, ?_⟩
  · intro e he
    simp only [List.mem_cons, List.not_mem_nil, or_false] at he
    rcases he with rfl | rfl
    · exact ⟨⟨5, by decide, by decide⟩, by decide, by decide⟩
    · exact ⟨⟨5, by decide, by decide⟩, by decide, by decide⟩
  · have hbre : brealloc HeapC4abs (0 + MEMOFFSET) (2 ^ 64 - 1) =
        some (some (0 + MEMOFFSET),
          ((brealloc HeapC4abs (0 + MEMOFFSET) (2 ^ 64 - 1)).getD (none, HeapC4abs)).2) := rfl
    have hhd : hdr ((brealloc HeapC4abs (0 + MEMOFFSET) (2 ^ 64 - 1)).getD
          (none, HeapC4abs)).2 (0 + MEMOFFSET - MEMOFFSET) = some ⟨32, true⟩ := rfl
    exact ⟨((brealloc HeapC4abs (0 + MEMOFFSET) (2 ^ 64 - 1)).getD (none, HeapC4abs)).2,
      hbre, hhd, by decide⟩

/-- Claim C4 (corrected: requests at or beyond `2 ^ 63 - 16` excluded —
for larger `n` the absorption commit test wraps `BLOCKSIZE(n)` and C
commits an undersized block in place): when `brealloc` of a live block of
payload size `s - 16`, with `n + 16 ≤ 2 ^ 63`, returns an address, that
address heads a used block with payload capacity at least the request, and
the first `min(old payload size, n)` bytes at the returned address equal
the bytes stored at the old address before the call — on the
shrink-in-place, absorption, and relocation paths (in the last, the copy
reads each byte before any overlap overwrites it, and no split or growth
header write lands inside the protected range). -/
theorem C4_realloc_preserves_payload :
    ∀ (h : Heap) (pre post : List (Nat × Nat × Bool)) (o s size K : Nat),
      h.isInit = true →
      walkH h = some (pre ++ (o, s, true) :: post) →
      entsOk (pre ++ (o, s, true) :: post) →
      h.total = 2 ^ K → 32 ≤ h.total → h.total + h.brk ≤ W64 →
      (∃ e ∈ pre ++ (o, s, true) :: post, e.1 = h.nxt) → 1 ≤ size →
      size + MEMOFFSET ≤ 2 ^ 63 →
      ∀ q h', brealloc h (o + MEMOFFSET) size = some (some q, h') →
        (∃ t, (∃ kt, t = 2 ^ kt) ∧ size + MEMOFFSET ≤ t ∧
          hdr h' (q - MEMOFFSET) = some ⟨t, true⟩) ∧
        (∀ i, i < min (s - MEMOFFSET) size →
          h'.data (q + i) = h.data (o + MEMOFFSET + i)) := by
  intro h pre post o s size K hinit hw hents htK h32 hsum hne hsz hszB q h' hbre
  have hM : MEMOFFSET = 16 := rfl
  have hid : (size + MEMOFFSET) % W64 = size + MEMOFFSET := by
    apply Nat.mod_eq_of_lt
    have h2p : (2:Nat) ^ 63 < W64 := by norm_num [W64]
    omega
  have hK64 : K ≤ 64 := by
    have hx : (2:Nat) ^ K ≤ 2 ^ 64 := by
      rw [← htK]
      exact le_trans (by omega) (le_refl W64)
    exact (Nat.pow_le_pow_iff_right (by omega)).mp hx
  obtain ⟨hcp, hsp, hcc, hrd⟩ := walk_decomp hw
  obtain ⟨⟨ks, hks, hspowm⟩, hs32m, hoam⟩ := hents (o, s, true) (by simp)
  have hspow : s = 2 ^ ks := hspowm
  have hs32 : 32 ≤ s := hs32m
  have hoa : o % s = 0 := hoam
  have hostot : o + s ≤ h.total := by
    have := chain_mem (walkH_eq_iff.mp hw).1 (o, s, true) (by simp)
    exact this.2.1
  have hksK : ks ≤ K := by
    have hx : (2:Nat) ^ ks ≤ 2 ^ K := by rw [← hspow, ← htK]; omega
    exact (Nat.pow_le_pow_iff_right (by omega)).mp hx
  have hKlt : K < 2 ^ K := Nat.lt_two_pow _
  have hw1 : walkH { h with lock := h.lock + 1 } = some (pre ++ (o, s, true) :: post) := by
    rw [walkH_lock]; exact hw
  have hhd1 : hdr { h with lock := h.lock + 1 } o = some ⟨s, true⟩ := hdr_of_rdH hrd
  unfold brealloc at hbre
  rw [show ((o + MEMOFFSET == 0)) = false from by
    simp only [beq_eq_false_iff_ne, ne_eq]
    omega] at hbre
  simp only [Bool.false_eq_true, if_false] at hbre
  rw [show ((size == 0)) = false from by
    simp only [beq_eq_false_iff_ne, ne_eq]
    omega] at hbre
  simp only [Bool.false_eq_true, if_false] at hbre
  rw [show o + MEMOFFSET - MEMOFFSET = o from by omega] at hbre
  rw [hhd1] at hbre
  simp only [] at hbre
  have hsub64 : sub64 s MEMOFFSET = s - MEMOFFSET := by
    apply sub64_eq
    · omega
    · have hW0 : 0 < W64 := by norm_num [W64]
      omega
  by_cases hshr : sub64 s MEMOFFSET ≥ size
  · -- shrink in place
    rw [if_pos hshr] at hbre
    obtain ⟨t, kt, j, h2, hrun, hktpow, ht32, htles, hsj, hw2, hents2, hmin, hsuf,
      he1, he2, he3, he4, he5⟩ :=
      shrinkLoop_spec (h.total + 2) { h with lock := h.lock + 1 } pre post o s ks size true
        hw1 hents hspow hs32 hsz (by show h.total ≤ W64; omega) (by omega)
    rw [hrun] at hbre
    simp only [] at hbre
    have hhd2 : hdr h2 o = some ⟨t, true⟩ := by
      apply hdr_of_rdH
      exact (walkH_eq_iff.mp hw2).2 (o, t, true) (by simp)
    rw [hhd2] at hbre
    simp only [] at hbre
    injection hbre with hpair
    injection hpair with hr hh'
    injection hr with hq
    subst hq
    subst hh'
    have hst : size + MEMOFFSET ≤ t := by
      apply hsuf
      rw [hsub64] at hshr
      omega
    have heff := shrinkLoop_effects (h.total + 2) { h with lock := h.lock + 1 } o size h2
      ⟨s, true⟩ hrun hhd1 (by show o % s = 0; exact hoa) ⟨ks, hspow⟩
      (by show 32 ≤ s; exact hs32) (by show s ≤ W64; omega) hsz
    constructor
    · refine ⟨t, ⟨kt, hktpow⟩, hst, ?_⟩
      rw [show o + MEMOFFSET - MEMOFFSET = o from by omega]
      show hdr h2 o = some ⟨t, true⟩
      exact hhd2
    · intro i him
      have hia : i < s - MEMOFFSET := lt_of_lt_of_le him (min_le_left _ _)
      have hib : i < size := lt_of_lt_of_le him (min_le_right _ _)
      show h2.data (o + MEMOFFSET + i) = h.data (o + MEMOFFSET + i)
      by_contra hneq
      obtain ⟨k, hk, hmod⟩ := heff.1 (o + MEMOFFSET + i) hneq
      exact payload_safe hoa hspow hib (by omega) hk hmod
  · -- absorb or relocate
    rw [if_neg hshr] at hbre
    have hslt : s - MEMOFFSET < size := by
      rw [hsub64] at hshr
      omega
    have habsne : absorb (h.total + 2) { h with lock := h.lock + 1 } o s size ≠ none := by
      intro hc
      rw [hc] at hbre
      exact absurd hbre (by simp)
    obtain ⟨r0, habs⟩ := Option.ne_none_iff_exists'.mp habsne
    have hsucc :=
      absorb_spec (h.total + 2) { h with lock := h.lock + 1 } post o s ks size K
        (by show chain h.total (o + s) post; exact hcc)
        (fun e he => (walkH_eq_iff.mp hw1).2 e (by simp [he]))
        (fun e he => hents e (by simp [he]))
        htK hspow hs32 hoa r0 habs
    rw [habs] at hbre
    cases r0 with
    | some ns =>
      -- absorption commit: only the header at `o` is rewritten
      simp only [] at hbre
      obtain ⟨km, rext2, post2, hnspow, hcsle, hreqle, hoans, hns32, hrest, hchain⟩ :=
        hsucc ns rfl
      rw [hid] at hreqle
      injection hbre with hpair
      injection hpair with hr hh'
      injection hr with hq
      subst hq
      subst hh'
      constructor
      · refine ⟨ns, ⟨km, hnspow⟩, hreqle, ?_⟩
        rw [show o + MEMOFFSET - MEMOFFSET = o from by omega]
        show hdr (writeHdr { h with lock := h.lock + 1 } o ⟨ns, true⟩) o = some ⟨ns, true⟩
        rw [hdr_writeHdr, if_pos rfl]
      · intro i him
        show dfill ({ h with lock := h.lock + 1 } : Heap).data o MEMOFFSET 0
          (o + MEMOFFSET + i) = h.data (o + MEMOFFSET + i)
        unfold dfill
        rw [if_neg (by omega)]
    | none =>
      -- relocation: free, allocate, copy
      simp only [] at hbre
      have hbfne : bfree { h with lock := h.lock + 1 } (o + MEMOFFSET) ≠ none := by
        intro hc
        rw [hc] at hbre
        exact absurd hbre (by simp)
      obtain ⟨h2, hbf⟩ := Option.ne_none_iff_exists'.mp hbfne
      obtain ⟨ro, rs, kr, pre', lext, rext, post', hpre', hpost', hw2, hcp', hcl',
        hcrx', hrspow, hkr, hra, hsrs, hrs32, hents2, ht2, hn2, hb2, hl2, hi2, hdr2, hdata2⟩ :=
        @bfree_cond _ _ pre post o s true K hw1 rfl hents htK hK64 h2 hbf
      rw [hbf] at hbre
      simp only [] at hbre
      have hrole : ro ≤ o := chain_le hcl'
      have hballne : balloc h2 size ≠ none := by
        intro hc
        rw [hc] at hbre
        exact absurd hbre (by simp)
      obtain ⟨rbh3, hball⟩ := Option.ne_none_iff_exists'.mp hballne
      obtain ⟨rb, h3⟩ := rbh3
      obtain ⟨hbl3, hbi3, hbs3, hbtle3, ⟨K3, hK3⟩,
        ⟨bs3, hwb3, hentsb3, hneb3⟩, hfail3, hsucc3, hdata3, hhdr3⟩ :=
        @balloc_cond h2 (pre' ++ (ro, rs, false) :: post') size K
          (by rw [hi2]; show ({ h with lock := h.lock + 1 } : Heap).isInit = true; exact hinit)
          hw2 hents2 (by rw [ht2]; exact htK) (by rw [ht2]; exact h32)
          (by rw [ht2, hb2]; exact hsum)
          ⟨(ro, rs, false), by simp, by rw [hn2]⟩ hsz rb h3 hball
      rw [hball] at hbre
      cases rb with
      | none =>
        simp only [] at hbre
        exact absurd hbre (by simp)
      | some q2 =>
        simp only [] at hbre
        rcases hhd3 : hdr h3 o with _ | bold
        · rw [hhd3] at hbre
          simp only [] at hbre
          exact absurd hbre (by simp)
        · rw [hhd3] at hbre
          simp only [] at hbre
          -- facts about the protected range
          have hro16 : ro = o ∨ ro + 32 ≤ o := by
            cases hlx : lext with
            | nil =>
              left
              rw [hlx] at hcl'
              exact hcl'
            | cons e l =>
              right
              rw [hlx] at hcl'
              have he1 : e.1 = ro := hcl'.1
              have hm := chain_mem hcl' e (by simp)
              have hee : e ∈ pre := by rw [hpre', hlx]; simp
              have h32e : 32 ≤ e.2.1 := (hents e (by simp [hee])).2.1
              omega
          have hotot2 : o + s ≤ h2.total := by rw [ht2]; exact hostot
          -- the stale header at `o` is at least the old size and bounded
          have hbs : s ≤ bold.size ∧ bold.size ≤ W64 := by
            rcases hhdr3 o bold (by omega) hhd3 with h1 | h1x
            · rw [hdr2 o] at h1
              by_cases hroeq : ro = o
              · rw [if_pos hroeq] at h1
                have hbeq : (⟨rs, false⟩ : Block) = bold := by injection h1
                rw [← hbeq]
                constructor
                · show s ≤ rs
                  exact hsrs
                · show rs ≤ W64
                  rw [hrspow]
                  calc (2:Nat) ^ kr ≤ 2 ^ 64 := Nat.pow_le_pow_right (by omega) hkr
                  _ = W64 := rfl
              · rw [if_neg hroeq] at h1
                have h1' : hdr h o = some bold := h1
                have hx : hdr h o = some ⟨s, true⟩ := hdr_of_rdH hrd
                rw [hx] at h1'
                have hbeq : (⟨s, true⟩ : Block) = bold := by injection h1'
                rw [← hbeq]
                exact ⟨le_refl s, by show s ≤ W64; omega⟩
            · rw [hid] at h1x
              omega
          have hcnt : sub64 bold.size MEMOFFSET = bold.size - MEMOFFSET := by
            apply sub64_eq
            · omega
            · have hW0 : 0 < W64 := by norm_num [W64]
              omega
          rw [hcnt] at hbre
          -- data below the old block is not disturbed before the copy
          have hpres : ∀ i, i < s - MEMOFFSET →
              h3.data (o + MEMOFFSET + i) = h.data (o + MEMOFFSET + i) := by
            intro i hia
            have h3eq : h3.data (o + MEMOFFSET + i) = h2.data (o + MEMOFFSET + i) := by
              by_contra hneq
              rcases hdata3 (o + MEMOFFSET + i) (by omega) hneq with hx | ⟨k, hk, hmod⟩
              · omega
              · rw [hid] at hk
                exact payload_safe hoa hspow (by omega) (by omega) hk hmod
            rw [h3eq, hdata2]
            show dfill ({ h with lock := h.lock + 1 } : Heap).data ro MEMOFFSET 0
              (o + MEMOFFSET + i) = h.data (o + MEMOFFSET + i)
            unfold dfill
            rw [if_neg (by omega)]
          obtain ⟨o2, t, hq2o2, ⟨kt, hktpow⟩, ht32, hst, hhd3o2⟩ := hsucc3 q2 rfl
          rw [hid] at hst
          by_cases hqp : q2 < o + MEMOFFSET
          · rw [if_pos hqp] at hbre
            injection hbre with hpair
            injection hpair with hr hh'
            injection hr with hq
            subst hq
            subst hh'
            constructor
            · refine ⟨t, ⟨kt, hktpow⟩, hst, ?_⟩
              rw [hq2o2, show o2 + MEMOFFSET - MEMOFFSET = o2 from by omega]
              show hdr h3 o2 = some ⟨t, true⟩
              exact hhd3o2
            · intro i him
              have hia : i < s - MEMOFFSET := lt_of_lt_of_le him (min_le_left _ _)
              show copyFwd h3.data (o + MEMOFFSET) q2 (bold.size - MEMOFFSET) (q2 + i) =
                h.data (o + MEMOFFSET + i)
              rw [copyFwd_eq (bold.size - MEMOFFSET) h3.data (o + MEMOFFSET) q2
                (by omega) i (by have h1 := hbs.1; rw [hM] at hia ⊢; omega)]
              exact hpres i hia
          · rw [if_neg hqp] at hbre
            injection hbre with hpair
            injection hpair with hr hh'
            injection hr with hq
            subst hq
            subst hh'
            constructor
            · refine ⟨t, ⟨kt, hktpow⟩, hst, ?_⟩
              rw [hq2o2, show o2 + MEMOFFSET - MEMOFFSET = o2 from by omega]
              show hdr h3 o2 = some ⟨t, true⟩
              exact hhd3o2
            · intro i him
              have hia : i < s - MEMOFFSET := lt_of_lt_of_le him (min_le_left _ _)
              show copyBwd h3.data (o + MEMOFFSET) q2 (bold.size - MEMOFFSET) (q2 + i) =
                h.data (o + MEMOFFSET + i)
              rw [copyBwd_eq (bold.size - MEMOFFSET) h3.data (o + MEMOFFSET) q2
                (by omega) i (by have h1 := hbs.1; rw [hM] at hia ⊢; omega)]
              exact hpres i hia

/-- Claim C4, witness: shrinking the single live 64-byte block of a
concrete heap to an 8-byte request returns payload 16 on a block of
capacity 32 with the first `min(48, 8)` payload bytes intact. -/
theorem C4_witness :
    (∃ t, (∃ kt, t = 2 ^ kt) ∧ 8 + MEMOFFSET ≤ t ∧
      hdr ((brealloc HeapT 16 8).getD (none, HeapT)).2 (16 - MEMOFFSET) = some ⟨t, true⟩) ∧
    ((brealloc HeapT 16 8).getD (none, HeapT)).2.data (16 + 0) =
      HeapT.data (0 + MEMOFFSET + 0) := by
  have hmain := C4_realloc_preserves_payload HeapT [] [] 0 64 8 6 rfl rfl
    (by
      intro e he
      simp only [List.nil_append, List.mem_singleton] at he
      subst he
      exact ⟨⟨6, by decide, by decide⟩, by decide, by decide⟩)
    rfl (by decide) (by decide) ⟨(0, 64, true), by simp, rfl⟩ (by decide) (by decide)
    16 ((brealloc HeapT 16 8).getD (none, HeapT)).2 rfl
  exact ⟨hmain.1, hmain.2 0 (by decide)⟩
